import Mathlib

/-!
# RFID profile codec and counter update

A shallow embedding of `TheMostAmazingProgMiddleEast.c` together with theorems about
its segment codec (`readConfigFromCard`, `writeConfigToCard`), its length normalizer
(`enforceConfigLength`), its field locator (`findFirstNumberInConfig`,
`findLabeledNumberField`, `locateNumericField`) and its counter update
(`updateCounterInConfig`).

Modelling conventions.

* A byte (`byte`, `char`) is a `Fin 256`.  An Arduino `String` is the list of its
  `length()` bytes (`Text`).  The `String` member functions used by the program
  (`length`, `charAt`, `indexOf`, `substring`, `remove`, `+=`, `+`, `String(long)`,
  `String(const char *)`) belong to the Arduino core, not to the program; they are
  modelled by the list operation their implementation performs: `substring` and `+`
  copy bytes, `String(const char *)` takes the bytes of a buffer up to its first null
  byte, and `indexOf` runs `strstr` or `strchr` on the buffer from `fromIndex` on, so
  that it searches the C string found there, which ends at the first null byte.
* `long` is a 32 bit two's complement integer: every `long` result is an `Int` reduced
  by `wrapLong`.
* Positions and lengths (`int`, `size_t`) are natural numbers; a text that fits in the
  memory of the board is far shorter than the range of `int`.  The `int` parameter
  `searchFromIndex`, which the code tests for negativity, is an `Int`.
* The MFRC522 driver is external.  The outcome of each driver call is read from the
  device state (`authOk`, `readOk`, `writeOk`, given per target block), and every driver
  call and every diagnostic printed on the serial line is appended to `log`.
* Loops are structural recursions on the loop variant, named in each doc comment.
-/

namespace RfidProfile

/-! ## Bytes, texts and the Arduino `String` operations -/

/-- An 8 bit value (`byte` or `char`). -/
abbrev Byte := Fin 256

/-- The bytes held by an Arduino `String`. -/
abbrev Text := List Byte

/-- The bytes of a C string literal. -/
def lit (s : String) : Text := s.toList.map (fun c => Fin.ofNat c.toNat)

/-- `String::charAt`: the byte at `loc`, or 0 when `loc` is out of range. -/
def charAt (s : Text) (loc : Nat) : Byte := s.getD loc 0

/-- `isDigit`: the byte is one of `'0'`..`'9'`. -/
def isDigit (c : Byte) : Bool := decide (48 ≤ c.val) && decide (c.val ≤ 57)

/-- The bytes of the C string held in `buffer`: everything before the first null byte
(`String(const char *)`, and the view that `strstr` and `strchr` have of a buffer). -/
def stringOfCStr (buffer : List Byte) : Text := buffer.takeWhile (fun b => b != 0)

/-- The C function `strstr` on C strings given by their bytes (the terminator left out):
offset of the first occurrence of `needle` in `haystack`. -/
def strstr : Text → Text → Option Nat
  | [], needle => if needle.isEmpty then some 0 else none
  | c :: rest, needle =>
    if needle.isPrefixOf (c :: rest) then some 0
    else (strstr rest needle).map (fun k => k + 1)

/-- The C function `strchr` on a C string given by its bytes (the terminator left out),
for a byte `ch` other than the terminator: offset of the first occurrence of `ch`. -/
def strchr : Text → Byte → Option Nat
  | [], _ => none
  | c :: rest, ch => if c = ch then some 0 else (strchr rest ch).map (fun k => k + 1)

/-- `String::indexOf(const String &, fromIndex)`: `strstr(buffer + fromIndex, s2.buffer)`,
a search of the C string that starts at `fromIndex` and ends at the first null byte
from there; `none` stands for the result -1. -/
def indexOfStr (s : Text) (s2 : Text) (fromIndex : Nat) : Option Nat :=
  if fromIndex ≥ s.length then none
  else (strstr (stringOfCStr (s.drop fromIndex)) (stringOfCStr s2)).map
    (fun k => fromIndex + k)

/-- `String::indexOf(char, fromIndex)`: `strchr(buffer + fromIndex, ch)`, a search of the
C string that starts at `fromIndex` and ends at the first null byte from there; `none`
stands for the result -1. -/
def indexOfChar (s : Text) (ch : Byte) (fromIndex : Nat) : Option Nat :=
  if fromIndex ≥ s.length then none
  else (strchr (stringOfCStr (s.drop fromIndex)) ch).map (fun k => fromIndex + k)

/-- `String::substring(left, right)`. -/
def substring (s : Text) (left right : Nat) : Text :=
  let l := min left right
  let r := max left right
  if l ≥ s.length then [] else (s.take (min r s.length)).drop l

/-- `String::substring(left)`, that is `substring(left, length())`. -/
def substringFrom (s : Text) (left : Nat) : Text := substring s left s.length

/-- `String::remove(index)`: drop everything from `index` on. -/
def remove (s : Text) (index : Nat) : Text :=
  if index ≥ s.length then s else s.take index

/-- The 32 bit two's complement value of an integer (`long` arithmetic). -/
def wrapLong (x : Int) : Int := (x + 2147483648) % 4294967296 - 2147483648

/-- The digit loop of `ltoa`: the decimal digits of `n`, most significant first,
put in front of `acc`.  Variant: `n` (the loop divides `n` by ten until it is 0). -/
def ltoaDigits : Nat → Nat → Text → Text
  | 0, _, acc => acc
  | fuel + 1, n, acc =>
    let acc1 : Text := Fin.ofNat (48 + n % 10) :: acc
    if n / 10 = 0 then acc1 else ltoaDigits fuel (n / 10) acc1

/-- `String(long)`: decimal text of the value (`ltoa` in base 10), with a leading `-`
for a negative value. -/
def stringOfLong (value : Int) : Text :=
  if value < 0 then (45 : Byte) :: ltoaDigits value.natAbs value.natAbs []
  else if value = 0 then [48]
  else ltoaDigits value.natAbs value.natAbs []

/-! ## Constants -/

/-- The block address map. -/
def DATA_SECTOR_BLOCKS : List Nat := [4, 5, 6, 8, 9, 10, 12, 13, 14, 16, 17, 18, 20, 21, 22, 24]

/-- Number of mapped blocks. -/
def DATA_SECTOR_BLOCK_COUNT : Nat := DATA_SECTOR_BLOCKS.length

/-- Capacity of the mapped region in bytes. -/
def MAX_CONFIG_BYTES : Nat := DATA_SECTOR_BLOCK_COUNT * 16

/-- Minimum length of a stored record. -/
def MIN_CONFIG_BYTES : Nat := 97

/-- The filler pattern. -/
def FILLER_PATTERN_TEXT : Text := lit "RFID_PROFILE_FILLER::v2::chunk-XYZ-987654321-"

/-! ## The card reader and the block input and output -/

/-- A driver call or a diagnostic line printed on the serial port. -/
inductive Event where
  | authenticate (sectorTrailerBlock : Nat)
  | mifareRead (targetBlock : Nat)
  | mifareWrite (targetBlock : Nat) (data : List Byte)
  | authFailure (targetBlock : Nat)
  | readFailure (targetBlock : Nat)
  | writeFailure (targetBlock : Nat)
deriving DecidableEq, Repr

/-- The reader with the card in its field.  `blocks` is the card memory.  `authOk b`,
`readOk b` and `writeOk b` tell whether `PCD_Authenticate`, `MIFARE_Read` and
`MIFARE_Write` return `STATUS_OK` when they are called on behalf of target block `b`.
A `MIFARE_Write` that fails is taken to leave the card memory as it was. -/
structure Reader where
  blocks : Nat → Fin 16 → Byte
  authOk : Nat → Bool
  readOk : Nat → Bool
  writeOk : Nat → Bool
  log : List Event

/-- Append an event to the log. -/
def Reader.emit (d : Reader) (e : Event) : Reader := { d with log := d.log ++ [e] }

/-- The sector trailer that `authenticateDataBlock` computes for a block (a `byte`). -/
def sectorTrailerBlock (targetBlock : Nat) : Nat := ((targetBlock / 4) * 4 + 3) % 256

/-- `authenticateDataBlock`. -/
def authenticateDataBlock (targetBlock : Nat) (d : Reader) : Bool × Reader :=
  let d := d.emit (Event.authenticate (sectorTrailerBlock targetBlock))
  if d.authOk targetBlock = false then (false, d.emit (Event.authFailure targetBlock))
  else (true, d)

/-- `readDataBlock`; `none` stands for the result `false`, which leaves `destination16`
unwritten. -/
def readDataBlock (targetBlock : Nat) (d : Reader) : Option (Fin 16 → Byte) × Reader :=
  match authenticateDataBlock targetBlock d with
  | (false, d) => (none, d)
  | (true, d) =>
    let d := d.emit (Event.mifareRead targetBlock)
    if d.readOk targetBlock = false then (none, d.emit (Event.readFailure targetBlock))
    else (some (d.blocks targetBlock), d)

/-- `writeDataBlock`. -/
def writeDataBlock (targetBlock : Nat) (source16 : Fin 16 → Byte) (d : Reader) : Bool × Reader :=
  match authenticateDataBlock targetBlock d with
  | (false, d) => (false, d)
  | (true, d) =>
    let d := d.emit (Event.mifareWrite targetBlock (List.ofFn source16))
    if d.writeOk targetBlock = false then (false, d.emit (Event.writeFailure targetBlock))
    else (true, { d with blocks := Function.update d.blocks targetBlock source16 })

/-! ## Segment codec -/

/-- `memcpy(buffer + offset, source16, 16)`. -/
def memcpy16 (buffer : List Byte) (offset : Nat) (source16 : Fin 16 → Byte) : List Byte :=
  buffer.take offset ++ List.ofFn source16 ++ buffer.drop (offset + 16)

/-- The `for` loop of `readConfigFromCard` over the blocks still to be read, with the
current `writeOffset` and `configBuffer`; `none` stands for the early `return false`. -/
def readBlocksLoop : List Nat → Nat → List Byte → Reader → Option (List Byte) × Reader
  | [], _, configBuffer, d => (some configBuffer, d)
  | targetBlock :: rest, writeOffset, configBuffer, d =>
    match readDataBlock targetBlock d with
    | (none, d) => (none, d)
    | (some singleBlockData, d) =>
      readBlocksLoop rest (writeOffset + 16) (memcpy16 configBuffer writeOffset singleBlockData) d

/-- `readConfigFromCard`: the result, the value of `configOut` afterwards, and the
reader afterwards. -/
def readConfigFromCard (d : Reader) (configOut : Text) : Bool × Text × Reader :=
  let configBuffer : List Byte := List.replicate (MAX_CONFIG_BYTES + 1) 0
  match readBlocksLoop DATA_SECTOR_BLOCKS 0 configBuffer d with
  | (none, d) => (false, configOut, d)
  | (some configBuffer, d) =>
    let configBuffer := configBuffer.set MAX_CONFIG_BYTES 0
    (true, stringOfCStr configBuffer, d)

/-- The inner `for` loop of `writeConfigToCard`: the 16 bytes put in `singleBlockData`
for the chunk that starts at `readOffset`. -/
def blockChunk (configIn : Text) (totalBytesToWrite readOffset : Nat) : Fin 16 → Byte :=
  fun byteIndex =>
    let configIndex := readOffset + byteIndex.val
    if configIndex < totalBytesToWrite then charAt configIn configIndex else 0

/-- The outer `for` loop of `writeConfigToCard` over the blocks still to be written,
with the current `readOffset`. -/
def writeBlocksLoop (configIn : Text) (totalBytesToWrite : Nat) :
    List Nat → Nat → Reader → Bool × Reader
  | [], _, d => (true, d)
  | targetBlock :: rest, readOffset, d =>
    match writeDataBlock targetBlock (blockChunk configIn totalBytesToWrite readOffset) d with
    | (false, d) => (false, d)
    | (true, d) => writeBlocksLoop configIn totalBytesToWrite rest (readOffset + 16) d

/-- `writeConfigToCard`. -/
def writeConfigToCard (configIn : Text) (d : Reader) : Bool × Reader :=
  let totalBytesToWrite := configIn.length
  let totalBytesToWrite :=
    if totalBytesToWrite > MAX_CONFIG_BYTES then MAX_CONFIG_BYTES else totalBytesToWrite
  writeBlocksLoop configIn totalBytesToWrite DATA_SECTOR_BLOCKS 0 d

/-! ## Length normalizer -/

/-- The `while` loop of `enforceConfigLength`.  Variant: `MIN_CONFIG_BYTES - length`;
when it is 0 the loop condition is false. -/
def appendFillerLoop : Nat → Text → Text
  | 0, configText => configText
  | fuel + 1, configText =>
    if configText.length < MIN_CONFIG_BYTES then
      appendFillerLoop fuel (configText ++ FILLER_PATTERN_TEXT)
    else configText

/-- `enforceConfigLength`. -/
def enforceConfigLength (configText : Text) : Text :=
  let padded : Text :=
    if configText.length < MIN_CONFIG_BYTES then
      let marked := configText ++ lit " [auto-fill v2] "
      appendFillerLoop (MIN_CONFIG_BYTES - marked.length) marked
    else configText
  if padded.length > MAX_CONFIG_BYTES then remove padded MAX_CONFIG_BYTES else padded

/-- `createDefaultConfigTemplate`. -/
def createDefaultConfigTemplate (counterValue : Int) : Text :=
  let defaultConfig := lit "RFID lab profile: logical_counter = "
  let defaultConfig := defaultConfig ++ stringOfLong counterValue
  let defaultConfig := defaultConfig ++
    lit " . Remaining space is filled with structured placeholder bytes for this experiment. "
  let defaultConfig := defaultConfig ++ FILLER_PATTERN_TEXT
  let defaultConfig := defaultConfig ++
    lit " Extra filler segments keep the profile length constant across cards."
  enforceConfigLength defaultConfig

/-! ## Field locator -/

/-- A located numeric field: the out-parameters `fieldStart`, `fieldEnd` and
`numericValue` of the locator functions, written only when they return `true`. -/
structure NumericField where
  fieldStart : Nat
  fieldEnd : Nat
  numericValue : Int
deriving DecidableEq, Repr

/-- The inner `while` loop of `findFirstNumberInConfig`: from position `j` with the
value `parsedValue` accumulated so far, returns the final `j` and `parsedValue`.
Variant: `configLength - j`; when it is 0 the loop condition is false. -/
def parseDigitRun (configText : Text) (configLength : Nat) : Nat → Nat → Int → Nat × Int
  | 0, j, parsedValue => (j, parsedValue)
  | fuel + 1, j, parsedValue =>
    if j < configLength ∧ isDigit (charAt configText j) = true then
      parseDigitRun configText configLength fuel (j + 1)
        (wrapLong (parsedValue * 10 + (((charAt configText j).val : Int) - 48)))
    else (j, parsedValue)

/-- The `for` loop of `findFirstNumberInConfig` from position `i`.
Variant: `configLength - i`; when it is 0 the loop condition is false. -/
def scanForNumber (configText : Text) (configLength : Nat) : Nat → Nat → Option NumericField
  | 0, _ => none
  | fuel + 1, i =>
    if i < configLength then
      let currentChar := charAt configText i
      let hasSign : Bool := currentChar = 45 || currentChar = 43
      if isDigit currentChar ||
          (hasSign && decide (i + 1 < configLength) && isDigit (charAt configText (i + 1))) then
        let isNegative : Bool := currentChar = 45
        let j := i + (if hasSign then 1 else 0)
        let run := parseDigitRun configText configLength (configLength - j) j 0
        some ⟨i, run.1, if isNegative then wrapLong (-run.2) else run.2⟩
      else scanForNumber configText configLength fuel (i + 1)
    else none

/-- `findFirstNumberInConfig`; `none` stands for the result `false`. -/
def findFirstNumberInConfig (configText : Text) (searchFromIndex : Int) : Option NumericField :=
  let configLength := configText.length
  let searchFromIndex : Int := if searchFromIndex < 0 then 0 else searchFromIndex
  scanForNumber configText configLength (configLength - searchFromIndex.toNat)
    searchFromIndex.toNat

/-- `findLabeledNumberField`; `none` stands for the result `false`.  The label is a C
string (`const char *`), given by the bytes of its buffer: `strlen` counts the bytes
before the first null byte. -/
def findLabeledNumberField (configText : Text) (labelKeyword : Text) : Option NumericField :=
  match indexOfStr configText labelKeyword 0 with
  | none => none
  | some labelIndex =>
    let numericSearchStart : Int :=
      match indexOfChar configText 58 labelIndex with
      | some colonIndex => (colonIndex : Int) + 1
      | none => (labelIndex : Int) + ((stringOfCStr labelKeyword).length : Int)
    findFirstNumberInConfig configText numericSearchStart

/-- `locateNumericField`; `none` stands for the result `false`. -/
def locateNumericField (configText : Text) : Option NumericField :=
  match findLabeledNumberField configText (lit "balance") with
  | some f => some f
  | none =>
    match findLabeledNumberField configText (lit "counter") with
    | some f => some f
    | none => findFirstNumberInConfig configText 0

/-! ## Counter update -/

/-- What `updateCounterInConfig` hands back: the returned `String` and the two
out-parameters. -/
structure UpdateResult where
  config : Text
  previousValue : Int
  newValue : Int
deriving DecidableEq, Repr

/-- The part of `updateCounterInConfig` after a field has been located in
`workingConfig` (source lines 311 to 321). -/
def spliceCounter (workingConfig : Text) (f : NumericField) : UpdateResult :=
  let previousValue := f.numericValue
  let newValue := wrapLong (f.numericValue - 1)
  let newValue := if newValue < 0 then 99 else newValue
  let leftSegment := substring workingConfig 0 f.fieldStart
  let rightSegment := substringFrom workingConfig f.fieldEnd
  let workingConfig := leftSegment ++ stringOfLong newValue ++ rightSegment
  ⟨enforceConfigLength workingConfig, previousValue, newValue⟩

/-- `updateCounterInConfig`. -/
def updateCounterInConfig (configText : Text) : UpdateResult :=
  let workingConfig := configText
  match locateNumericField workingConfig with
  | some f => spliceCounter workingConfig f
  | none =>
    let workingConfig := createDefaultConfigTemplate 5
    match locateNumericField workingConfig with
    | some f => spliceCounter workingConfig f
    | none => ⟨workingConfig, 5, 5⟩

/-! ## Vocabulary of the statements -/

/-- The values a `long` can hold. -/
def InLongRange (v : Int) : Prop := -2147483648 ≤ v ∧ v < 2147483648

/-- The number that a text of decimal digits denotes. -/
def decimalValue (digits : Text) : Nat :=
  digits.foldl (fun acc c => acc * 10 + (c.val - 48)) 0

/-- The text `pat` occurs in `text` at offset `k`. -/
def OccursAt (pat text : Text) (k : Nat) : Prop := pat <+: text.drop k

/-- Both driver calls of `readDataBlock` succeed for the block. -/
def readSucceeds (d : Reader) (targetBlock : Nat) : Bool :=
  d.authOk targetBlock && d.readOk targetBlock

/-- Both driver calls of `writeDataBlock` succeed for the block. -/
def writeSucceeds (d : Reader) (targetBlock : Nat) : Bool :=
  d.authOk targetBlock && d.writeOk targetBlock

/-- The `i`-th entry of the block address map. -/
def mappedBlock (i : Nat) : Nat := DATA_SECTOR_BLOCKS.getD i 0

/-- The input of the worked example of the splice: the record
`counter: 10 rest of data...` brought to the minimum length. -/
def exampleRecord : Text := enforceConfigLength (lit "counter: 10 rest of data...")

/-- The default template with the literal 5 as it leaves `createDefaultConfigTemplate`. -/
def defaultTemplateText : Text :=
  lit ("RFID lab profile: logical_counter = 5 . Remaining space is filled with structured " ++
    "placeholder bytes for this experiment. RFID_PROFILE_FILLER::v2::chunk-XYZ-987654321- " ++
    "Extra filler segments keep the profile length constant across cards.")

/-- The record that `updateCounterInConfig` returns when no field is located in its
input: the default template with the `2` of the filler's `v2` decremented. -/
def defaultSynthesisText : Text :=
  lit ("RFID lab profile: logical_counter = 5 . Remaining space is filled with structured " ++
    "placeholder bytes for this experiment. RFID_PROFILE_FILLER::v1::chunk-XYZ-987654321- " ++
    "Extra filler segments keep the profile length constant across cards.")

instance (pat text : Text) (k : Nat) : Decidable (OccursAt pat text k) := by
  unfold OccursAt
  infer_instance

/-- The contents of the listed blocks, one after the other. -/
def concatBlocks (d : Reader) : List Nat → List Byte
  | [] => []
  | b :: rest => List.ofFn (d.blocks b) ++ concatBlocks d rest

/-- Bytes `[16 i, 16 i + 16)` of the record `r` clamped to its first 256 bytes, with a
zero byte at every position at or beyond `min r.length 256`. -/
def expectedChunk (r : Text) (i : Nat) : Fin 16 → Byte :=
  fun j => if 16 * i + j.val < min r.length 256 then charAt r (16 * i + j.val) else 0

/-- A blank card (every byte zero) on a reader whose driver calls all succeed. -/
def blankReader : Reader :=
  { blocks := fun _ _ => 0, authOk := fun _ => true, readOk := fun _ => true,
    writeOk := fun _ => true, log := [] }

/-- A blank card on which `MIFARE_Read` fails for block 6, the third mapped block. -/
def readFailsAtSix : Reader := { blankReader with readOk := fun b => b != 6 }

/-- A blank card on which `MIFARE_Write` fails for block 6, the third mapped block. -/
def writeFailsAtSix : Reader := { blankReader with writeOk := fun b => b != 6 }

/-- A record of 97 bytes with a null byte at offset 10. -/
def recordWithNull : Text := lit "counter: 5" ++ 0 :: List.replicate 86 120

/-- The filler pattern `k` times over. -/
def repeatFiller : Nat → Text
  | 0 => []
  | k + 1 => FILLER_PATTERN_TEXT ++ repeatFiller k

/-- The text holds no null byte. -/
def NoNull (t : Text) : Prop := ∀ c ∈ t, c ≠ 0

instance (t : Text) : Decidable (NoNull t) := by
  unfold NoNull
  infer_instance

/-- The byte is `-` or `+`. -/
def isSign (c : Byte) : Bool := c = 45 || c = 43

/-- A number starts at position `i`: a digit, or a sign immediately followed by a digit. -/
def startsNumber (text : Text) (i : Nat) : Bool :=
  isDigit (charAt text i) || (isSign (charAt text i) && isDigit (charAt text (i + 1)))

/-- Position of the first digit of the number that starts at `s`: after the sign, if any. -/
def digitStart (text : Text) (s : Nat) : Nat := s + (if isSign (charAt text s) then 1 else 0)

/-- The bytes of `text` at positions `[a, b)`. -/
def slice (text : Text) (a b : Nat) : Text := (text.take b).drop a

/-- The field that `findFirstNumberInConfig` builds when its scan stops at position `s`. -/
def numberAt (text : Text) (s : Nat) : NumericField :=
  let run := parseDigitRun text text.length (text.length - digitStart text s) (digitStart text s) 0
  ⟨s, run.1, if charAt text s = 45 then wrapLong (-run.2) else run.2⟩

/-- The byte is a digit or a sign: one of the bytes a located field is made of. -/
def isNumeric (c : Byte) : Bool := isDigit c || isSign c

/-- A label to search for: not empty, free of digits and signs, free of null bytes. -/
def GoodLabel (label : Text) : Prop :=
  label ≠ [] ∧ (∀ c ∈ label, isNumeric c = false) ∧ NoNull label

/-- The search that a labelled lookup comes down to in a text `a ++ x ++ b` whose middle
part `x` (of length `xLen`, after `aLen` bytes) is a number: no search at all, a search
from a position `ss` within `a`, or a search from the position `σ` of `b`. -/
def searchAfterLabel (t : Text) (aLen xLen : Nat) : Option (Nat ⊕ Nat) → Option NumericField
  | none => none
  | some (Sum.inl ss) => findFirstNumberInConfig t (ss : Int)
  | some (Sum.inr σ) => findFirstNumberInConfig t ((σ + aLen + xLen : Nat) : Int)

/-- The search that a labelled lookup for `label` comes down to in a text `a ++ x ++ b`
whose middle part `x` is a number (an argument of `searchAfterLabel`), read off from
where `label` and the first `:` after it lie in `a` and in `b`. -/
def labelPlan (a b label : Text) : Option (Nat ⊕ Nat) :=
  match strstr a label with
  | some p =>
    match strchr (a.drop p) 58 with
    | some k => some (Sum.inl (p + k + 1))
    | none =>
      match strchr b 58 with
      | some q => some (Sum.inr (q + 1))
      | none => some (Sum.inl (p + label.length))
  | none =>
    match strstr b label with
    | none => none
    | some q =>
      match strchr (b.drop q) 58 with
      | some k => some (Sum.inr (q + k + 1))
      | none => some (Sum.inr (q + label.length))

/-- The label `label` occurs nowhere in `text`. -/
def Absent (label text : Text) : Prop := ∀ k, k ≤ text.length → ¬ OccursAt label text k

instance (label text : Text) : Decidable (Absent label text) := by
  unfold Absent
  infer_instance

/-- The label `label` occurs in `text`, at some offset `p`, with a `:` at or after `p`. -/
def ColonAfter (label text : Text) : Prop :=
  ∃ p, p < text.length ∧ (OccursAt label text p ∧ (58 : Byte) ∈ text.drop p)

instance (label text : Text) : Decidable (ColonAfter label text) := by
  unfold ColonAfter
  infer_instance

/-- A `:` stands among the bytes of `s` beyond the capacity, which `enforceConfigLength`
cuts off. -/
def ColonCut (s : Text) : Prop := (58 : Byte) ∈ s.drop MAX_CONFIG_BYTES

instance (s : Text) : Decidable (ColonCut s) := by
  unfold ColonCut
  infer_instance

/-- The record that `updateCounterInConfig` hands to `enforceConfigLength`: `text` with
the bytes of the field `f` replaced by the decimal text of `newValue`. -/
def splicedRecord (text : Text) (f : NumericField) (newValue : Int) : Text :=
  text.take f.fieldStart ++ stringOfLong newValue ++ text.drop f.fieldEnd

/-- The text `5`, a null byte, `balance: 7 counter: 3`. -/
def nullBeforeLabel : Text := lit "5" ++ 0 :: lit "balance: 7 counter: 3"

/-- A record of 106 bytes whose number `-5` comes right after another `-`. -/
def signedRecord : Text := lit "x: --5" ++ List.replicate 100 120

/-- A record of 256 bytes that ends in the number `0`. -/
def fullRecord : Text := List.replicate 255 120 ++ lit "0"

/-- A record of 256 bytes that ends in `:`, with the number `0` after `counter:` and the
label `balance` followed by no colon before that last byte. -/
def colonCutRecord : Text := lit "counter: 0 balance 5" ++ List.replicate 235 120 ++ lit ":"

/-! ## Constants and `long` arithmetic -/

theorem MAX_CONFIG_BYTES_eq : MAX_CONFIG_BYTES = 256 := by decide

theorem FILLER_PATTERN_TEXT_length : FILLER_PATTERN_TEXT.length = 45 := by decide

theorem wrapLong_inRange (x : Int) : InLongRange (wrapLong x) := by
  unfold InLongRange wrapLong
  omega

theorem wrapLong_of_inRange (x : Int) (h : InLongRange x) : wrapLong x = x := by
  unfold InLongRange at h
  unfold wrapLong
  omega

/-! ## The `String` operations -/

theorem remove_eq_take (s : Text) (index : Nat) : remove s index = s.take index := by
  unfold remove
  split
  · rename_i h
    exact (List.take_of_length_le h).symm
  · rfl

theorem substring_zero (s : Text) (right : Nat) : substring s 0 right = s.take right := by
  unfold substring
  simp only [Nat.zero_min, Nat.zero_max, List.drop_zero]
  split
  · rename_i h
    have : s = [] := List.length_eq_zero.mp (by omega)
    subst this
    simp
  · rw [List.take_eq_take]
    simp [Nat.min_assoc]

theorem substringFrom_eq_drop (s : Text) (left : Nat) : substringFrom s left = s.drop left := by
  unfold substringFrom substring
  simp only
  split
  · rename_i h
    rw [List.drop_of_length_le]
    rw [ge_iff_le, Nat.le_min] at h
    exact h.1
  · rename_i h
    have h1 : max left s.length = s.length := by
      rw [ge_iff_le, Nat.le_min] at h
      omega
    have h2 : min left s.length = left := by
      rw [ge_iff_le, Nat.le_min] at h
      omega
    rw [h1, h2, Nat.min_self, List.take_length]

theorem digitByte_val (n : Nat) : ((Fin.ofNat (48 + n % 10) : Byte)).val = 48 + n % 10 := by
  show (48 + n % 10) % 256 = 48 + n % 10
  omega

theorem ltoaDigits_spec (fuel : Nat) :
    ∀ (n : Nat) (acc : Text), 0 < n → n ≤ fuel →
      (ltoaDigits fuel n acc).foldl (fun a c => a * 10 + (c.val - 48)) 0
          = acc.foldl (fun a c => a * 10 + (c.val - 48)) n ∧
      (∀ c ∈ ltoaDigits fuel n acc, isDigit c = true ∨ c ∈ acc) ∧
      (∃ c rest, ltoaDigits fuel n acc = c :: rest ∧ c ≠ 48) := by
  induction fuel with
  | zero => intro n acc h1 h2; omega
  | succ k ih =>
    intro n acc h1 h2
    simp only [ltoaDigits]
    split
    · rename_i h0
      have hn : n % 10 = n := by omega
      refine ⟨?_, ?_, ?_⟩
      · simp only [List.foldl_cons, digitByte_val]
        congr 1
        omega
      · intro c hc
        rcases List.mem_cons.mp hc with hc | hc
        · left
          subst hc
          simp only [isDigit, digitByte_val]
          simp
          omega
        · right; exact hc
      · refine ⟨_, _, rfl, ?_⟩
        intro hc
        have := congrArg Fin.val hc
        rw [digitByte_val] at this
        simp at this
        omega
    · rename_i h0
      have hk : n / 10 ≤ k := by omega
      have hpos : 0 < n / 10 := by omega
      obtain ⟨e1, e2, e3⟩ := ih (n / 10) (Fin.ofNat (48 + n % 10) :: acc) hpos hk
      refine ⟨?_, ?_, e3⟩
      · rw [e1]
        simp only [List.foldl_cons, digitByte_val]
        congr 1
        omega
      · intro c hc
        rcases e2 c hc with hc | hc
        · left; exact hc
        · rcases List.mem_cons.mp hc with hc | hc
          · left
            subst hc
            simp only [isDigit, digitByte_val]
            simp
            omega
          · right; exact hc

/-- The decimal text of a non-negative value: digits only, no leading zero, and it
denotes the value. -/
theorem stringOfLong_nonneg (v : Int) (hv : 0 ≤ v) :
    (∀ c ∈ stringOfLong v, isDigit c = true) ∧
    (decimalValue (stringOfLong v) : Int) = v ∧
    (v ≠ 0 → ∃ c rest, stringOfLong v = c :: rest ∧ c ≠ 48) ∧
    (v = 0 → stringOfLong v = [48]) := by
  by_cases h0 : v = 0
  · subst h0
    have e : stringOfLong 0 = [48] := by decide
    rw [e]
    exact ⟨by decide!, by decide!, fun h => absurd rfl h, fun _ => rfl⟩
  · unfold stringOfLong
    have hpos : 0 < v.natAbs := Int.natAbs_pos.mpr h0
    obtain ⟨e1, e2, e3⟩ := ltoaDigits_spec v.natAbs v.natAbs [] hpos (le_refl _)
    simp only [if_neg (not_lt.mpr hv), if_neg h0]
    refine ⟨?_, ?_, fun _ => e3, fun h => absurd h h0⟩
    · intro c hc
      rcases e2 c hc with h | h
      · exact h
      · simp at h
    · unfold decimalValue
      rw [e1]
      simp only [List.foldl_nil]
      omega

/-! ## Length normalizer -/

theorem appendFillerLoop_length_ge (fuel : Nat) :
    ∀ t : Text, MIN_CONFIG_BYTES - t.length ≤ fuel →
      MIN_CONFIG_BYTES ≤ (appendFillerLoop fuel t).length := by
  induction fuel with
  | zero =>
    intro t h
    simp only [appendFillerLoop]
    omega
  | succ n ih =>
    intro t h
    simp only [appendFillerLoop]
    split
    · apply ih
      rw [List.length_append, FILLER_PATTERN_TEXT_length]
      omega
    · omega

theorem enforceConfigLength_of_bounds (x : Text) (h1 : MIN_CONFIG_BYTES ≤ x.length)
    (h2 : x.length ≤ MAX_CONFIG_BYTES) : enforceConfigLength x = x := by
  unfold enforceConfigLength
  have h3 : ¬ x.length < MIN_CONFIG_BYTES := by omega
  have h4 : ¬ x.length > MAX_CONFIG_BYTES := by omega
  simp only [h3, h4, if_false]

theorem enforceConfigLength_length (r : Text) :
    MIN_CONFIG_BYTES ≤ (enforceConfigLength r).length ∧
      (enforceConfigLength r).length ≤ MAX_CONFIG_BYTES := by
  have hmax : MAX_CONFIG_BYTES = 256 := MAX_CONFIG_BYTES_eq
  have hmin : MIN_CONFIG_BYTES = 97 := rfl
  unfold enforceConfigLength
  simp only [remove_eq_take]
  have hp : ∀ p : Text, MIN_CONFIG_BYTES ≤ p.length →
      MIN_CONFIG_BYTES ≤
        (if p.length > MAX_CONFIG_BYTES then p.take MAX_CONFIG_BYTES else p).length ∧
      (if p.length > MAX_CONFIG_BYTES then p.take MAX_CONFIG_BYTES else p).length
        ≤ MAX_CONFIG_BYTES := by
    intro p hp
    split
    · rw [List.length_take]
      omega
    · omega
  apply hp
  split
  · apply appendFillerLoop_length_ge
    omega
  · omega

/-- C5. Normalization bounds: for every text `r`, of any length, `enforceConfigLength r`
is defined and its length lies between `MIN_CONFIG_BYTES` (97) and `MAX_CONFIG_BYTES`
(256).  The lower bound says that the filler loop is left through its exit test. -/
theorem enforceConfigLength_bounds (r : Text) :
    97 ≤ (enforceConfigLength r).length ∧ (enforceConfigLength r).length ≤ 256 ∧
    MIN_CONFIG_BYTES = 97 ∧ MAX_CONFIG_BYTES = 256 :=
  ⟨(enforceConfigLength_length r).1,
   MAX_CONFIG_BYTES_eq ▸ (enforceConfigLength_length r).2, rfl, MAX_CONFIG_BYTES_eq⟩

/-- C6. Normalization idempotence: normalizing a normalized text changes nothing. -/
theorem enforceConfigLength_idempotent (r : Text) :
    enforceConfigLength (enforceConfigLength r) = enforceConfigLength r :=
  enforceConfigLength_of_bounds _ (enforceConfigLength_length r).1
    (enforceConfigLength_length r).2

/-! ## Field locator: range of the value -/

theorem parseDigitRun_inRange (configText : Text) (configLength : Nat) (fuel : Nat) :
    ∀ (j : Nat) (v : Int), InLongRange v →
      InLongRange (parseDigitRun configText configLength fuel j v).2 := by
  induction fuel with
  | zero => intro j v hv; simpa [parseDigitRun] using hv
  | succ n ih =>
    intro j v hv
    simp only [parseDigitRun]
    split
    · exact ih _ _ (wrapLong_inRange _)
    · exact hv

theorem scanForNumber_inRange (configText : Text) (configLength : Nat) (fuel : Nat) :
    ∀ (i : Nat) (f : NumericField), scanForNumber configText configLength fuel i = some f →
      InLongRange f.numericValue := by
  induction fuel with
  | zero => intro i f h; simp [scanForNumber] at h
  | succ n ih =>
    intro i f h
    simp only [scanForNumber] at h
    split at h
    · split at h
      · injection h with h
        subst h
        simp only
        split
        · exact wrapLong_inRange _
        · exact parseDigitRun_inRange _ _ _ _ _ (by unfold InLongRange; omega)
      · exact ih _ _ h
    · exact absurd h (by simp)

theorem findFirstNumberInConfig_inRange (configText : Text) (searchFromIndex : Int)
    (f : NumericField) (h : findFirstNumberInConfig configText searchFromIndex = some f) :
    InLongRange f.numericValue :=
  scanForNumber_inRange _ _ _ _ _ h

theorem findLabeledNumberField_inRange (configText labelKeyword : Text) (f : NumericField)
    (h : findLabeledNumberField configText labelKeyword = some f) :
    InLongRange f.numericValue := by
  unfold findLabeledNumberField at h
  split at h
  · exact absurd h (by simp)
  · exact findFirstNumberInConfig_inRange _ _ _ h

theorem locateNumericField_inRange (configText : Text) (f : NumericField)
    (h : locateNumericField configText = some f) : InLongRange f.numericValue := by
  unfold locateNumericField at h
  split at h
  · rename_i g hg
    injection h with h
    subst h
    exact findLabeledNumberField_inRange _ _ _ hg
  · split at h
    · rename_i g hg
      injection h with h
      subst h
      exact findLabeledNumberField_inRange _ _ _ hg
    · exact findFirstNumberInConfig_inRange _ _ _ h

/-! ## Counter update -/

theorem updateCounterInConfig_of_located (text : Text) (f : NumericField)
    (h : locateNumericField text = some f) :
    updateCounterInConfig text = spliceCounter text f := by
  unfold updateCounterInConfig
  simp only [h]

theorem spliceCounter_newValue_nonneg (w : Text) (f : NumericField) :
    0 ≤ (spliceCounter w f).newValue := by
  simp only [spliceCounter]
  split
  · omega
  · omega

theorem spliceCounter_config (w : Text) (f : NumericField) :
    (spliceCounter w f).config = enforceConfigLength
      (w.take f.fieldStart ++ stringOfLong (spliceCounter w f).newValue ++ w.drop f.fieldEnd) := by
  simp only [spliceCounter, substring_zero, substringFrom_eq_drop]

/-- C2 (amended). Counter decrement with wraparound: when `locateNumericField` finds a
field with value `v`, `updateCounterInConfig` reports `previousValue = v`;
`newValue = v - 1` when `v - 1 ≥ 0`; `newValue = 99` when `v - 1 < 0` and `v` is not the
least `long` value -2147483648; a field value 0 yields 99 and a field value 42 yields
41; and `newValue` is never negative. -/
theorem updateCounterInConfig_decrement (text : Text) (f : NumericField)
    (h : locateNumericField text = some f) :
    (updateCounterInConfig text).previousValue = f.numericValue ∧
    (0 ≤ f.numericValue - 1 → (updateCounterInConfig text).newValue = f.numericValue - 1) ∧
    (f.numericValue - 1 < 0 → f.numericValue ≠ -2147483648 →
      (updateCounterInConfig text).newValue = 99) ∧
    (f.numericValue = 0 → (updateCounterInConfig text).newValue = 99) ∧
    (f.numericValue = 42 → (updateCounterInConfig text).newValue = 41) ∧
    0 ≤ (updateCounterInConfig text).newValue := by
  have hr := locateNumericField_inRange text f h
  rw [updateCounterInConfig_of_located text f h]
  unfold InLongRange at hr
  simp only [spliceCounter]
  have hw := wrapLong_inRange (f.numericValue - 1)
  unfold InLongRange at hw
  refine ⟨trivial, ?_, ?_, ?_, ?_, ?_⟩
  · intro h1
    rw [wrapLong_of_inRange _ (by unfold InLongRange; omega)]
    simp only [if_neg (not_lt.mpr h1)]
  · intro h1 h2
    rw [wrapLong_of_inRange _ (by unfold InLongRange; omega)]
    simp only [if_pos h1]
  · intro h1
    rw [h1]
    decide
  · intro h1
    rw [h1]
    decide
  · split
    · omega
    · omega

/-- Witness for C2: the text `x 42`, whose field 42 is decremented to 41. -/
theorem updateCounterInConfig_decrement_witness :
    locateNumericField (lit "x 42") = some ⟨2, 4, 42⟩ ∧
    (updateCounterInConfig (lit "x 42")).previousValue = 42 ∧
    (updateCounterInConfig (lit "x 42")).newValue = 41 :=
  ⟨by decide!,
   (updateCounterInConfig_decrement (lit "x 42") ⟨2, 4, 42⟩ (by decide!)).1,
   (updateCounterInConfig_decrement (lit "x 42") ⟨2, 4, 42⟩ (by decide!)).2.2.2.2.1 rfl⟩

/-- Counterexample to C2 as stated: in the text `-2147483648` the located value is
`v = -2147483648`, so `v - 1 < 0`, yet the reported `newValue` is 2147483647, not 99. -/
theorem updateCounterInConfig_long_min :
    locateNumericField (lit "-2147483648") = some ⟨0, 11, -2147483648⟩ ∧
    ((-2147483648 : Int) - 1 < 0) ∧
    (updateCounterInConfig (lit "-2147483648")).previousValue = -2147483648 ∧
    (updateCounterInConfig (lit "-2147483648")).newValue = 2147483647 ∧
    (updateCounterInConfig (lit "-2147483648")).newValue ≠ 99 := by
  decide!

/-- C3 (the code at the failing input). Default synthesis on the empty text: no field is
located in it, the synthesized template holds the literal 5, but the field located in
the template is the `2` of the filler's `v2` (the first `:` at or after the label
`counter` lies in the filler), so the reported values are 2 and 1 and the returned
record still reads `logical_counter = 5`. -/
theorem updateCounterInConfig_empty_text :
    locateNumericField [] = none ∧
    createDefaultConfigTemplate 5 = defaultTemplateText ∧
    locateNumericField (createDefaultConfigTemplate 5) = some ⟨143, 144, 2⟩ ∧
    updateCounterInConfig [] = ⟨defaultSynthesisText, 2, 1⟩ ∧
    (updateCounterInConfig []).previousValue ≠ 5 ∧
    (updateCounterInConfig []).newValue ≠ 4 := by
  decide!

theorem updateCounterInConfig_of_not_located (text : Text)
    (h : locateNumericField text = none) :
    updateCounterInConfig text = ⟨defaultSynthesisText, 2, 1⟩ := by
  have e : updateCounterInConfig text = updateCounterInConfig [] := by
    have h0 : locateNumericField ([] : Text) = none := by decide!
    unfold updateCounterInConfig
    simp only [h, h0]
  rw [e]
  decide!

/-- C7. Splice: when `locateNumericField` finds the span `[fieldStart, fieldEnd)`, the
returned record is `enforceConfigLength` of the unchanged prefix, the decimal text of
`newValue` and the unchanged suffix; that decimal text consists of digits only (no
sign), denotes `newValue`, and has no leading zero (it is `0` itself for the value 0). -/
theorem updateCounterInConfig_splice (text : Text) (f : NumericField)
    (h : locateNumericField text = some f) :
    (updateCounterInConfig text).config =
      enforceConfigLength (text.take f.fieldStart ++
        stringOfLong (updateCounterInConfig text).newValue ++ text.drop f.fieldEnd) ∧
    (∀ c ∈ stringOfLong (updateCounterInConfig text).newValue, isDigit c = true) ∧
    (decimalValue (stringOfLong (updateCounterInConfig text).newValue) : Int) =
      (updateCounterInConfig text).newValue ∧
    ((updateCounterInConfig text).newValue ≠ 0 →
      ∃ c rest, stringOfLong (updateCounterInConfig text).newValue = c :: rest ∧ c ≠ 48) ∧
    ((updateCounterInConfig text).newValue = 0 →
      stringOfLong (updateCounterInConfig text).newValue = [48]) := by
  rw [updateCounterInConfig_of_located text f h]
  have hs := stringOfLong_nonneg _ (spliceCounter_newValue_nonneg text f)
  exact ⟨spliceCounter_config text f, hs.1, hs.2.1, hs.2.2.1, hs.2.2.2⟩

/-- Witness for C7, the worked example: in `counter: 10 rest of data...` brought to the
minimum length the field is `10` at offsets 9 to 11; `previousValue = 10`,
`newValue = 9`, and `9` stands where `10` stood, from the same offset 9 on. -/
theorem updateCounterInConfig_splice_witness :
    locateNumericField exampleRecord = some ⟨9, 11, 10⟩ ∧
    (updateCounterInConfig exampleRecord).previousValue = 10 ∧
    (updateCounterInConfig exampleRecord).newValue = 9 ∧
    (updateCounterInConfig exampleRecord).config =
      enforceConfigLength (exampleRecord.take 9 ++
        stringOfLong (updateCounterInConfig exampleRecord).newValue ++ exampleRecord.drop 11) ∧
    (updateCounterInConfig exampleRecord).config =
      exampleRecord.take 9 ++ lit "9" ++ exampleRecord.drop 11 :=
  ⟨by decide!, by decide!, by decide!,
   (updateCounterInConfig_splice exampleRecord ⟨9, 11, 10⟩ (by decide!)).1, by decide!⟩

/-! ## Field locator: searching and scanning -/

theorem charAt_append_right (a b : Text) (m : Nat) :
    charAt (a ++ b) (a.length + m) = charAt b m := by
  unfold charAt
  rw [List.getD_eq_getElem?_getD, List.getD_eq_getElem?_getD,
    List.getElem?_append_right (Nat.le_add_right _ _), Nat.add_sub_cancel_left]

theorem strstr_append (needle : Text) :
    ∀ (pre rest : Text), needle <+: rest →
      (∀ k, k < pre.length → ¬ needle <+: (pre ++ rest).drop k) →
      strstr (pre ++ rest) needle = some pre.length := by
  intro pre
  induction pre with
  | nil =>
    intro rest h _
    cases rest with
    | nil =>
      have : needle = [] := List.prefix_nil.mp h
      subst this
      rfl
    | cons c r =>
      simp only [List.nil_append, strstr, List.isPrefixOf_iff_prefix.mpr h, if_true,
        List.length_nil]
  | cons c p ih =>
    intro rest h hfirst
    have h0 : ¬ needle <+: (c :: (p ++ rest)) := by
      simpa using hfirst 0 (by simp)
    have hrec := ih rest h (fun k hk => by
      have := hfirst (k + 1) (by simp; omega)
      simpa using this)
    simp [strstr, h0, hrec]

theorem strchr_append (ch : Byte) :
    ∀ (pre rest : Text), ch ∉ pre → strchr (pre ++ ch :: rest) ch = some pre.length := by
  intro pre
  induction pre with
  | nil => intro rest _; simp [strchr]
  | cons c p ih =>
    intro rest h
    have hc : c ≠ ch := fun e => h (by simp [e])
    have hp : ch ∉ p := fun e => h (by simp [e])
    simp [strchr, hc, ih rest hp]

theorem parseDigitRun_stop (t : Text) (n fuel j : Nat) (v : Int)
    (h : ¬ (j < n ∧ isDigit (charAt t j) = true)) : parseDigitRun t n fuel j v = (j, v) := by
  cases fuel with
  | zero => rfl
  | succ k => simp only [parseDigitRun, if_neg h]

theorem parseDigitRun_step (t : Text) (n fuel j : Nat) (v : Int)
    (h1 : j < n) (h2 : isDigit (charAt t j) = true) :
    parseDigitRun t n (fuel + 1) j v =
      parseDigitRun t n fuel (j + 1) (wrapLong (v * 10 + (((charAt t j).val : Int) - 48))) := by
  simp only [parseDigitRun, if_pos (And.intro h1 h2)]

theorem scanForNumber_skip (t : Text) (n fuel i : Nat) (h1 : i < n)
    (h2 : isDigit (charAt t i) = false) (h3 : charAt t i ≠ 45) (h4 : charAt t i ≠ 43) :
    scanForNumber t n (fuel + 1) i = scanForNumber t n fuel (i + 1) := by
  simp [scanForNumber, h1, h2, h3, h4]

theorem scanForNumber_digit (t : Text) (n fuel i : Nat) (h1 : i < n)
    (h2 : isDigit (charAt t i) = true) :
    scanForNumber t n (fuel + 1) i =
      some ⟨i, (parseDigitRun t n (n - i) i 0).1, (parseDigitRun t n (n - i) i 0).2⟩ := by
  have h3 : charAt t i ≠ 45 := by
    intro e; rw [e] at h2; exact absurd h2 (by decide)
  have h4 : charAt t i ≠ 43 := by
    intro e; rw [e] at h2; exact absurd h2 (by decide)
  simp [scanForNumber, h1, h2, h3, h4]

/-! ### The C string view of a text -/

theorem stringOfCStr_of_noNull (t : Text) (h : NoNull t) : stringOfCStr t = t := by
  unfold stringOfCStr
  rw [List.takeWhile_eq_self_iff]
  intro c hc
  simpa using h c hc

theorem stringOfCStr_append (a b : Text) (h : NoNull a) :
    stringOfCStr (a ++ b) = a ++ stringOfCStr b := by
  unfold stringOfCStr
  rw [List.takeWhile_append_of_pos]
  intro c hc
  simpa using h c hc

theorem stringOfCStr_initial (t : Text) : stringOfCStr t <+: t := by
  unfold stringOfCStr
  exact List.takeWhile_prefix _

theorem occursAt_of_initial (pat z t : Text) (k : Nat) (hz : z <+: t)
    (h : OccursAt pat z k) : OccursAt pat t k := by
  unfold OccursAt at h ⊢
  obtain ⟨r, hr⟩ := hz
  rw [← hr]
  by_cases hk : k ≤ z.length
  · rw [List.drop_append_of_le_length hk]
    exact h.trans (List.prefix_append _ _)
  · have e : z.drop k = [] := List.drop_eq_nil_of_le (by omega)
    rw [e] at h
    have : pat = [] := List.prefix_nil.mp h
    rw [this]
    exact List.nil_prefix

/-! ### Label priority -/

theorem balance7_length (pre post : Text) :
    (pre ++ (lit "balance: 7" ++ post)).length = pre.length + 10 + post.length := by
  rw [List.length_append, List.length_append]
  have : (lit "balance: 7").length = 10 := by decide
  omega

theorem findFirstNumberInConfig_balance7 (pre post : Text)
    (hend : isDigit (charAt post 0) = false) :
    findFirstNumberInConfig (pre ++ (lit "balance: 7" ++ post)) (((pre.length + 7 : Nat) : Int) + 1)
      = some ⟨pre.length + 9, pre.length + 10, 7⟩ := by
  have hlen := balance7_length pre post
  have c8 : charAt (pre ++ (lit "balance: 7" ++ post)) (pre.length + 8) = 32 :=
    charAt_append_right pre _ 8
  have c9 : charAt (pre ++ (lit "balance: 7" ++ post)) (pre.length + 9) = 55 :=
    charAt_append_right pre _ 9
  have c10 : charAt (pre ++ (lit "balance: 7" ++ post)) (pre.length + 10) = charAt post 0 :=
    charAt_append_right pre _ 10
  unfold findFirstNumberInConfig
  have hnn : ¬ (((pre.length + 7 : Nat) : Int) + 1 < 0) := by omega
  simp only [if_neg hnn]
  have htn : (((pre.length + 7 : Nat) : Int) + 1).toNat = pre.length + 8 := by omega
  rw [htn, hlen]
  have hf : pre.length + 10 + post.length - (pre.length + 8) = post.length + 1 + 1 := by omega
  rw [hf]
  rw [scanForNumber_skip _ _ _ _ (by omega) (by rw [c8]; decide) (by rw [c8]; decide)
    (by rw [c8]; decide)]
  rw [scanForNumber_digit _ _ _ _ (by omega) (by rw [c9]; decide)]
  have hf2 : pre.length + 10 + post.length - (pre.length + 8 + 1) = post.length + 1 := by omega
  rw [hf2, parseDigitRun_step _ _ _ _ _ (by omega) (by rw [c9]; decide)]
  rw [parseDigitRun_stop _ _ _ _ _ (by rw [c10, hend]; simp)]
  rw [c9]
  rfl

theorem locateNumericField_balance7 (pre post : Text) (hnull : NoNull pre)
    (hfirst : ∀ k, k < pre.length → ¬ OccursAt (lit "balance") (pre ++ lit "balance: 7" ++ post) k)
    (hend : isDigit (charAt post 0) = false) :
    locateNumericField (pre ++ lit "balance: 7" ++ post)
      = some ⟨pre.length + 9, pre.length + 10, 7⟩ := by
  rw [List.append_assoc] at hfirst ⊢
  have hlen := balance7_length pre post
  have hb7 : NoNull (lit "balance: 7") := by decide!
  have hz : stringOfCStr (pre ++ (lit "balance: 7" ++ post))
      = pre ++ (lit "balance: 7" ++ stringOfCStr post) := by
    rw [stringOfCStr_append _ _ hnull, stringOfCStr_append _ _ hb7]
  have hidx : indexOfStr (pre ++ (lit "balance: 7" ++ post)) (lit "balance") 0
      = some pre.length := by
    unfold indexOfStr
    have hl : stringOfCStr (lit "balance") = lit "balance" := by decide!
    have hs : strstr (pre ++ (lit "balance: 7" ++ stringOfCStr post)) (lit "balance")
        = some pre.length := by
      refine strstr_append (lit "balance") pre (lit "balance: 7" ++ stringOfCStr post)
        ⟨lit ": 7" ++ stringOfCStr post, rfl⟩ ?_
      intro k hk hocc
      apply hfirst k hk
      apply occursAt_of_initial _ _ _ k _ hocc
      rw [← hz]
      exact stringOfCStr_initial _
    rw [if_neg (by omega), List.drop_zero, hl, hz, hs]
    simp
  have hcol : indexOfChar (pre ++ (lit "balance: 7" ++ post)) 58 pre.length
      = some (pre.length + 7) := by
    unfold indexOfChar
    rw [if_neg (by omega), List.drop_left, stringOfCStr_append _ _ hb7]
    have : strchr (lit "balance: 7" ++ stringOfCStr post) 58 = some 7 := rfl
    rw [this]
    rfl
  unfold locateNumericField findLabeledNumberField
  simp only [hidx, hcol]
  rw [findFirstNumberInConfig_balance7 pre post hend]

theorem updateCounterInConfig_balance7 (pre post : Text) (hnull : NoNull pre)
    (hfirst : ∀ k, k < pre.length → ¬ OccursAt (lit "balance") (pre ++ lit "balance: 7" ++ post) k)
    (hend : isDigit (charAt post 0) = false) :
    updateCounterInConfig (pre ++ lit "balance: 7" ++ post)
      = ⟨enforceConfigLength (pre ++ lit "balance: 6" ++ post), 7, 6⟩ := by
  rw [updateCounterInConfig_of_located _ _
    (locateNumericField_balance7 pre post hnull hfirst hend)]
  unfold spliceCounter
  simp only [substring_zero, substringFrom_eq_drop]
  have e1 : (pre ++ lit "balance: 7" ++ post).take (pre.length + 9) = pre ++ lit "balance: " := by
    rw [List.append_assoc, List.take_append]
    rfl
  have e2 : (pre ++ lit "balance: 7" ++ post).drop (pre.length + 10) = post := by
    rw [List.append_assoc, List.drop_append]
    rfl
  rw [e1, e2]
  have e3 : wrapLong (7 - 1) = 6 := by decide
  simp only [e3]
  have e4 : stringOfLong 6 = lit "6" := by decide
  have e5 : ¬ ((6 : Int) < 0) := by decide
  simp only [if_neg e5, e4]
  have e6 : pre ++ lit "balance: " ++ lit "6" ++ post = pre ++ lit "balance: 6" ++ post := by
    rw [List.append_assoc pre]
    rfl
  rw [e6]

theorem getElem?_append_cons_ne (L R : Text) (a b : Byte) (j : Nat) (hj : j ≠ L.length) :
    (L ++ a :: R)[j]? = (L ++ b :: R)[j]? := by
  by_cases h : j < L.length
  · rw [List.getElem?_append_left h, List.getElem?_append_left h]
  · have h2 : L.length ≤ j := by omega
    rw [List.getElem?_append_right h2, List.getElem?_append_right h2]
    obtain ⟨m, hm⟩ : ∃ m, j - L.length = m + 1 := ⟨j - L.length - 1, by omega⟩
    rw [hm]
    rfl

theorem occursAt_replace (pat L R : Text) (a b : Byte) (k : Nat) (ha : a ∉ pat)
    (h : OccursAt pat (L ++ a :: R) k) : OccursAt pat (L ++ b :: R) k := by
  unfold OccursAt at h ⊢
  rw [List.isPrefix_iff] at h ⊢
  intro i hi
  have hi2 := h i hi
  rw [List.getElem?_drop] at hi2 ⊢
  by_cases hk : k + i = L.length
  · exfalso
    rw [hk, List.getElem?_append_right (le_refl _), Nat.sub_self] at hi2
    have : a = pat[i] := by simpa using hi2
    exact ha (this ▸ List.getElem_mem _)
  · rw [← getElem?_append_cons_ne L R a b _ hk]
    exact hi2

/-- C4 (amended). Label priority: in a record whose first occurrence of `balance` begins
`balance: 7`, with no null byte before it and no further digit right after that `7`, the
located field is that `7` (one byte, nine bytes after the start of the label);
`updateCounterInConfig` reports `previousValue = 7` and `newValue = 6`; and every
occurrence of `counter: 3` in the record is found at the same offset in the record with
that `7` replaced by `6`.  When the record holds no null byte at all,
`updateCounterInConfig` returns `enforceConfigLength` of the record with that `7`
replaced by `6`, which is that spliced record itself when its length is already between
`MIN_CONFIG_BYTES` and `MAX_CONFIG_BYTES`. -/
theorem updateCounterInConfig_label_priority (pre post : Text)
    (hnull : NoNull pre)
    (hfirst : ∀ k, k < pre.length →
      ¬ OccursAt (lit "balance") (pre ++ lit "balance: 7" ++ post) k)
    (hend : isDigit (charAt post 0) = false) :
    locateNumericField (pre ++ lit "balance: 7" ++ post)
      = some ⟨pre.length + 9, pre.length + 10, 7⟩ ∧
    (updateCounterInConfig (pre ++ lit "balance: 7" ++ post)).previousValue = 7 ∧
    (updateCounterInConfig (pre ++ lit "balance: 7" ++ post)).newValue = 6 ∧
    (∀ k, OccursAt (lit "counter: 3") (pre ++ lit "balance: 7" ++ post) k →
      OccursAt (lit "counter: 3") (pre ++ lit "balance: 6" ++ post) k) ∧
    (NoNull post →
      updateCounterInConfig (pre ++ lit "balance: 7" ++ post)
        = ⟨enforceConfigLength (pre ++ lit "balance: 6" ++ post), 7, 6⟩ ∧
      (MIN_CONFIG_BYTES ≤ (pre ++ lit "balance: 7" ++ post).length →
        (pre ++ lit "balance: 7" ++ post).length ≤ MAX_CONFIG_BYTES →
        (updateCounterInConfig (pre ++ lit "balance: 7" ++ post)).config
          = pre ++ lit "balance: 6" ++ post)) := by
  have hupd := updateCounterInConfig_balance7 pre post hnull hfirst hend
  refine ⟨locateNumericField_balance7 pre post hnull hfirst hend, by rw [hupd],
    by rw [hupd], ?_, fun _ => ⟨hupd, ?_⟩⟩
  · intro k h
    have e7 : pre ++ lit "balance: 7" ++ post = (pre ++ lit "balance: ") ++ 55 :: post := by
      rw [List.append_assoc, List.append_assoc]
      rfl
    have e6 : pre ++ lit "balance: 6" ++ post = (pre ++ lit "balance: ") ++ 54 :: post := by
      rw [List.append_assoc, List.append_assoc]
      rfl
    rw [e7] at h
    rw [e6]
    exact occursAt_replace _ _ _ 55 54 k (by decide) h
  · intro h1 h2
    have hl : (pre ++ lit "balance: 6" ++ post).length
        = (pre ++ lit "balance: 7" ++ post).length := by
      simp only [List.length_append]
      rfl
    rw [hupd]
    exact enforceConfigLength_of_bounds _ (by rw [hl]; exact h1) (by rw [hl]; exact h2)

/-- Witness for C4: the record `counter: 3, balance: 7.`. -/
theorem updateCounterInConfig_label_priority_witness :
    locateNumericField (lit "counter: 3, " ++ lit "balance: 7" ++ lit ".")
      = some ⟨21, 22, 7⟩ ∧
    updateCounterInConfig (lit "counter: 3, " ++ lit "balance: 7" ++ lit ".")
      = ⟨enforceConfigLength (lit "counter: 3, " ++ lit "balance: 6" ++ lit "."), 7, 6⟩ :=
  ⟨(updateCounterInConfig_label_priority (lit "counter: 3, ") (lit ".")
      (by decide!) (by decide!) (by decide!)).1,
   ((updateCounterInConfig_label_priority (lit "counter: 3, ") (lit ".")
      (by decide!) (by decide!) (by decide!)).2.2.2.2 (by decide!)).1⟩

/-- Counterexample to C4 as stated: `balance: 1 balance: 7 counter: 3` contains both
`balance: 7` and `counter: 3`, yet the field that is updated is the `1` at offset 9
(`previousValue = 1`, `newValue = 0`); `balance: 70 counter: 3` contains both as
well, yet `previousValue = 70` and `newValue = 69`; and in `nullBeforeLabel`, which
contains both after a null byte, the label search ends at the null byte, neither label
is found and the field that is updated is the `5` at offset 0 (`previousValue = 5`,
`newValue = 4`). -/
theorem updateCounterInConfig_label_priority_fails :
    OccursAt (lit "balance: 7") (lit "balance: 1 balance: 7 counter: 3") 11 ∧
    OccursAt (lit "counter: 3") (lit "balance: 1 balance: 7 counter: 3") 22 ∧
    locateNumericField (lit "balance: 1 balance: 7 counter: 3") = some ⟨9, 10, 1⟩ ∧
    (updateCounterInConfig (lit "balance: 1 balance: 7 counter: 3")).previousValue = 1 ∧
    (updateCounterInConfig (lit "balance: 1 balance: 7 counter: 3")).newValue = 0 ∧
    OccursAt (lit "balance: 7") (lit "balance: 70 counter: 3") 0 ∧
    OccursAt (lit "counter: 3") (lit "balance: 70 counter: 3") 12 ∧
    locateNumericField (lit "balance: 70 counter: 3") = some ⟨9, 11, 70⟩ ∧
    (updateCounterInConfig (lit "balance: 70 counter: 3")).previousValue = 70 ∧
    (updateCounterInConfig (lit "balance: 70 counter: 3")).newValue = 69 ∧
    OccursAt (lit "balance: 7") nullBeforeLabel 2 ∧
    OccursAt (lit "counter: 3") nullBeforeLabel 13 ∧
    (∀ k, k < 2 → ¬ OccursAt (lit "balance") nullBeforeLabel k) ∧
    locateNumericField nullBeforeLabel = some ⟨0, 1, 5⟩ ∧
    (updateCounterInConfig nullBeforeLabel).previousValue = 5 ∧
    (updateCounterInConfig nullBeforeLabel).newValue = 4 := by
  decide!

/-! ## Block output -/

theorem writeDataBlock_oracles (b : Nat) (src : Fin 16 → Byte) (d : Reader) :
    (writeDataBlock b src d).2.authOk = d.authOk ∧
    (writeDataBlock b src d).2.readOk = d.readOk ∧
    (writeDataBlock b src d).2.writeOk = d.writeOk := by
  unfold writeDataBlock authenticateDataBlock Reader.emit
  cases h1 : d.authOk b <;> cases h2 : d.writeOk b <;> simp [h1, h2]

theorem writeDataBlock_of_succeeds (b : Nat) (src : Fin 16 → Byte) (d : Reader)
    (h : writeSucceeds d b = true) :
    (writeDataBlock b src d).1 = true ∧
    (writeDataBlock b src d).2.blocks = Function.update d.blocks b src ∧
    (writeDataBlock b src d).2.log = d.log ++
      [Event.authenticate (sectorTrailerBlock b), Event.mifareWrite b (List.ofFn src)] := by
  unfold writeSucceeds at h
  rw [Bool.and_eq_true] at h
  unfold writeDataBlock authenticateDataBlock Reader.emit
  simp [h.1, h.2]

theorem writeDataBlock_of_fails (b : Nat) (src : Fin 16 → Byte) (d : Reader)
    (h : writeSucceeds d b = false) :
    (writeDataBlock b src d).1 = false ∧
    (writeDataBlock b src d).2.blocks = d.blocks ∧
    ((writeDataBlock b src d).2.log = d.log ++
        [Event.authenticate (sectorTrailerBlock b), Event.authFailure b] ∨
     (writeDataBlock b src d).2.log = d.log ++
        [Event.authenticate (sectorTrailerBlock b), Event.mifareWrite b (List.ofFn src),
          Event.writeFailure b]) := by
  unfold writeSucceeds at h
  unfold writeDataBlock authenticateDataBlock Reader.emit
  cases h1 : d.authOk b <;> cases h2 : d.writeOk b <;> simp [h1, h2] at h ⊢

theorem writeDataBlock_frame (b : Nat) (src : Fin 16 → Byte) (d : Reader) (x : Nat)
    (hx : x ≠ b) : (writeDataBlock b src d).2.blocks x = d.blocks x := by
  unfold writeDataBlock authenticateDataBlock Reader.emit
  cases h1 : d.authOk b <;> cases h2 : d.writeOk b <;> simp [h1, h2, Function.update, hx]

theorem writeSucceeds_congr (e d : Reader) (h1 : e.authOk = d.authOk)
    (h2 : e.writeOk = d.writeOk) (b : Nat) : writeSucceeds e b = writeSucceeds d b := by
  unfold writeSucceeds
  rw [h1, h2]

theorem writeBlocksLoop_cons (cfg : Text) (tot : Nat) (b : Nat) (rest : List Nat) (off : Nat)
    (d : Reader) :
    writeBlocksLoop cfg tot (b :: rest) off d =
      if (writeDataBlock b (blockChunk cfg tot off) d).1 = true then
        writeBlocksLoop cfg tot rest (off + 16) (writeDataBlock b (blockChunk cfg tot off) d).2
      else (false, (writeDataBlock b (blockChunk cfg tot off) d).2) := by
  rw [writeBlocksLoop]
  rcases hw : writeDataBlock b (blockChunk cfg tot off) d with ⟨ok, d1⟩
  cases ok <;> simp

theorem writeBlocksLoop_oracles (cfg : Text) (tot : Nat) (bs : List Nat) :
    ∀ (off : Nat) (d : Reader),
      (writeBlocksLoop cfg tot bs off d).2.authOk = d.authOk ∧
      (writeBlocksLoop cfg tot bs off d).2.readOk = d.readOk ∧
      (writeBlocksLoop cfg tot bs off d).2.writeOk = d.writeOk := by
  induction bs with
  | nil => intro off d; exact ⟨rfl, rfl, rfl⟩
  | cons b rest ih =>
    intro off d
    rw [writeBlocksLoop_cons]
    obtain ⟨o1, o2, o3⟩ := writeDataBlock_oracles b (blockChunk cfg tot off) d
    split
    · obtain ⟨i1, i2, i3⟩ := ih (off + 16) (writeDataBlock b (blockChunk cfg tot off) d).2
      exact ⟨i1.trans o1, i2.trans o2, i3.trans o3⟩
    · exact ⟨o1, o2, o3⟩

theorem writeBlocksLoop_frame (cfg : Text) (tot : Nat) (bs : List Nat) :
    ∀ (off : Nat) (d : Reader) (x : Nat), x ∉ bs →
      (writeBlocksLoop cfg tot bs off d).2.blocks x = d.blocks x := by
  induction bs with
  | nil => intro off d x _; rfl
  | cons b rest ih =>
    intro off d x hx
    have hxb : x ≠ b := fun e => hx (by simp [e])
    have hxr : x ∉ rest := fun e => hx (by simp [e])
    rw [writeBlocksLoop_cons]
    split
    · rw [ih _ _ x hxr]
      exact writeDataBlock_frame b _ d x hxb
    · exact writeDataBlock_frame b _ d x hxb

theorem writeBlocksLoop_succeeds (cfg : Text) (tot : Nat) (bs : List Nat) :
    ∀ (off : Nat) (d : Reader), (∀ b ∈ bs, writeSucceeds d b = true) →
      (writeBlocksLoop cfg tot bs off d).1 = true := by
  induction bs with
  | nil => intro off d _; rfl
  | cons b rest ih =>
    intro off d h
    rw [writeBlocksLoop_cons]
    have hb := writeDataBlock_of_succeeds b (blockChunk cfg tot off) d (h b (by simp))
    obtain ⟨o1, _, o3⟩ := writeDataBlock_oracles b (blockChunk cfg tot off) d
    rw [if_pos hb.1]
    apply ih
    intro x hx
    rw [writeSucceeds_congr _ d o1 o3]
    exact h x (by simp [hx])

theorem writeBlocksLoop_block (cfg : Text) (tot : Nat) (bs : List Nat) :
    ∀ (off : Nat) (d : Reader) (i : Nat), i < bs.length → bs.Nodup →
      (∀ m, m ≤ i → writeSucceeds d (bs.getD m 0) = true) →
      (writeBlocksLoop cfg tot bs off d).2.blocks (bs.getD i 0)
        = blockChunk cfg tot (off + 16 * i) := by
  induction bs with
  | nil => intro off d i hi; simp at hi
  | cons b rest ih =>
    intro off d i hi hnd hok
    have hb := writeDataBlock_of_succeeds b (blockChunk cfg tot off) d (by simpa using hok 0 (by omega))
    obtain ⟨o1, _, o3⟩ := writeDataBlock_oracles b (blockChunk cfg tot off) d
    rw [writeBlocksLoop_cons, if_pos hb.1]
    rw [List.nodup_cons] at hnd
    cases i with
    | zero =>
      simp only [List.getD_cons_zero, Nat.mul_zero, Nat.add_zero]
      rw [writeBlocksLoop_frame _ _ _ _ _ b hnd.1, hb.2.1]
      simp
    | succ j =>
      simp only [List.getD_cons_succ]
      have e : off + 16 * (j + 1) = off + 16 + 16 * j := by omega
      rw [e]
      apply ih (off + 16) _ j (by simp at hi; omega) hnd.2
      intro m hm
      rw [writeSucceeds_congr _ d o1 o3]
      simpa using hok (m + 1) (by omega)

theorem writeBlocksLoop_truncate (cfg : Text) (tot : Nat) (b : Nat) (post : List Nat)
    (pre : List Nat) :
    ∀ (off : Nat) (d : Reader), writeSucceeds d b = false →
      writeBlocksLoop cfg tot (pre ++ b :: post) off d
        = writeBlocksLoop cfg tot (pre ++ [b]) off d ∧
      (writeBlocksLoop cfg tot (pre ++ [b]) off d).1 = false := by
  induction pre with
  | nil =>
    intro off d h
    have hf := writeDataBlock_of_fails b (blockChunk cfg tot off) d h
    simp only [List.nil_append, writeBlocksLoop_cons, hf.1]
    simp
  | cons c p ih =>
    intro off d h
    obtain ⟨o1, _, o3⟩ := writeDataBlock_oracles c (blockChunk cfg tot off) d
    simp only [List.cons_append, writeBlocksLoop_cons]
    split
    · exact ih _ _ (by rw [writeSucceeds_congr _ d o1 o3]; exact h)
    · rename_i hc
      simp at hc
      simp [hc]

theorem writeBlocksLoop_log (cfg : Text) (tot : Nat) (bs : List Nat) :
    ∀ (off : Nat) (d : Reader), ∃ evs : List Event,
      (writeBlocksLoop cfg tot bs off d).2.log = d.log ++ evs ∧
      (∀ b data, Event.mifareWrite b data ∈ evs → b ∈ bs) ∧
      ((∀ b ∈ bs, writeSucceeds d b = true) → ∀ i, i < bs.length →
        Event.mifareWrite (bs.getD i 0) (List.ofFn (blockChunk cfg tot (off + 16 * i))) ∈ evs) := by
  induction bs with
  | nil => intro off d; exact ⟨[], by simp [writeBlocksLoop], by simp, by simp⟩
  | cons c rest ih =>
    intro off d
    obtain ⟨o1, _, o3⟩ := writeDataBlock_oracles c (blockChunk cfg tot off) d
    rw [writeBlocksLoop_cons]
    by_cases hc : writeSucceeds d c = true
    · have hb := writeDataBlock_of_succeeds c (blockChunk cfg tot off) d hc
      rw [if_pos hb.1]
      obtain ⟨evs, e1, e2, e3⟩ := ih (off + 16) (writeDataBlock c (blockChunk cfg tot off) d).2
      refine ⟨[Event.authenticate (sectorTrailerBlock c),
        Event.mifareWrite c (List.ofFn (blockChunk cfg tot off))] ++ evs, ?_, ?_, ?_⟩
      · rw [e1, hb.2.2, List.append_assoc]
      · intro b data hmem
        simp only [List.cons_append, List.nil_append, List.mem_cons] at hmem
        rcases hmem with h | h | h
        · cases h
        · injection h with h1 h2
          simp [h1]
        · simp [e2 b data h]
      · intro hall i hi
        cases i with
        | zero => simp
        | succ j =>
          have := e3 (fun x hx => by
            rw [writeSucceeds_congr _ d o1 o3]; exact hall x (by simp [hx])) j (by simpa using hi)
          simp only [List.getD_cons_succ, List.cons_append, List.nil_append, List.mem_cons]
          right; right
          have e : off + 16 * (j + 1) = off + 16 + 16 * j := by omega
          rw [e]
          exact this
    · have hc2 : writeSucceeds d c = false := by simpa using hc
      have hf := writeDataBlock_of_fails c (blockChunk cfg tot off) d hc2
      simp only [hf.1]
      simp only [Bool.false_eq_true, if_false]
      rcases hf.2.2 with hl | hl
      · refine ⟨_, hl, ?_, ?_⟩
        · intro b data hmem
          simp at hmem
        · intro hall
          exact absurd (hall c (by simp)) hc
      · refine ⟨_, hl, ?_, ?_⟩
        · intro b data hmem
          simp at hmem
          simp [hmem.1]
        · intro hall
          exact absurd (hall c (by simp)) hc

/-! ## Block input -/

theorem readDataBlock_of_succeeds (b : Nat) (d : Reader) (h : readSucceeds d b = true) :
    readDataBlock b d = (some (d.blocks b),
      { d with log := d.log ++ [Event.authenticate (sectorTrailerBlock b), Event.mifareRead b] }) := by
  unfold readSucceeds at h
  rw [Bool.and_eq_true] at h
  unfold readDataBlock authenticateDataBlock Reader.emit
  simp [h.1, h.2]

theorem readDataBlock_of_fails (b : Nat) (d : Reader) (h : readSucceeds d b = false) :
    readDataBlock b d = (none,
      { d with log := d.log ++ [Event.authenticate (sectorTrailerBlock b), Event.authFailure b] }) ∨
    readDataBlock b d = (none,
      { d with log := d.log ++ [Event.authenticate (sectorTrailerBlock b), Event.mifareRead b,
          Event.readFailure b] }) := by
  unfold readSucceeds at h
  unfold readDataBlock authenticateDataBlock Reader.emit
  cases h1 : d.authOk b <;> cases h2 : d.readOk b <;> simp [h1, h2] at h ⊢

theorem memcpy16_eq (buf : List Byte) (off : Nat) (src : Fin 16 → Byte) (pre : List Byte)
    (hpre : buf.take off = pre) (hlen : off ≤ buf.length) (m : Nat) :
    (memcpy16 buf off src).take (off + 16) = pre ++ List.ofFn src ∧
    (memcpy16 buf off src).drop (off + 16 + m) = buf.drop (off + 16 + m) ∧
    (memcpy16 buf off src).length = max buf.length (off + 16) := by
  unfold memcpy16
  have h1 : (buf.take off).length = off := by rw [List.length_take]; omega
  have h2 : (List.ofFn src).length = 16 := List.length_ofFn _
  have h3 : (buf.take off ++ List.ofFn src).length = off + 16 := by
    rw [List.length_append, h1, h2]
  refine ⟨?_, ?_, ?_⟩
  · rw [List.take_append_eq_append_take, h3, Nat.sub_self, List.take_zero, List.append_nil,
      List.take_of_length_le (by omega), hpre]
  · rw [List.drop_append_eq_append_drop, h3, List.drop_of_length_le (by omega), List.nil_append,
      List.drop_drop]
    congr 1
    omega
  · rw [List.length_append, h3, List.length_drop]
    omega

theorem concatBlocks_congr (e d : Reader) (h : e.blocks = d.blocks) (bs : List Nat) :
    concatBlocks e bs = concatBlocks d bs := by
  induction bs with
  | nil => rfl
  | cons c r ih => simp only [concatBlocks, ih, h]

theorem readBlocksLoop_of_succeeds (bs : List Nat) :
    ∀ (off : Nat) (buf : List Byte) (d : Reader) (pre : List Byte),
      (∀ b ∈ bs, readSucceeds d b = true) → buf.take off = pre → off ≤ buf.length →
      ∃ d1 : Reader, ∃ out : List Byte,
        readBlocksLoop bs off buf d = (some out, d1) ∧ d1.blocks = d.blocks ∧
        out.take (off + 16 * bs.length) = pre ++ concatBlocks d bs ∧
        out.drop (off + 16 * bs.length) = buf.drop (off + 16 * bs.length) := by
  induction bs with
  | nil =>
    intro off buf d pre _ hpre _
    exact ⟨d, buf, rfl, rfl, by simpa [concatBlocks] using hpre, rfl⟩
  | cons b rest ih =>
    intro off buf d pre hall hpre hlen
    have hb := readDataBlock_of_succeeds b d (hall b (by simp))
    simp only [readBlocksLoop, hb]
    obtain ⟨m1, _, m3⟩ := memcpy16_eq buf off (d.blocks b) pre hpre hlen 0
    obtain ⟨d1, out, e1, e2, e3, e4⟩ := ih (off + 16) (memcpy16 buf off (d.blocks b))
      { d with log := d.log ++ [Event.authenticate (sectorTrailerBlock b), Event.mifareRead b] }
      (pre ++ List.ofFn (d.blocks b))
      (fun x hx => by
        have := hall x (by simp [hx])
        simpa [readSucceeds] using this)
      m1 (by rw [m3]; omega)
    have hconcat := concatBlocks_congr
      { d with log := d.log ++ [Event.authenticate (sectorTrailerBlock b), Event.mifareRead b] }
      d rfl rest
    have hidx : off + 16 * (b :: rest).length = off + 16 + 16 * rest.length := by
      simp only [List.length_cons]; omega
    refine ⟨d1, out, e1, e2, ?_, ?_⟩
    · rw [hidx, e3, hconcat, List.append_assoc]
      rfl
    · rw [hidx, e4]
      exact (memcpy16_eq buf off (d.blocks b) pre hpre hlen (16 * rest.length)).2.1

theorem readBlocksLoop_of_fails (b : Nat) (post : List Nat) (pre : List Nat) :
    ∀ (off : Nat) (buf : List Byte) (d : Reader),
      (∀ x ∈ pre, readSucceeds d x = true) → readSucceeds d b = false →
      ∃ d1 : Reader, ∃ evs : List Event,
        readBlocksLoop (pre ++ b :: post) off buf d = (none, d1) ∧ d1.blocks = d.blocks ∧
        d1.log = d.log ++ evs ∧
        (∀ x, (Event.authFailure x ∈ evs ∨ Event.readFailure x ∈ evs) ↔ x = b) ∧
        (∀ x, Event.mifareRead x ∈ evs → x ∈ pre ∨ x = b) := by
  induction pre with
  | nil =>
    intro off buf d _ hb
    rcases readDataBlock_of_fails b d hb with h | h
    · refine ⟨{ d with log := d.log ++
          [Event.authenticate (sectorTrailerBlock b), Event.authFailure b] },
        [Event.authenticate (sectorTrailerBlock b), Event.authFailure b],
        by simp only [List.nil_append, readBlocksLoop, h], rfl, rfl, ?_, ?_⟩
      · intro x
        simp
      · intro x hx
        simp at hx
    · refine ⟨{ d with log := d.log ++
          [Event.authenticate (sectorTrailerBlock b), Event.mifareRead b, Event.readFailure b] },
        [Event.authenticate (sectorTrailerBlock b), Event.mifareRead b, Event.readFailure b],
        by simp only [List.nil_append, readBlocksLoop, h], rfl, rfl, ?_, ?_⟩
      · intro x
        simp
      · intro x hx
        simp at hx
        simp [hx]
  | cons c p ih =>
    intro off buf d hall hb
    have hc := readDataBlock_of_succeeds c d (hall c (by simp))
    obtain ⟨d1, evs, e1, e2, e3, e4, e5⟩ := ih (off + 16) (memcpy16 buf off (d.blocks c))
      { d with log := d.log ++ [Event.authenticate (sectorTrailerBlock c), Event.mifareRead c] }
      (fun x hx => by
        have := hall x (by simp [hx])
        simpa [readSucceeds] using this)
      (by simpa [readSucceeds] using hb)
    refine ⟨d1, [Event.authenticate (sectorTrailerBlock c), Event.mifareRead c] ++ evs, ?_, e2,
      ?_, ?_, ?_⟩
    · simp only [List.cons_append, readBlocksLoop, hc]
      exact e1
    · rw [e3, List.append_assoc]
    · intro x
      rw [← e4 x]
      simp
    · intro x hx
      simp only [List.cons_append, List.nil_append, List.mem_cons] at hx
      rcases hx with h | h | h
      · cases h
      · injection h with h1
        simp [h1]
      · rcases e5 x h with h2 | h2
        · simp [h2]
        · simp [h2]

theorem mem_take_getD (bs : List Nat) :
    ∀ (k x : Nat), x ∈ bs.take k → ∃ i, i < k ∧ bs.getD i 0 = x := by
  induction bs with
  | nil => intro k x h; simp at h
  | cons b rest ih =>
    intro k x h
    cases k with
    | zero => simp at h
    | succ n =>
      simp only [List.take_succ_cons, List.mem_cons] at h
      rcases h with h | h
      · exact ⟨0, by omega, by simp [h]⟩
      · obtain ⟨i, hi, he⟩ := ih n x h
        exact ⟨i + 1, by omega, by simpa using he⟩

theorem data_blocks_split (k : Nat) (hk : k < 16) :
    DATA_SECTOR_BLOCKS = DATA_SECTOR_BLOCKS.take k ++ mappedBlock k :: DATA_SECTOR_BLOCKS.drop (k + 1) := by
  interval_cases k <;> rfl

theorem data_blocks_later (k i : Nat) (hki : k < i) (hi : i < 16) :
    mappedBlock i ∉ DATA_SECTOR_BLOCKS.take k ∧ mappedBlock i ≠ mappedBlock k := by
  interval_cases i <;> interval_cases k <;> decide

theorem data_blocks_nodup : DATA_SECTOR_BLOCKS.Nodup := by decide

theorem data_blocks_mem (i : Nat) (hi : i < 16) : mappedBlock i ∈ DATA_SECTOR_BLOCKS := by
  interval_cases i <;> decide

theorem readSucceeds_take (d : Reader) (k : Nat)
    (h : ∀ i, i < k → readSucceeds d (mappedBlock i) = true) :
    ∀ x ∈ DATA_SECTOR_BLOCKS.take k, readSucceeds d x = true := by
  intro x hx
  obtain ⟨i, hi, he⟩ := mem_take_getD _ k x hx
  rw [← he]
  exact h i hi

/-! ## Segment codec -/

theorem mem_data_blocks (b : Nat) (hb : b ∈ DATA_SECTOR_BLOCKS) :
    ∃ i, i < 16 ∧ mappedBlock i = b :=
  mem_take_getD DATA_SECTOR_BLOCKS 16 b hb

theorem totalBytesToWrite_eq (r : Text) :
    (if r.length > MAX_CONFIG_BYTES then MAX_CONFIG_BYTES else r.length) = min r.length 256 := by
  rw [MAX_CONFIG_BYTES_eq]
  split <;> omega

theorem writeConfigToCard_eq (r : Text) (d : Reader) :
    writeConfigToCard r d = writeBlocksLoop r (min r.length 256) DATA_SECTOR_BLOCKS 0 d := by
  unfold writeConfigToCard
  simp only [totalBytesToWrite_eq]

theorem writeBlocksLoop_congr (c1 c2 : Text) (t1 t2 : Nat)
    (h : ∀ off, blockChunk c1 t1 off = blockChunk c2 t2 off) (bs : List Nat) :
    ∀ (off : Nat) (d : Reader),
      writeBlocksLoop c1 t1 bs off d = writeBlocksLoop c2 t2 bs off d := by
  induction bs with
  | nil => intro off d; rfl
  | cons b rest ih =>
    intro off d
    rw [writeBlocksLoop_cons, writeBlocksLoop_cons, h off, ih]

theorem charAt_take (r : Text) (n p : Nat) (hp : p < n) : charAt (r.take n) p = charAt r p := by
  unfold charAt
  rw [List.getD_eq_getElem?_getD, List.getD_eq_getElem?_getD, List.getElem?_take, if_pos hp]

theorem blockChunk_take (r : Text) (off : Nat) :
    blockChunk r (min r.length 256) off
      = blockChunk (r.take 256) (min (r.take 256).length 256) off := by
  funext j
  unfold blockChunk
  have e : min (r.take 256).length 256 = min r.length 256 := by
    rw [List.length_take]; omega
  simp only [e]
  split
  · rename_i h
    rw [charAt_take _ _ _ (by omega)]
  · rfl

theorem ofFn_eq_map_range' (f : Fin 16 → Byte) (g : Nat → Byte) (off : Nat)
    (h : ∀ j : Fin 16, f j = g (off + j.val)) :
    List.ofFn f = (List.range' off 16).map g := by
  apply List.ext_getElem
  · simp
  · intro n h1 h2
    simp only [List.getElem_ofFn, List.getElem_map, List.getElem_range', Nat.one_mul]
    exact h ⟨n, by simpa using h1⟩

theorem concatBlocks_eq_map (d : Reader) (g : Nat → Byte) (bs : List Nat) :
    ∀ off : Nat,
      (∀ i, i < bs.length → ∀ j : Fin 16, d.blocks (bs.getD i 0) j = g (off + 16 * i + j.val)) →
      concatBlocks d bs = (List.range' off (16 * bs.length)).map g := by
  induction bs with
  | nil => intro off _; rfl
  | cons b rest ih =>
    intro off h
    have h0 : List.ofFn (d.blocks b) = (List.range' off 16).map g :=
      ofFn_eq_map_range' _ g off (fun j => by simpa using h 0 (by simp) j)
    have hr := ih (off + 16) (fun i hi j => by
      have := h (i + 1) (by simpa using hi) j
      simp only [List.getD_cons_succ] at this
      rw [this]
      congr 1
      omega)
    have e : 16 * (b :: rest).length = 16 * rest.length + 16 := by
      simp only [List.length_cons]; omega
    rw [concatBlocks, h0, hr, e, ← List.map_append, List.range'_append_1]

theorem map_range'_getD (r : Text) (n : Nat) (hn : r.length ≤ n) :
    (List.range' 0 n).map (fun p => charAt r p) = r ++ List.replicate (n - r.length) 0 := by
  apply List.ext_getElem
  · simp; omega
  · intro p h1 h2
    simp only [List.getElem_map, List.getElem_range', Nat.one_mul, Nat.zero_add]
    unfold charAt
    by_cases hp : p < r.length
    · rw [List.getElem_append_left hp, List.getD_eq_getElem r 0 hp]
    · rw [List.getElem_append_right (by omega), List.getElem_replicate,
        List.getD_eq_default r 0 (by omega)]

theorem takeWhile_append_zero (r rest : Text) (h : ∀ c ∈ r, c ≠ 0) :
    stringOfCStr (r ++ 0 :: rest) = r := by
  unfold stringOfCStr
  induction r with
  | nil => simp
  | cons c p ih =>
    have hc : c ≠ 0 := h c (by simp)
    simp only [List.cons_append, List.takeWhile_cons]
    simp only [bne_iff_ne, ne_eq, hc, not_false_eq_true, if_true]
    rw [ih (fun x hx => h x (by simp [hx]))]

theorem concatBlocks_length (d : Reader) (bs : List Nat) :
    (concatBlocks d bs).length = 16 * bs.length := by
  induction bs with
  | nil => rfl
  | cons b rest ih =>
    simp only [concatBlocks, List.length_append, List.length_ofFn, ih, List.length_cons]
    omega

theorem readConfigFromCard_of_succeeds (d : Reader) (configOut : Text)
    (hall : ∀ b ∈ DATA_SECTOR_BLOCKS, readSucceeds d b = true) :
    (readConfigFromCard d configOut).1 = true ∧
    (readConfigFromCard d configOut).2.1 =
      stringOfCStr (concatBlocks d DATA_SECTOR_BLOCKS ++ [0]) ∧
    (readConfigFromCard d configOut).2.2.blocks = d.blocks := by
  obtain ⟨d1, out, e1, e2, e3, e4⟩ := readBlocksLoop_of_succeeds DATA_SECTOR_BLOCKS 0
    (List.replicate (MAX_CONFIG_BYTES + 1) 0) d [] hall (by simp) (by simp)
  have hout : out = concatBlocks d DATA_SECTOR_BLOCKS ++ [0] := by
    rw [← List.take_append_drop (0 + 16 * DATA_SECTOR_BLOCKS.length) out, e3, e4]
    rfl
  have hlen := concatBlocks_length d DATA_SECTOR_BLOCKS
  have hset : (concatBlocks d DATA_SECTOR_BLOCKS ++ [0]).set MAX_CONFIG_BYTES 0
      = concatBlocks d DATA_SECTOR_BLOCKS ++ [0] := by
    have hm : MAX_CONFIG_BYTES = (concatBlocks d DATA_SECTOR_BLOCKS).length := by
      rw [hlen]; rfl
    rw [hm, List.set_append_right _ _ (le_refl _), Nat.sub_self]
    rfl
  have hres : readConfigFromCard d configOut
      = (true, stringOfCStr (concatBlocks d DATA_SECTOR_BLOCKS ++ [0]), d1) := by
    unfold readConfigFromCard
    simp only [e1, hout, hset]
  rw [hres]
  exact ⟨rfl, rfl, e2⟩

theorem writeConfigToCard_of_succeeds (r : Text) (d : Reader)
    (hall : ∀ b ∈ DATA_SECTOR_BLOCKS, writeSucceeds d b = true) :
    (writeConfigToCard r d).1 = true ∧
    (∀ i, i < 16 → (writeConfigToCard r d).2.blocks (mappedBlock i) = expectedChunk r i) ∧
    (writeConfigToCard r d).2.authOk = d.authOk ∧
    (writeConfigToCard r d).2.readOk = d.readOk := by
  rw [writeConfigToCard_eq r d]
  obtain ⟨o1, o2, _⟩ := writeBlocksLoop_oracles r (min r.length 256) DATA_SECTOR_BLOCKS 0 d
  refine ⟨writeBlocksLoop_succeeds _ _ _ _ _ hall, ?_, o1, o2⟩
  intro i hi
  have hb := writeBlocksLoop_block r (min r.length 256) DATA_SECTOR_BLOCKS 0 d i hi
    data_blocks_nodup (fun m hm => hall _ (data_blocks_mem m (by omega)))
  show (writeBlocksLoop r (min r.length 256) DATA_SECTOR_BLOCKS 0 d).2.blocks
    (DATA_SECTOR_BLOCKS.getD i 0) = _
  rw [hb]
  funext j
  simp only [blockChunk, expectedChunk, Nat.zero_add]

theorem round_trip_of_no_null (r : Text) (d : Reader) (configOut : Text)
    (hmax : r.length ≤ MAX_CONFIG_BYTES) (hnull : ∀ c ∈ r, c ≠ 0)
    (hw : ∀ b ∈ DATA_SECTOR_BLOCKS, writeSucceeds d b = true)
    (hr : ∀ b ∈ DATA_SECTOR_BLOCKS, readSucceeds d b = true) :
    (writeConfigToCard r d).1 = true ∧
    (readConfigFromCard (writeConfigToCard r d).2 configOut).1 = true ∧
    (readConfigFromCard (writeConfigToCard r d).2 configOut).2.1 = r := by
  rw [MAX_CONFIG_BYTES_eq] at hmax
  obtain ⟨w1, w2, w3, w4⟩ := writeConfigToCard_of_succeeds r d hw
  have hr2 : ∀ b ∈ DATA_SECTOR_BLOCKS, readSucceeds (writeConfigToCard r d).2 b = true := by
    intro b hb
    have := hr b hb
    unfold readSucceeds at this ⊢
    rw [w3, w4]
    exact this
  obtain ⟨r1, r2, _⟩ := readConfigFromCard_of_succeeds (writeConfigToCard r d).2 configOut hr2
  refine ⟨w1, r1, ?_⟩
  rw [r2]
  have hc : concatBlocks (writeConfigToCard r d).2 DATA_SECTOR_BLOCKS
      = (List.range' 0 (16 * DATA_SECTOR_BLOCKS.length)).map (fun p => charAt r p) := by
    apply concatBlocks_eq_map
    intro i hi j
    have hi16 : i < 16 := hi
    have := congrFun (w2 i hi16) j
    unfold mappedBlock at this
    rw [this]
    unfold expectedChunk
    simp only [Nat.zero_add]
    split
    · rfl
    · rename_i hlt
      unfold charAt
      rw [List.getD_eq_default r 0 (by omega)]
  have h256 : 16 * DATA_SECTOR_BLOCKS.length = 256 := rfl
  rw [hc, h256, map_range'_getD r 256 hmax, List.append_assoc]
  have hz : List.replicate (256 - r.length) (0 : Byte) ++ [0]
      = 0 :: List.replicate (256 - r.length) 0 := by
    rw [← List.replicate_succ']
    rfl
  rw [hz]
  exact takeWhile_append_zero r _ hnull

/-- C10. Write layout: when the writes of all 16 mapped blocks succeed,
`writeConfigToCard r` succeeds; afterwards the `i`-th mapped block holds bytes
`[16 i, 16 i + 16)` of `r` clamped to its first 256 bytes, zero at every position at or
beyond `min r.length 256`; no block outside the map changes; the bytes of `r` beyond
256 play no part (writing `r.take 256` gives the same result); each mapped block is
written with exactly that chunk, and no `MIFARE_Write` goes to a block outside the map. -/
theorem writeConfigToCard_layout (r : Text) (d : Reader)
    (hall : ∀ i, i < 16 → writeSucceeds d (mappedBlock i) = true) :
    (writeConfigToCard r d).1 = true ∧
    (∀ i, i < 16 → (writeConfigToCard r d).2.blocks (mappedBlock i) = expectedChunk r i) ∧
    (∀ b, b ∉ DATA_SECTOR_BLOCKS → (writeConfigToCard r d).2.blocks b = d.blocks b) ∧
    writeConfigToCard r d = writeConfigToCard (r.take 256) d ∧
    (∃ evs : List Event, (writeConfigToCard r d).2.log = d.log ++ evs ∧
      (∀ i, i < 16 →
        Event.mifareWrite (mappedBlock i) (List.ofFn (expectedChunk r i)) ∈ evs) ∧
      (∀ b data, Event.mifareWrite b data ∈ evs → b ∈ DATA_SECTOR_BLOCKS)) := by
  have hmem : ∀ b ∈ DATA_SECTOR_BLOCKS, writeSucceeds d b = true := by
    intro b hb
    obtain ⟨i, hi, he⟩ := mem_data_blocks b hb
    rw [← he]
    exact hall i hi
  obtain ⟨w1, w2, _, _⟩ := writeConfigToCard_of_succeeds r d hmem
  refine ⟨w1, w2, ?_, ?_, ?_⟩
  · intro b hb
    rw [writeConfigToCard_eq r d]
    exact writeBlocksLoop_frame _ _ _ _ _ b hb
  · rw [writeConfigToCard_eq r d, writeConfigToCard_eq (r.take 256) d]
    exact writeBlocksLoop_congr _ _ _ _ (blockChunk_take r) _ _ _
  · rw [writeConfigToCard_eq r d]
    obtain ⟨evs, e1, e2, e3⟩ := writeBlocksLoop_log r (min r.length 256) DATA_SECTOR_BLOCKS 0 d
    refine ⟨evs, e1, ?_, e2⟩
    intro i hi
    have := e3 hmem i hi
    have hc : blockChunk r (min r.length 256) (0 + 16 * i) = expectedChunk r i := by
      funext j
      simp only [blockChunk, expectedChunk, Nat.zero_add]
    rw [hc] at this
    exact this

/-- Witness for C10: the record of the worked example written to a blank card. -/
theorem writeConfigToCard_layout_witness :
    (∀ i, i < 16 → writeSucceeds blankReader (mappedBlock i) = true) ∧
    (writeConfigToCard exampleRecord blankReader).1 = true ∧
    (writeConfigToCard exampleRecord blankReader).2.blocks (mappedBlock 0)
      = expectedChunk exampleRecord 0 :=
  ⟨fun _ _ => rfl,
   (writeConfigToCard_layout exampleRecord blankReader (fun _ _ => rfl)).1,
   (writeConfigToCard_layout exampleRecord blankReader (fun _ _ => rfl)).2.1 0 (by decide)⟩

/-- C9. Write failure without rollback: when the writes of the mapped blocks before
index `k` succeed and the write of the mapped block at index `k` fails,
`writeConfigToCard r` fails; each mapped block before index `k` holds its 16 byte chunk
of the new record; every mapped block after index `k` keeps its old content; and no
`MIFARE_Write` is issued for a mapped block after index `k`. -/
theorem writeConfigToCard_failure (r : Text) (d : Reader) (k : Nat) (hk : k < 16)
    (hbefore : ∀ i, i < k → writeSucceeds d (mappedBlock i) = true)
    (hfail : writeSucceeds d (mappedBlock k) = false) :
    (writeConfigToCard r d).1 = false ∧
    (∀ i, i < k → (writeConfigToCard r d).2.blocks (mappedBlock i) = expectedChunk r i) ∧
    (∀ i, k < i → i < 16 →
      (writeConfigToCard r d).2.blocks (mappedBlock i) = d.blocks (mappedBlock i)) ∧
    (∃ evs : List Event, (writeConfigToCard r d).2.log = d.log ++ evs ∧
      ∀ i, k < i → i < 16 → ∀ data, Event.mifareWrite (mappedBlock i) data ∉ evs) := by
  rw [writeConfigToCard_eq r d]
  have hsplit := data_blocks_split k hk
  obtain ⟨t1, t2⟩ := writeBlocksLoop_truncate r (min r.length 256) (mappedBlock k)
    (DATA_SECTOR_BLOCKS.drop (k + 1)) (DATA_SECTOR_BLOCKS.take k) 0 d hfail
  rw [← hsplit] at t1
  have hnot : ∀ i, k < i → i < 16 →
      mappedBlock i ∉ DATA_SECTOR_BLOCKS.take k ++ [mappedBlock k] := by
    intro i hki hi hmem
    have hl := data_blocks_later k i hki hi
    rcases List.mem_append.mp hmem with h | h
    · exact hl.1 h
    · exact hl.2 (by simpa using h)
  refine ⟨?_, ?_, ?_, ?_⟩
  · rw [t1]; exact t2
  · intro i hi
    have hb := writeBlocksLoop_block r (min r.length 256) DATA_SECTOR_BLOCKS 0 d i (by
      show i < 16
      omega) data_blocks_nodup (fun m hm => hbefore m (by omega))
    show (writeBlocksLoop r (min r.length 256) DATA_SECTOR_BLOCKS 0 d).2.blocks
      (DATA_SECTOR_BLOCKS.getD i 0) = _
    rw [hb]
    funext j
    simp only [blockChunk, expectedChunk, Nat.zero_add]
  · intro i hki hi
    rw [t1]
    exact writeBlocksLoop_frame _ _ _ _ _ _ (hnot i hki hi)
  · rw [t1]
    obtain ⟨evs, e1, e2, _⟩ := writeBlocksLoop_log r (min r.length 256)
      (DATA_SECTOR_BLOCKS.take k ++ [mappedBlock k]) 0 d
    exact ⟨evs, e1, fun i hki hi data hmem => hnot i hki hi (e2 _ _ hmem)⟩

/-- Witness for C9: the write fails at the third mapped block (block 6) of a blank card;
blocks 4 and 5 hold the new chunks and block 8 is still blank. -/
theorem writeConfigToCard_failure_witness :
    (∀ i, i < 2 → writeSucceeds writeFailsAtSix (mappedBlock i) = true) ∧
    writeSucceeds writeFailsAtSix (mappedBlock 2) = false ∧
    (writeConfigToCard exampleRecord writeFailsAtSix).1 = false ∧
    (writeConfigToCard exampleRecord writeFailsAtSix).2.blocks (mappedBlock 1)
      = expectedChunk exampleRecord 1 ∧
    (writeConfigToCard exampleRecord writeFailsAtSix).2.blocks (mappedBlock 3)
      = writeFailsAtSix.blocks (mappedBlock 3) :=
  ⟨by decide, by decide,
   (writeConfigToCard_failure exampleRecord writeFailsAtSix 2 (by decide) (by decide)
      (by decide)).1,
   (writeConfigToCard_failure exampleRecord writeFailsAtSix 2 (by decide) (by decide)
      (by decide)).2.1 1 (by decide),
   (writeConfigToCard_failure exampleRecord writeFailsAtSix 2 (by decide) (by decide)
      (by decide)).2.2.1 3 (by decide) (by decide)⟩

/-- C8. Read failure propagation: when the reads of the mapped blocks before index `k`
succeed and the read of the mapped block at index `k` fails, `readConfigFromCard` fails;
`configOut` is left as it was; the card memory is unchanged; the failure diagnostics
printed name the mapped block at index `k` and no other block; and no `MIFARE_Read` is
issued for a mapped block after index `k`. -/
theorem readConfigFromCard_failure (d : Reader) (configOut : Text) (k : Nat) (hk : k < 16)
    (hbefore : ∀ i, i < k → readSucceeds d (mappedBlock i) = true)
    (hfail : readSucceeds d (mappedBlock k) = false) :
    (readConfigFromCard d configOut).1 = false ∧
    (readConfigFromCard d configOut).2.1 = configOut ∧
    (readConfigFromCard d configOut).2.2.blocks = d.blocks ∧
    ∃ evs : List Event, (readConfigFromCard d configOut).2.2.log = d.log ++ evs ∧
      (∀ b, (Event.authFailure b ∈ evs ∨ Event.readFailure b ∈ evs) ↔ b = mappedBlock k) ∧
      (∀ i, k < i → i < 16 → Event.mifareRead (mappedBlock i) ∉ evs) := by
  obtain ⟨d1, evs, e1, e2, e3, e4, e5⟩ := readBlocksLoop_of_fails (mappedBlock k)
    (DATA_SECTOR_BLOCKS.drop (k + 1)) (DATA_SECTOR_BLOCKS.take k) 0
    (List.replicate (MAX_CONFIG_BYTES + 1) 0) d (readSucceeds_take d k hbefore) hfail
  rw [← data_blocks_split k hk] at e1
  have hres : readConfigFromCard d configOut = (false, configOut, d1) := by
    unfold readConfigFromCard
    simp only [e1]
  rw [hres]
  refine ⟨rfl, rfl, e2, evs, e3, e4, ?_⟩
  intro i hki hi hmem
  have hl := data_blocks_later k i hki hi
  rcases e5 _ hmem with h | h
  · exact hl.1 h
  · exact hl.2 h

/-- Witness for C8: the read fails at the third mapped block (block 6); the output
record `old` is left as it was. -/
theorem readConfigFromCard_failure_witness :
    (∀ i, i < 2 → readSucceeds readFailsAtSix (mappedBlock i) = true) ∧
    readSucceeds readFailsAtSix (mappedBlock 2) = false ∧
    mappedBlock 2 = 6 ∧
    (readConfigFromCard readFailsAtSix (lit "old")).1 = false ∧
    (readConfigFromCard readFailsAtSix (lit "old")).2.1 = lit "old" ∧
    (readConfigFromCard readFailsAtSix (lit "old")).2.2.log =
      [Event.authenticate 7, Event.mifareRead 4, Event.authenticate 7, Event.mifareRead 5,
       Event.authenticate 7, Event.mifareRead 6, Event.readFailure 6] :=
  ⟨by decide, by decide, by decide,
   (readConfigFromCard_failure readFailsAtSix (lit "old") 2 (by decide) (by decide)
      (by decide)).1,
   (readConfigFromCard_failure readFailsAtSix (lit "old") 2 (by decide) (by decide)
      (by decide)).2.1,
   by decide!⟩

/-- C1 (amended). Round trip of the segment codec: for every record `r` with
`MIN_CONFIG_BYTES ≤ r.length ≤ MAX_CONFIG_BYTES` that contains no null byte, on a reader
whose reads and writes of the mapped blocks all succeed, `writeConfigToCard r` succeeds
and `readConfigFromCard` performed after it succeeds and returns exactly `r`. -/
theorem codec_round_trip (r : Text) (d : Reader) (configOut : Text)
    (_hmin : MIN_CONFIG_BYTES ≤ r.length) (hmax : r.length ≤ MAX_CONFIG_BYTES)
    (hnull : ∀ c ∈ r, c ≠ 0)
    (hw : ∀ b ∈ DATA_SECTOR_BLOCKS, writeSucceeds d b = true)
    (hr : ∀ b ∈ DATA_SECTOR_BLOCKS, readSucceeds d b = true) :
    (writeConfigToCard r d).1 = true ∧
    (readConfigFromCard (writeConfigToCard r d).2 configOut).1 = true ∧
    (readConfigFromCard (writeConfigToCard r d).2 configOut).2.1 = r :=
  round_trip_of_no_null r d configOut hmax hnull hw hr

/-- Witness for C1: the record of the worked example on a blank card. -/
theorem codec_round_trip_witness :
    MIN_CONFIG_BYTES ≤ exampleRecord.length ∧ exampleRecord.length ≤ MAX_CONFIG_BYTES ∧
    (∀ c ∈ exampleRecord, c ≠ 0) ∧
    (readConfigFromCard (writeConfigToCard exampleRecord blankReader).2 []).1 = true ∧
    (readConfigFromCard (writeConfigToCard exampleRecord blankReader).2 []).2.1
      = exampleRecord :=
  ⟨by decide!, by decide!, by decide!,
   (codec_round_trip exampleRecord blankReader [] (by decide!) (by decide!) (by decide!)
      (fun _ _ => rfl) (fun _ _ => rfl)).2.1,
   (codec_round_trip exampleRecord blankReader [] (by decide!) (by decide!) (by decide!)
      (fun _ _ => rfl) (fun _ _ => rfl)).2.2⟩

/-- Counterexample to C1 as stated: a record of 97 bytes with a null byte at offset 10,
written to a blank card with every driver call succeeding, is read back as its first
ten bytes only. -/
theorem codec_round_trip_with_null :
    MIN_CONFIG_BYTES ≤ recordWithNull.length ∧ recordWithNull.length ≤ MAX_CONFIG_BYTES ∧
    (writeConfigToCard recordWithNull blankReader).1 = true ∧
    (readConfigFromCard (writeConfigToCard recordWithNull blankReader).2 []).1 = true ∧
    (readConfigFromCard (writeConfigToCard recordWithNull blankReader).2 []).2.1
      = lit "counter: 5" ∧
    (readConfigFromCard (writeConfigToCard recordWithNull blankReader).2 []).2.1
      ≠ recordWithNull := by
  decide!

/-! ## Block address map -/

/-- C19. Block address map validity: `DATA_SECTOR_BLOCKS` has 16 entries, pairwise
distinct and strictly increasing; no entry `b` has `b % 4 = 3`; the sector trailer
`(b / 4) * 4 + 3` that `authenticateDataBlock` computes for a mapped block is never a
mapped block; `MAX_CONFIG_BYTES = 16 * 16 = 256`; and `MIN_CONFIG_BYTES = 97` is at most
`MAX_CONFIG_BYTES`. -/
theorem data_sector_blocks_valid :
    DATA_SECTOR_BLOCKS.length = 16 ∧
    DATA_SECTOR_BLOCKS.Nodup ∧
    List.Pairwise (fun a b => a < b) DATA_SECTOR_BLOCKS ∧
    (∀ b ∈ DATA_SECTOR_BLOCKS, b % 4 ≠ 3) ∧
    (∀ b ∈ DATA_SECTOR_BLOCKS, sectorTrailerBlock b = (b / 4) * 4 + 3 ∧
      sectorTrailerBlock b ∉ DATA_SECTOR_BLOCKS) ∧
    MAX_CONFIG_BYTES = 16 * 16 ∧ MAX_CONFIG_BYTES = 256 ∧
    MIN_CONFIG_BYTES = 97 ∧ MIN_CONFIG_BYTES ≤ MAX_CONFIG_BYTES := by
  decide

/-- Witness for C19: block 4, whose trailer is block 7. -/
theorem data_sector_blocks_valid_witness :
    4 ∈ DATA_SECTOR_BLOCKS ∧ 4 % 4 ≠ 3 ∧ sectorTrailerBlock 4 ∉ DATA_SECTOR_BLOCKS :=
  ⟨by decide, data_sector_blocks_valid.2.2.2.1 4 (by decide),
   (data_sector_blocks_valid.2.2.2.2.1 4 (by decide)).2⟩

/-! ## Shape of the normalized text -/

theorem marker_length : (lit " [auto-fill v2] ").length = 16 := by decide

theorem repeatFiller_length (k : Nat) : (repeatFiller k).length = 45 * k := by
  induction k with
  | zero => rfl
  | succ n ih =>
    simp only [repeatFiller, List.length_append, ih, FILLER_PATTERN_TEXT_length]
    omega

theorem appendFillerLoop_shape (fuel : Nat) :
    ∀ t : Text, MIN_CONFIG_BYTES - t.length ≤ fuel →
      ∃ k, appendFillerLoop fuel t = t ++ repeatFiller k ∧
        MIN_CONFIG_BYTES ≤ t.length + 45 * k ∧
        ∀ j, j < k → t.length + 45 * j < MIN_CONFIG_BYTES := by
  induction fuel with
  | zero =>
    intro t h
    exact ⟨0, by simp [appendFillerLoop, repeatFiller], by omega, by intro j hj; omega⟩
  | succ n ih =>
    intro t h
    simp only [appendFillerLoop]
    split
    · rename_i hlt
      obtain ⟨k, e1, e2, e3⟩ := ih (t ++ FILLER_PATTERN_TEXT) (by
        rw [List.length_append, FILLER_PATTERN_TEXT_length]; omega)
      rw [List.length_append, FILLER_PATTERN_TEXT_length] at e2 e3
      refine ⟨k + 1, ?_, by omega, ?_⟩
      · rw [e1, List.append_assoc]
        rfl
      · intro j hj
        cases j with
        | zero => omega
        | succ m =>
          have := e3 m (by omega)
          omega
    · exact ⟨0, by simp [repeatFiller], by omega, by intro j hj; omega⟩

/-- C17. Padding shape: for a text shorter than `MIN_CONFIG_BYTES`, `enforceConfigLength`
returns the text, then the marker ` [auto-fill v2] `, then `k` whole copies of the filler
pattern (45 bytes each), where `k` is the least number of copies that brings the length
to at least `MIN_CONFIG_BYTES`; the length of the result lies between 97 and 141, so
nothing is cut off by the truncation step. -/
theorem enforceConfigLength_padding (text : Text) (h : text.length < MIN_CONFIG_BYTES) :
    ∃ k, enforceConfigLength text = text ++ lit " [auto-fill v2] " ++ repeatFiller k ∧
      MIN_CONFIG_BYTES ≤ (text ++ lit " [auto-fill v2] ").length + 45 * k ∧
      (∀ j, j < k → (text ++ lit " [auto-fill v2] ").length + 45 * j < MIN_CONFIG_BYTES) ∧
      97 ≤ (enforceConfigLength text).length ∧ (enforceConfigLength text).length ≤ 141 ∧
      FILLER_PATTERN_TEXT.length = 45 := by
  have hmin : MIN_CONFIG_BYTES = 97 := rfl
  obtain ⟨k, e1, e2, e3⟩ := appendFillerLoop_shape
    (MIN_CONFIG_BYTES - (text ++ lit " [auto-fill v2] ").length)
    (text ++ lit " [auto-fill v2] ") (le_refl _)
  have hlen : (text ++ lit " [auto-fill v2] " ++ repeatFiller k).length
      = (text ++ lit " [auto-fill v2] ").length + 45 * k := by
    rw [List.length_append, repeatFiller_length]
  have hm : (text ++ lit " [auto-fill v2] ").length = text.length + 16 := by
    rw [List.length_append, marker_length]
  have hk : (text ++ lit " [auto-fill v2] ").length + 45 * k ≤ 141 := by
    cases k with
    | zero => omega
    | succ m =>
      have := e3 m (by omega)
      omega
  have henf : enforceConfigLength text = text ++ lit " [auto-fill v2] " ++ repeatFiller k := by
    unfold enforceConfigLength
    simp only [if_pos h, e1]
    rw [if_neg (by rw [hlen, MAX_CONFIG_BYTES_eq]; omega)]
  refine ⟨k, henf, e2, e3, ?_, ?_, FILLER_PATTERN_TEXT_length⟩
  · rw [henf, hlen]; omega
  · rw [henf, hlen]; exact hk

/-- Witness for C17: the 27 byte record `counter: 10 rest of data...` gets the marker and
two copies of the filler. -/
theorem enforceConfigLength_padding_witness :
    (lit "counter: 10 rest of data...").length < MIN_CONFIG_BYTES ∧
    (∃ k, enforceConfigLength (lit "counter: 10 rest of data...")
      = lit "counter: 10 rest of data..." ++ lit " [auto-fill v2] " ++ repeatFiller k) ∧
    enforceConfigLength (lit "counter: 10 rest of data...")
      = lit "counter: 10 rest of data..." ++ lit " [auto-fill v2] " ++ repeatFiller 2 :=
  ⟨by decide!,
   (enforceConfigLength_padding (lit "counter: 10 rest of data...") (by decide!)).imp
     (fun _ h => h.1),
   by decide!⟩

/-- C18. No-op and truncation: for a text of at least `MIN_CONFIG_BYTES` bytes,
`enforceConfigLength` returns its first `MAX_CONFIG_BYTES` bytes: the text itself when
its length is at most `MAX_CONFIG_BYTES`, and exactly its first 256 bytes otherwise. -/
theorem enforceConfigLength_truncation (text : Text) (h : MIN_CONFIG_BYTES ≤ text.length) :
    enforceConfigLength text = text.take MAX_CONFIG_BYTES ∧
    (text.length ≤ MAX_CONFIG_BYTES → enforceConfigLength text = text) ∧
    (MAX_CONFIG_BYTES < text.length →
      enforceConfigLength text = text.take 256 ∧ (enforceConfigLength text).length = 256) := by
  have hnot : ¬ text.length < MIN_CONFIG_BYTES := by omega
  have henf : enforceConfigLength text = text.take MAX_CONFIG_BYTES := by
    unfold enforceConfigLength
    simp only [if_neg hnot, remove_eq_take]
    split
    · rfl
    · rename_i hle
      exact (List.take_of_length_le (by omega)).symm
  refine ⟨henf, ?_, ?_⟩
  · intro hle
    rw [henf]
    exact List.take_of_length_le hle
  · intro hgt
    rw [henf, MAX_CONFIG_BYTES_eq] at *
    refine ⟨rfl, ?_⟩
    rw [List.length_take]
    omega

/-- Witness for C18: the 133 byte record of the worked example is returned unchanged. -/
theorem enforceConfigLength_truncation_witness :
    MIN_CONFIG_BYTES ≤ exampleRecord.length ∧ exampleRecord.length ≤ MAX_CONFIG_BYTES ∧
    enforceConfigLength exampleRecord = exampleRecord :=
  ⟨by decide!, by decide!,
   (enforceConfigLength_truncation exampleRecord (by decide!)).2.1 (by decide!)⟩

/-! ## Read assembly -/

theorem stringOfCStr_append_zero (x : List Byte) :
    stringOfCStr (x ++ [0]) = x.takeWhile (fun b => b != 0) := by
  unfold stringOfCStr
  induction x with
  | nil => rfl
  | cons c p ih =>
    simp only [List.cons_append, List.takeWhile_cons]
    split
    · rw [ih]
    · rfl

theorem takeWhile_no_null (x : List Byte) : ∀ c ∈ x.takeWhile (fun b => b != 0), c ≠ 0 := by
  intro c hc
  have := List.mem_takeWhile_imp hc
  simpa using this

theorem concatBlocks_getD (d : Reader) (i : Nat) (hi : i < 16) (j : Fin 16) :
    (concatBlocks d DATA_SECTOR_BLOCKS).getD (16 * i + j.val) 0 = d.blocks (mappedBlock i) j := by
  have hc := concatBlocks_eq_map d
    (fun p => d.blocks (mappedBlock (p / 16)) (Fin.ofNat (p % 16))) DATA_SECTOR_BLOCKS 0
    (fun i hi j => by
      have e1 : (0 + 16 * i + j.val) / 16 = i := by omega
      have e2 : (0 + 16 * i + j.val) % 16 = j.val := by omega
      simp only [e1, e2]
      have e3 : (Fin.ofNat j.val : Fin 16) = j := by
        apply Fin.ext
        show j.val % 16 = j.val
        omega
      rw [e3]
      rfl)
  have h256 : 16 * DATA_SECTOR_BLOCKS.length = 256 := rfl
  rw [hc, h256]
  have hlt : 16 * i + j.val < 256 := by omega
  rw [List.getD_eq_getElem _ 0 (by simpa using hlt)]
  simp only [List.getElem_map, List.getElem_range', Nat.one_mul, Nat.zero_add]
  have e1 : (16 * i + j.val) / 16 = i := by omega
  have e2 : (16 * i + j.val) % 16 = j.val := by omega
  simp only [e1, e2]
  have e3 : (Fin.ofNat j.val : Fin 16) = j := by
    apply Fin.ext
    show j.val % 16 = j.val
    omega
  rw [e3]

/-- C11. Read assembly: when the reads of all 16 mapped blocks succeed,
`readConfigFromCard` succeeds and returns the concatenation, in map order, of the 16 byte
contents of the mapped blocks (256 bytes, byte `16 i + j` being byte `j` of the `i`-th
mapped block) cut at its first null byte; the returned record has at most
`MAX_CONFIG_BYTES` bytes and holds no null byte. -/
theorem readConfigFromCard_assembly (d : Reader) (configOut : Text)
    (hall : ∀ i, i < 16 → readSucceeds d (mappedBlock i) = true) :
    (readConfigFromCard d configOut).1 = true ∧
    (readConfigFromCard d configOut).2.1
      = (concatBlocks d DATA_SECTOR_BLOCKS).takeWhile (fun b => b != 0) ∧
    (concatBlocks d DATA_SECTOR_BLOCKS).length = MAX_CONFIG_BYTES ∧
    (∀ i, i < 16 → ∀ j : Fin 16,
      (concatBlocks d DATA_SECTOR_BLOCKS).getD (16 * i + j.val) 0 = d.blocks (mappedBlock i) j) ∧
    (readConfigFromCard d configOut).2.1.length ≤ MAX_CONFIG_BYTES ∧
    (∀ c ∈ (readConfigFromCard d configOut).2.1, c ≠ 0) := by
  have hmem : ∀ b ∈ DATA_SECTOR_BLOCKS, readSucceeds d b = true := by
    intro b hb
    obtain ⟨i, hi, he⟩ := mem_data_blocks b hb
    rw [← he]
    exact hall i hi
  obtain ⟨r1, r2, _⟩ := readConfigFromCard_of_succeeds d configOut hmem
  have hlen : (concatBlocks d DATA_SECTOR_BLOCKS).length = MAX_CONFIG_BYTES :=
    concatBlocks_length d DATA_SECTOR_BLOCKS
  rw [r2, stringOfCStr_append_zero]
  refine ⟨r1, rfl, hlen, fun i hi j => concatBlocks_getD d i hi j, ?_, takeWhile_no_null _⟩
  rw [← hlen]
  exact (List.takeWhile_sublist _).length_le

/-- Witness for C11: a blank card is read as the empty record. -/
theorem readConfigFromCard_assembly_witness :
    (∀ i, i < 16 → readSucceeds blankReader (mappedBlock i) = true) ∧
    (readConfigFromCard blankReader (lit "old")).1 = true ∧
    (readConfigFromCard blankReader (lit "old")).2.1 = [] :=
  ⟨fun _ _ => rfl,
   (readConfigFromCard_assembly blankReader (lit "old") (fun _ _ => rfl)).1,
   by decide!⟩

/-! ## The updated record -/

theorem updateCounterInConfig_cases (text : Text) :
    ∃ w f, locateNumericField w = some f ∧ updateCounterInConfig text = spliceCounter w f ∧
      (w = text ∨ (locateNumericField text = none ∧ w = createDefaultConfigTemplate 5)) := by
  cases h : locateNumericField text with
  | some f => exact ⟨text, f, h, updateCounterInConfig_of_located text f h, Or.inl rfl⟩
  | none =>
    have ht : locateNumericField (createDefaultConfigTemplate 5) = some ⟨143, 144, 2⟩ := by
      decide!
    refine ⟨createDefaultConfigTemplate 5, ⟨143, 144, 2⟩, ht, ?_, Or.inr ⟨rfl, rfl⟩⟩
    unfold updateCounterInConfig
    simp only [h, ht]

theorem spliceCounter_newValue_ne (w : Text) (f : NumericField) :
    (spliceCounter w f).newValue ≠ (spliceCounter w f).previousValue := by
  simp only [spliceCounter]
  unfold wrapLong
  split <;> omega

/-- C20. The defensive fallback is unreachable: `locateNumericField` succeeds on
`createDefaultConfigTemplate 5`, so for every input `updateCounterInConfig` returns the
splice of a located field (never the branch with `previousValue = newValue = 5`), and
`newValue` differs from `previousValue`. -/
theorem defensive_fallback_unreachable :
    (locateNumericField (createDefaultConfigTemplate 5)).isSome = true ∧
    ∀ text : Text,
      (∃ w f, locateNumericField w = some f ∧ updateCounterInConfig text = spliceCounter w f) ∧
      (updateCounterInConfig text).newValue ≠ (updateCounterInConfig text).previousValue := by
  refine ⟨by decide!, ?_⟩
  intro text
  obtain ⟨w, f, hloc, hupd, _⟩ := updateCounterInConfig_cases text
  refine ⟨⟨w, f, hloc, hupd⟩, ?_⟩
  rw [hupd]
  exact spliceCounter_newValue_ne w f

theorem noNull_append (a b : Text) (ha : NoNull a) (hb : NoNull b) : NoNull (a ++ b) := by
  intro c hc
  rcases List.mem_append.mp hc with h | h
  · exact ha c h
  · exact hb c h

theorem noNull_take (a : Text) (n : Nat) (ha : NoNull a) : NoNull (a.take n) :=
  fun c hc => ha c (List.mem_of_mem_take hc)

theorem noNull_drop (a : Text) (n : Nat) (ha : NoNull a) : NoNull (a.drop n) :=
  fun c hc => ha c (List.mem_of_mem_drop hc)

theorem noNull_of_digits (a : Text) (ha : ∀ c ∈ a, isDigit c = true) : NoNull a := by
  intro c hc h0
  have := ha c hc
  rw [h0] at this
  exact absurd this (by decide)

theorem noNull_filler : NoNull FILLER_PATTERN_TEXT := by decide!

theorem noNull_appendFillerLoop (fuel : Nat) :
    ∀ t : Text, NoNull t → NoNull (appendFillerLoop fuel t) := by
  induction fuel with
  | zero => intro t h; exact h
  | succ n ih =>
    intro t h
    simp only [appendFillerLoop]
    split
    · exact ih _ (noNull_append _ _ h noNull_filler)
    · exact h

theorem noNull_enforceConfigLength (t : Text) (h : NoNull t) :
    NoNull (enforceConfigLength t) := by
  unfold enforceConfigLength
  simp only [remove_eq_take]
  have hq : ∀ p : Text, NoNull p →
      NoNull (if p.length > MAX_CONFIG_BYTES then p.take MAX_CONFIG_BYTES else p) := by
    intro p hp
    split
    · exact noNull_take _ _ hp
    · exact hp
  apply hq
  split
  · exact noNull_appendFillerLoop _ _ (noNull_append _ _ h (by decide!))
  · exact h

theorem noNull_spliceCounter (w : Text) (f : NumericField) (h : NoNull w) :
    NoNull (spliceCounter w f).config := by
  rw [spliceCounter_config]
  apply noNull_enforceConfigLength
  apply noNull_append
  · apply noNull_append
    · exact noNull_take _ _ h
    · exact noNull_of_digits _
        (stringOfLong_nonneg _ (spliceCounter_newValue_nonneg w f)).1
  · exact noNull_drop _ _ h

theorem spliceCounter_length (w : Text) (f : NumericField) :
    MIN_CONFIG_BYTES ≤ (spliceCounter w f).config.length ∧
    (spliceCounter w f).config.length ≤ MAX_CONFIG_BYTES := by
  rw [spliceCounter_config]
  exact enforceConfigLength_length _

/-- C16. The updated record is storable without loss: for every input text without null
bytes the record returned by `updateCounterInConfig` has between `MIN_CONFIG_BYTES` and
`MAX_CONFIG_BYTES` bytes and no null byte, and on a reader whose reads and writes of the
mapped blocks all succeed, writing it and reading it back returns exactly that record. -/
theorem updateCounterInConfig_storable (text : Text) (d : Reader) (configOut : Text)
    (hnull : NoNull text)
    (hw : ∀ b ∈ DATA_SECTOR_BLOCKS, writeSucceeds d b = true)
    (hr : ∀ b ∈ DATA_SECTOR_BLOCKS, readSucceeds d b = true) :
    MIN_CONFIG_BYTES ≤ (updateCounterInConfig text).config.length ∧
    (updateCounterInConfig text).config.length ≤ MAX_CONFIG_BYTES ∧
    NoNull (updateCounterInConfig text).config ∧
    (writeConfigToCard (updateCounterInConfig text).config d).1 = true ∧
    (readConfigFromCard (writeConfigToCard (updateCounterInConfig text).config d).2
      configOut).1 = true ∧
    (readConfigFromCard (writeConfigToCard (updateCounterInConfig text).config d).2
      configOut).2.1 = (updateCounterInConfig text).config := by
  obtain ⟨w, f, _, hupd, hw0⟩ := updateCounterInConfig_cases text
  have hwn : NoNull w := by
    rcases hw0 with h | h
    · rw [h]; exact hnull
    · rw [h.2]; decide!
  have hlen := spliceCounter_length w f
  have hnn := noNull_spliceCounter w f hwn
  rw [hupd]
  obtain ⟨t1, t2, t3⟩ := round_trip_of_no_null (spliceCounter w f).config d configOut
    hlen.2 hnn hw hr
  exact ⟨hlen.1, hlen.2, hnn, t1, t2, t3⟩

/-- Witness for C16: the record of the worked example on a blank card. -/
theorem updateCounterInConfig_storable_witness :
    NoNull exampleRecord ∧
    (readConfigFromCard (writeConfigToCard (updateCounterInConfig exampleRecord).config
      blankReader).2 []).2.1 = (updateCounterInConfig exampleRecord).config :=
  ⟨by decide!,
   (updateCounterInConfig_storable exampleRecord blankReader [] (by decide!)
      (fun _ _ => rfl) (fun _ _ => rfl)).2.2.2.2.2⟩

/-! ## Field locator: what the scan returns -/

theorem charAt_of_length_le (t : Text) (p : Nat) (h : t.length ≤ p) : charAt t p = 0 := by
  unfold charAt
  exact List.getD_eq_default t 0 h

theorem isDigit_zero : isDigit 0 = false := by decide

theorem decimalValue_snoc (l : Text) (c : Byte) :
    decimalValue (l ++ [c]) = decimalValue l * 10 + (c.val - 48) := by
  simp [decimalValue, List.foldl_append]

theorem slice_succ (t : Text) (a j : Nat) (h1 : a ≤ j) (h2 : j < t.length) :
    slice t a (j + 1) = slice t a j ++ [charAt t j] := by
  unfold slice charAt
  rw [List.take_succ, List.drop_append_of_le_length (by rw [List.length_take]; omega),
    List.getD_eq_getElem t 0 h2, List.getElem?_eq_getElem h2]
  rfl

theorem slice_self (t : Text) (a : Nat) : slice t a a = [] := by
  unfold slice
  rw [List.drop_eq_nil_iff, List.length_take]
  omega

theorem wrapLong_step (a d : Int) : wrapLong (wrapLong a * 10 + d) = wrapLong (a * 10 + d) := by
  unfold wrapLong
  omega

theorem wrapLong_neg (a : Int) : wrapLong (-(wrapLong a)) = wrapLong (-a) := by
  unfold wrapLong
  omega

theorem digit_val (c : Byte) (h : isDigit c = true) :
    (((c.val - 48 : Nat) : Int)) = (c.val : Int) - 48 := by
  unfold isDigit at h
  simp at h
  omega

theorem parseDigitRun_spec (t : Text) (ds : Nat) (fuel : Nat) :
    ∀ (j : Nat) (v : Int), t.length - j ≤ fuel → ds ≤ j → j ≤ t.length →
      v = wrapLong (decimalValue (slice t ds j)) →
      j ≤ (parseDigitRun t t.length fuel j v).1 ∧
      (parseDigitRun t t.length fuel j v).1 ≤ t.length ∧
      (∀ p, j ≤ p → p < (parseDigitRun t t.length fuel j v).1 → isDigit (charAt t p) = true) ∧
      isDigit (charAt t (parseDigitRun t t.length fuel j v).1) = false ∧
      (parseDigitRun t t.length fuel j v).2
        = wrapLong (decimalValue (slice t ds (parseDigitRun t t.length fuel j v).1)) := by
  induction fuel with
  | zero =>
    intro j v hf hds hj hv
    have hjl : j = t.length := by omega
    simp only [parseDigitRun]
    refine ⟨le_refl _, hj, fun p h1 h2 => by omega, ?_, hv⟩
    rw [charAt_of_length_le t j (by omega)]
    exact isDigit_zero
  | succ n ih =>
    intro j v hf hds hj hv
    simp only [parseDigitRun]
    split
    · rename_i hc
      have hnext : wrapLong (v * 10 + (((charAt t j).val : Int) - 48))
          = wrapLong (decimalValue (slice t ds (j + 1))) := by
        rw [hv, wrapLong_step, slice_succ t ds j hds hc.1, decimalValue_snoc]
        congr 1
        rw [Nat.cast_add, Nat.cast_mul, digit_val _ hc.2]
        rfl
      obtain ⟨h1, h2, h3, h4, h5⟩ := ih (j + 1) _ (by omega) (by omega) (by omega) hnext
      refine ⟨by omega, h2, ?_, h4, h5⟩
      intro p hp1 hp2
      by_cases hpj : p = j
      · rw [hpj]; exact hc.2
      · exact h3 p (by omega) hp2
    · rename_i hc
      refine ⟨le_refl _, hj, fun p h1 h2 => by omega, ?_, hv⟩
      by_cases hjl : j < t.length
      · have : ¬ isDigit (charAt t j) = true := fun h => hc ⟨hjl, h⟩
        simpa using this
      · rw [charAt_of_length_le t j (by omega)]
        exact isDigit_zero

theorem scan_condition (t : Text) (i : Nat) :
    (isDigit (charAt t i) ||
      ((decide (charAt t i = 45) || decide (charAt t i = 43)) && decide (i + 1 < t.length) &&
        isDigit (charAt t (i + 1)))) = startsNumber t i := by
  unfold startsNumber isSign
  by_cases h : i + 1 < t.length
  · simp [h]
  · rw [charAt_of_length_le t (i + 1) (by omega), isDigit_zero]
    simp

theorem scanForNumber_succ (t : Text) (fuel i : Nat) :
    scanForNumber t t.length (fuel + 1) i =
      if i < t.length then
        (if startsNumber t i = true then some (numberAt t i)
         else scanForNumber t t.length fuel (i + 1))
      else none := by
  simp only [scanForNumber, scan_condition]
  split
  · split
    · rename_i hs
      unfold numberAt digitStart isSign
      simp
    · rfl
  · rfl

theorem scanForNumber_spec (t : Text) (fuel : Nat) :
    ∀ i : Nat, t.length - i ≤ fuel →
      (scanForNumber t t.length fuel i = none ∧
        ∀ p, i ≤ p → p < t.length → startsNumber t p = false) ∨
      (∃ s, i ≤ s ∧ s < t.length ∧ startsNumber t s = true ∧
        (∀ p, i ≤ p → p < s → startsNumber t p = false) ∧
        scanForNumber t t.length fuel i = some (numberAt t s)) := by
  induction fuel with
  | zero =>
    intro i hf
    left
    exact ⟨rfl, fun p h1 h2 => by omega⟩
  | succ n ih =>
    intro i hf
    rw [scanForNumber_succ]
    by_cases hi : i < t.length
    · rw [if_pos hi]
      by_cases hs : startsNumber t i = true
      · right
        rw [if_pos hs]
        exact ⟨i, le_refl _, hi, hs, fun p h1 h2 => by omega, rfl⟩
      · rw [if_neg hs]
        have hsf : startsNumber t i = false := by simpa using hs
        rcases ih (i + 1) (by omega) with ⟨h1, h2⟩ | ⟨s, h1, h2, h3, h4, h5⟩
        · left
          refine ⟨h1, fun p hp1 hp2 => ?_⟩
          by_cases hpi : p = i
          · rw [hpi]; exact hsf
          · exact h2 p (by omega) hp2
        · right
          refine ⟨s, by omega, h2, h3, fun p hp1 hp2 => ?_, h5⟩
          by_cases hpi : p = i
          · rw [hpi]; exact hsf
          · exact h4 p (by omega) hp2
    · left
      rw [if_neg hi]
      exact ⟨rfl, fun p h1 h2 => by omega⟩

theorem findFirstNumberInConfig_eq (t : Text) (searchFromIndex : Int) :
    findFirstNumberInConfig t searchFromIndex =
      scanForNumber t t.length (t.length - (max searchFromIndex 0).toNat)
        (max searchFromIndex 0).toNat := by
  unfold findFirstNumberInConfig
  have e : (if searchFromIndex < 0 then 0 else searchFromIndex) = max searchFromIndex 0 := by
    split <;> omega
  simp only [e]

theorem findFirstNumberInConfig_cases (t : Text) (searchFromIndex : Int) :
    (findFirstNumberInConfig t searchFromIndex = none ∧
      ∀ p, (max searchFromIndex 0).toNat ≤ p → p < t.length → startsNumber t p = false) ∨
    (∃ s, (max searchFromIndex 0).toNat ≤ s ∧ s < t.length ∧ startsNumber t s = true ∧
      (∀ p, (max searchFromIndex 0).toNat ≤ p → p < s → startsNumber t p = false) ∧
      findFirstNumberInConfig t searchFromIndex = some (numberAt t s)) := by
  rw [findFirstNumberInConfig_eq]
  exact scanForNumber_spec t _ _ (le_refl _)

theorem wrapLong_step_id (a : Int) : wrapLong (wrapLong a) = wrapLong a := by
  unfold wrapLong
  omega

theorem startsNumber_of_digit (t : Text) (p : Nat) (h : isDigit (charAt t p) = true) :
    startsNumber t p = true := by
  unfold startsNumber
  rw [h]
  rfl

theorem isDigit_not_sign (c : Byte) (h : isDigit c = true) : isSign c = false := by
  unfold isSign
  have h1 : c ≠ 45 := by
    intro e; rw [e] at h; exact absurd h (by decide)
  have h2 : c ≠ 43 := by
    intro e; rw [e] at h; exact absurd h (by decide)
  simp [h1, h2]

theorem digitStart_digit (t : Text) (s : Nat) (h : startsNumber t s = true) :
    isDigit (charAt t (digitStart t s)) = true ∧ s ≤ digitStart t s ∧
      digitStart t s ≤ s + 1 := by
  unfold startsNumber at h
  unfold digitStart
  cases hd : isDigit (charAt t s) with
  | true =>
    rw [isDigit_not_sign _ hd]
    simp [hd]
  | false =>
    rw [hd] at h
    simp only [Bool.false_or, Bool.and_eq_true] at h
    rw [h.1]
    simp [h.2]

theorem lt_length_of_digit (t : Text) (p : Nat) (h : isDigit (charAt t p) = true) :
    p < t.length := by
  by_contra hc
  rw [charAt_of_length_le t p (by omega), isDigit_zero] at h
  exact absurd h (by decide)

/-- What the field built at a number start looks like. -/
theorem numberAt_spec (t : Text) (s : Nat) (h : startsNumber t s = true) :
    (numberAt t s).fieldStart = s ∧
    digitStart t s < (numberAt t s).fieldEnd ∧
    (numberAt t s).fieldEnd ≤ t.length ∧
    (∀ p, digitStart t s ≤ p → p < (numberAt t s).fieldEnd → isDigit (charAt t p) = true) ∧
    isDigit (charAt t (numberAt t s).fieldEnd) = false ∧
    (numberAt t s).numericValue = wrapLong
      ((if charAt t s = 45 then -1 else 1) *
        (decimalValue (slice t (digitStart t s) (numberAt t s).fieldEnd) : Int)) := by
  obtain ⟨hd, hs1, hs2⟩ := digitStart_digit t s h
  have hlt := lt_length_of_digit t _ hd
  obtain ⟨p1, p2, p3, p4, p5⟩ := parseDigitRun_spec t (digitStart t s)
    (t.length - digitStart t s) (digitStart t s) 0 (le_refl _) (le_refl _) (by omega)
    (by rw [slice_self]; rfl)
  have hne : digitStart t s ≠
      (parseDigitRun t t.length (t.length - digitStart t s) (digitStart t s) 0).1 := by
    intro e
    rw [← e, hd] at p4
    exact absurd p4 (by decide)
  refine ⟨rfl, ?_, p2, p3, p4, ?_⟩
  · show digitStart t s <
      (parseDigitRun t t.length (t.length - digitStart t s) (digitStart t s) 0).1
    omega
  · have he : (numberAt t s).fieldEnd =
        (parseDigitRun t t.length (t.length - digitStart t s) (digitStart t s) 0).1 := rfl
    have hv : (numberAt t s).numericValue = (if charAt t s = 45 then
        wrapLong (-(parseDigitRun t t.length (t.length - digitStart t s) (digitStart t s) 0).2)
      else (parseDigitRun t t.length (t.length - digitStart t s) (digitStart t s) 0).2) := rfl
    rw [hv, he, p5]
    by_cases hneg : charAt t s = 45
    · rw [if_pos hneg, if_pos hneg, wrapLong_neg]
      congr 1
      omega
    · rw [if_neg hneg, if_neg hneg, Int.one_mul]

theorem no_start_iff_no_digit (t : Text) (m : Nat) :
    (∀ p, m ≤ p → p < t.length → startsNumber t p = false) ↔
    (∀ p, m ≤ p → p < t.length → isDigit (charAt t p) = false) := by
  constructor
  · intro h p h1 h2
    by_contra hc
    have hd : isDigit (charAt t p) = true := by simpa using hc
    have := h p h1 h2
    rw [startsNumber_of_digit t p hd] at this
    exact absurd this (by decide)
  · intro h p h1 h2
    by_contra hc
    have hs : startsNumber t p = true := by simpa using hc
    obtain ⟨hd, hs1, hs2⟩ := digitStart_digit t p hs
    have := h (digitStart t p) (by omega) (lt_length_of_digit t _ hd)
    rw [hd] at this
    exact absurd this (by decide)

theorem findFirstNumberInConfig_eq_none_iff (t : Text) (searchFromIndex : Int) :
    findFirstNumberInConfig t searchFromIndex = none ↔
      ∀ p, (max searchFromIndex 0).toNat ≤ p → p < t.length → isDigit (charAt t p) = false := by
  rw [← no_start_iff_no_digit]
  rcases findFirstNumberInConfig_cases t searchFromIndex with ⟨h1, h2⟩ | ⟨s, h1, h2, h3, h4, h5⟩
  · exact ⟨fun _ => h2, fun _ => h1⟩
  · constructor
    · intro hn
      rw [hn] at h5
      exact absurd h5 (by simp)
    · intro hn
      rw [hn s h1 h2] at h3
      exact absurd h3 (by decide)

theorem findFirstNumberInConfig_of_some (t : Text) (searchFromIndex : Int) (f : NumericField)
    (h : findFirstNumberInConfig t searchFromIndex = some f) :
    (max searchFromIndex 0).toNat ≤ f.fieldStart ∧ f.fieldStart < t.length ∧
    startsNumber t f.fieldStart = true ∧
    (∀ p, (max searchFromIndex 0).toNat ≤ p → p < f.fieldStart → startsNumber t p = false) ∧
    f = numberAt t f.fieldStart := by
  rcases findFirstNumberInConfig_cases t searchFromIndex with ⟨h1, _⟩ | ⟨s, h1, h2, h3, h4, h5⟩
  · rw [h1] at h
    exact absurd h (by simp)
  · rw [h5] at h
    injection h with h
    subst h
    exact ⟨h1, h2, h3, h4, rfl⟩

theorem parseDigitRun_congr (t1 t2 : Text) (n : Nat) (fuel : Nat) :
    ∀ (j : Nat) (v : Int), (∀ p, j ≤ p → charAt t1 p = charAt t2 p) →
      parseDigitRun t1 n fuel j v = parseDigitRun t2 n fuel j v := by
  induction fuel with
  | zero => intro j v _; rfl
  | succ k ih =>
    intro j v h
    simp only [parseDigitRun, h j (le_refl _)]
    split
    · exact ih _ _ (fun p hp => h p (by omega))
    · rfl

theorem scanForNumber_congr (t1 t2 : Text) (n : Nat) (fuel : Nat) :
    ∀ i : Nat, (∀ p, i ≤ p → charAt t1 p = charAt t2 p) →
      scanForNumber t1 n fuel i = scanForNumber t2 n fuel i := by
  induction fuel with
  | zero => intro i _; rfl
  | succ k ih =>
    intro i h
    simp only [scanForNumber, h i (le_refl _), h (i + 1) (by omega)]
    split
    · split
      · rw [parseDigitRun_congr t1 t2 n _ _ _ (fun p hp => h p (by
          have : i ≤ i + (if (decide (charAt t2 i = 45) || decide (charAt t2 i = 43)) = true
            then 1 else 0) := Nat.le_add_right _ _
          omega))]
      · exact ih _ (fun p hp => h p (by omega))
    · rfl

theorem findFirstNumberInConfig_congr (t1 t2 : Text) (searchFromIndex : Int)
    (hlen : t1.length = t2.length)
    (h : ∀ p, (max searchFromIndex 0).toNat ≤ p → charAt t1 p = charAt t2 p) :
    findFirstNumberInConfig t1 searchFromIndex = findFirstNumberInConfig t2 searchFromIndex := by
  rw [findFirstNumberInConfig_eq, findFirstNumberInConfig_eq, hlen]
  exact scanForNumber_congr t1 t2 _ _ _ h

/-- C13 (amended). `findFirstNumberInConfig text searchFromIndex`, with
`m = max searchFromIndex 0`: it succeeds exactly when some position `i` with
`m ≤ i < text.length` holds a digit; on success `fieldStart` is the least position from
`m` on at which a number starts (a digit, or `+` or `-` followed by a digit), `fieldEnd`
is the position just after the maximal run of digits that follows the optional sign
(`fieldStart < fieldEnd ≤ text.length`, and the byte at `fieldEnd` is not a digit), and
`numericValue` is the integer those digits denote, negated exactly when the sign is `-`,
reduced to the 32 bit range of `long` (it is that integer itself when the digits denote
at most 2147483647); a text of the same length that agrees with `text` from `m` on gives
the same result. -/
theorem findFirstNumberInConfig_spec (text : Text) (searchFromIndex : Int) :
    ((findFirstNumberInConfig text searchFromIndex).isSome = true ↔
      ∃ i, (max searchFromIndex 0).toNat ≤ i ∧ i < text.length ∧
        isDigit (charAt text i) = true) ∧
    (∀ f, findFirstNumberInConfig text searchFromIndex = some f →
      (max searchFromIndex 0).toNat ≤ f.fieldStart ∧
      startsNumber text f.fieldStart = true ∧
      (∀ p, (max searchFromIndex 0).toNat ≤ p → p < f.fieldStart →
        startsNumber text p = false) ∧
      f.fieldStart < f.fieldEnd ∧ f.fieldEnd ≤ text.length ∧
      digitStart text f.fieldStart < f.fieldEnd ∧
      (∀ p, digitStart text f.fieldStart ≤ p → p < f.fieldEnd →
        isDigit (charAt text p) = true) ∧
      isDigit (charAt text f.fieldEnd) = false ∧
      f.numericValue = wrapLong ((if charAt text f.fieldStart = 45 then -1 else 1) *
        (decimalValue (slice text (digitStart text f.fieldStart) f.fieldEnd) : Int)) ∧
      (decimalValue (slice text (digitStart text f.fieldStart) f.fieldEnd) ≤ 2147483647 →
        f.numericValue = (if charAt text f.fieldStart = 45 then -1 else 1) *
          (decimalValue (slice text (digitStart text f.fieldStart) f.fieldEnd) : Int))) ∧
    (∀ other : Text, other.length = text.length →
      (∀ p, (max searchFromIndex 0).toNat ≤ p → charAt other p = charAt text p) →
      findFirstNumberInConfig other searchFromIndex
        = findFirstNumberInConfig text searchFromIndex) := by
  refine ⟨?_, ?_, ?_⟩
  · have hiff := findFirstNumberInConfig_eq_none_iff text searchFromIndex
    constructor
    · intro h
      by_contra hc
      have hn : findFirstNumberInConfig text searchFromIndex = none := by
        rw [hiff]
        intro p h1 h2
        by_contra hd
        exact hc ⟨p, h1, h2, by simpa using hd⟩
      rw [hn] at h
      exact absurd h (by decide)
    · intro ⟨i, h1, h2, h3⟩
      cases hf : findFirstNumberInConfig text searchFromIndex with
      | some f => rfl
      | none =>
        rw [hiff.mp hf i h1 h2] at h3
        exact absurd h3 (by decide)
  · intro f hf
    obtain ⟨h1, h2, h3, h4, h5⟩ := findFirstNumberInConfig_of_some text searchFromIndex f hf
    obtain ⟨n1, n2, n3, n4, n5, n6⟩ := numberAt_spec text f.fieldStart h3
    obtain ⟨_, d1, _⟩ := digitStart_digit text f.fieldStart h3
    rw [← h5] at n1 n2 n3 n4 n5 n6
    refine ⟨h1, h3, h4, by omega, n3, n2, n4, n5, n6, ?_⟩
    intro hb
    rw [n6]
    apply wrapLong_of_inRange
    unfold InLongRange
    split <;> omega
  · intro other hlen h
    exact findFirstNumberInConfig_congr other text searchFromIndex hlen h

/-- Witness for C13: the number `-12` in `ab -12 c`, searched from index -3. -/
theorem findFirstNumberInConfig_spec_witness :
    findFirstNumberInConfig (lit "ab -12 c") (-3) = some ⟨3, 6, -12⟩ ∧
    (3 : Nat) < 6 ∧ digitStart (lit "ab -12 c") 3 = 4 ∧
    slice (lit "ab -12 c") 4 6 = lit "12" :=
  ⟨by decide!,
   ((findFirstNumberInConfig_spec (lit "ab -12 c") (-3)).2.1 ⟨3, 6, -12⟩ (by decide!)).2.2.2.1,
   by decide!, by decide!⟩

/-- Counterexample to C13 as stated: in `2147483648` the digits denote 2147483648 and
there is no `-` sign, yet the value returned is -2147483648. -/
theorem findFirstNumberInConfig_overflow :
    findFirstNumberInConfig (lit "2147483648") 0 = some ⟨0, 10, -2147483648⟩ ∧
    charAt (lit "2147483648") 0 ≠ 45 ∧
    decimalValue (slice (lit "2147483648") 0 10) = 2147483648 := by
  decide!

theorem no_digit_iff_charAt (t : Text) :
    (∀ c ∈ t, isDigit c = false) ↔ (∀ p, p < t.length → isDigit (charAt t p) = false) := by
  constructor
  · intro h p hp
    unfold charAt
    rw [List.getD_eq_getElem t 0 hp]
    exact h _ (List.getElem_mem _)
  · intro h c hc
    obtain ⟨p, hp, he⟩ := List.getElem_of_mem hc
    have := h p hp
    unfold charAt at this
    rw [List.getD_eq_getElem t 0 hp, he] at this
    exact this

theorem findFirstNumberInConfig_of_no_digit (t : Text) (searchFromIndex : Int)
    (h : ∀ c ∈ t, isDigit c = false) : findFirstNumberInConfig t searchFromIndex = none := by
  rw [findFirstNumberInConfig_eq_none_iff]
  intro p _ hp
  exact (no_digit_iff_charAt t).mp h p hp

theorem findLabeledNumberField_cases (t label : Text) :
    findLabeledNumberField t label = none ∨
    ∃ from_ : Int, findLabeledNumberField t label = findFirstNumberInConfig t from_ := by
  unfold findLabeledNumberField
  split
  · left; rfl
  · right; exact ⟨_, rfl⟩

theorem findLabeledNumberField_of_no_digit (t label : Text)
    (h : ∀ c ∈ t, isDigit c = false) : findLabeledNumberField t label = none := by
  rcases findLabeledNumberField_cases t label with h1 | ⟨from_, h1⟩
  · exact h1
  · rw [h1]
    exact findFirstNumberInConfig_of_no_digit t from_ h

/-- C12. Locator fallback order: `locateNumericField text` is the result of
`findLabeledNumberField text "balance"` when that succeeds; otherwise that of
`findLabeledNumberField text "counter"` when that succeeds; otherwise
`findFirstNumberInConfig text 0`; and it reports not-found exactly when the text holds no
digit. -/
theorem locateNumericField_fallback (text : Text) :
    (∀ f, findLabeledNumberField text (lit "balance") = some f →
      locateNumericField text = some f) ∧
    (findLabeledNumberField text (lit "balance") = none →
      ∀ f, findLabeledNumberField text (lit "counter") = some f →
        locateNumericField text = some f) ∧
    (findLabeledNumberField text (lit "balance") = none →
      findLabeledNumberField text (lit "counter") = none →
        locateNumericField text = findFirstNumberInConfig text 0) ∧
    (locateNumericField text = none ↔ ∀ c ∈ text, isDigit c = false) := by
  refine ⟨?_, ?_, ?_, ?_⟩
  · intro f h
    unfold locateNumericField
    simp only [h]
  · intro hb f h
    unfold locateNumericField
    simp only [hb, h]
  · intro hb hc
    unfold locateNumericField
    simp only [hb, hc]
  · constructor
    · intro h
      have h0 : findFirstNumberInConfig text 0 = none := by
        unfold locateNumericField at h
        split at h
        · exact absurd h (by simp)
        · split at h
          · exact absurd h (by simp)
          · exact h
      rw [no_digit_iff_charAt]
      intro p hp
      exact (findFirstNumberInConfig_eq_none_iff text 0).mp h0 p (by simp) hp
    · intro h
      unfold locateNumericField
      simp only [findLabeledNumberField_of_no_digit text _ h,
        findFirstNumberInConfig_of_no_digit text 0 h]

/-- Witness for C12: in `counter: 3 balance: 7` the balance field is the one located. -/
theorem locateNumericField_fallback_witness :
    findLabeledNumberField (lit "counter: 3 balance: 7") (lit "balance") = some ⟨20, 21, 7⟩ ∧
    locateNumericField (lit "counter: 3 balance: 7") = some ⟨20, 21, 7⟩ :=
  ⟨by decide!,
   (locateNumericField_fallback (lit "counter: 3 balance: 7")).1 ⟨20, 21, 7⟩ (by decide!)⟩

/-! ### Labelled search -/

theorem strstr_none (needle : Text) :
    ∀ hay : Text, (∀ k, ¬ needle <+: hay.drop k) → strstr hay needle = none := by
  intro hay
  induction hay with
  | nil =>
    intro h
    have hne : needle ≠ [] := by
      intro e
      exact h 0 (by rw [e]; exact List.nil_prefix)
    cases needle with
    | nil => exact absurd rfl hne
    | cons a l => rfl
  | cons c rest ih =>
    intro h
    have h0 : ¬ needle <+: c :: rest := by simpa using h 0
    have hrec := ih (fun k => by simpa using h (k + 1))
    simp [strstr, h0, hrec]

theorem strchr_none (ch : Byte) : ∀ hay : Text, ch ∉ hay → strchr hay ch = none := by
  intro hay
  induction hay with
  | nil => intro _; rfl
  | cons c rest ih =>
    intro h
    have hc : c ≠ ch := fun e => h (by simp [e])
    have hr : ch ∉ rest := fun e => h (by simp [e])
    simp [strchr, hc, ih hr]

theorem findFirstNumberInConfig_nil (searchFromIndex : Int) :
    findFirstNumberInConfig [] searchFromIndex = none :=
  findFirstNumberInConfig_of_no_digit [] searchFromIndex (by simp)

theorem strstr_of_first (z label : Text) (p : Nat)
    (hocc : OccursAt label z p) (hfirst : ∀ k, k < p → ¬ OccursAt label z k) :
    strstr z label = some p ∧ p ≤ z.length := by
  have hp : p ≤ z.length := by
    by_contra hc
    have hd : z.drop p = [] := List.drop_of_length_le (by omega)
    unfold OccursAt at hocc
    rw [hd] at hocc
    have hl : label = [] := List.prefix_nil.mp hocc
    exact hfirst 0 (by omega) (by unfold OccursAt; rw [hl]; exact List.nil_prefix)
  refine ⟨?_, hp⟩
  have hs := strstr_append label (z.take p) (z.drop p) hocc (fun k hk => by
    rw [List.take_append_drop]
    exact hfirst k (by
      rw [List.length_take] at hk
      omega))
  rw [List.take_append_drop, List.length_take, Nat.min_eq_left hp] at hs
  exact hs

theorem stringOfCStr_dropWhile (l : List Byte) :
    stringOfCStr (l.dropWhile (fun b => b != 0)) = [] := by
  unfold stringOfCStr
  induction l with
  | nil => rfl
  | cons c r ih =>
    by_cases h : c = 0
    · subst h
      rfl
    · have : (c != 0) = true := by simpa using h
      have e : (c :: r).dropWhile (fun b => b != 0) = r.dropWhile (fun b => b != 0) := by
        simp only [List.dropWhile_cons, this, if_true]
      rw [e]
      exact ih

theorem noNull_stringOfCStr (t : List Byte) : NoNull (stringOfCStr t) := by
  intro c hc
  unfold stringOfCStr at hc
  have := List.mem_takeWhile_imp hc
  simpa using this

theorem stringOfCStr_drop (t : Text) (p : Nat) (hp : p ≤ (stringOfCStr t).length) :
    stringOfCStr (t.drop p) = (stringOfCStr t).drop p := by
  have e : t = stringOfCStr t ++ t.dropWhile (fun b => b != 0) := by
    unfold stringOfCStr
    exact (List.takeWhile_append_dropWhile _ _).symm
  have e2 : t.drop p = (stringOfCStr t).drop p ++ t.dropWhile (fun b => b != 0) := by
    conv_lhs => rw [e]
    exact List.drop_append_of_le_length hp
  rw [e2, stringOfCStr_append _ _ (fun c hc => noNull_stringOfCStr t c (List.mem_of_mem_drop hc)),
    stringOfCStr_dropWhile, List.append_nil]

theorem charAt_eq_getElem? (text : Text) (m : Nat) : charAt text m = (text[m]?).getD 0 := by
  unfold charAt
  exact List.getD_eq_getElem?_getD text m 0

theorem getElem?_of_charAt (text : Text) (m : Nat) (hm : m < text.length) :
    text[m]? = some (charAt text m) := by
  rw [charAt_eq_getElem?, List.getElem?_eq_getElem hm]
  rfl

theorem charAt_of_getElem? (text : Text) (m : Nat) (ch : Byte) (h : text[m]? = some ch) :
    charAt text m = ch ∧ m < text.length := by
  rw [charAt_eq_getElem?, h]
  refine ⟨rfl, ?_⟩
  by_contra hc
  rw [List.getElem?_eq_none (by omega)] at h
  exact absurd h (by simp)

theorem mem_slice (t : Text) (a b : Nat) (ch : Byte) (h : ch ∈ slice t a b) :
    ∃ m, a ≤ m ∧ m < b ∧ m < t.length ∧ charAt t m = ch := by
  obtain ⟨n, hn⟩ := List.mem_iff_getElem?.mp h
  unfold slice at hn
  rw [List.getElem?_drop, List.getElem?_take] at hn
  split at hn
  · rename_i hlt
    obtain ⟨h1, h2⟩ := charAt_of_getElem? t _ ch hn
    exact ⟨a + n, by omega, hlt, h2, h1⟩
  · exact absurd hn (by simp)

theorem mem_drop (t : Text) (a : Nat) (ch : Byte) (h : ch ∈ t.drop a) :
    ∃ m, a ≤ m ∧ m < t.length ∧ charAt t m = ch := by
  obtain ⟨n, hn⟩ := List.mem_iff_getElem?.mp h
  rw [List.getElem?_drop] at hn
  obtain ⟨h1, h2⟩ := charAt_of_getElem? t _ ch hn
  exact ⟨a + n, by omega, h2, h1⟩

theorem drop_eq_slice_cons (t : Text) (p c : Nat) (h1 : p ≤ c) (h2 : c < t.length) :
    t.drop p = slice t p c ++ charAt t c :: t.drop (c + 1) := by
  unfold slice
  have e : t.drop p = (t.take c ++ t.drop c).drop p := by rw [List.take_append_drop]
  rw [e, List.drop_append_of_le_length (by rw [List.length_take]; omega),
    List.drop_eq_getElem_cons h2]
  unfold charAt
  rw [List.getD_eq_getElem t 0 h2]

theorem strchr_of_first (z : Text) (ch : Byte) (p c : Nat) (h1 : p ≤ c)
    (h2 : c < z.length) (hc : charAt z c = ch)
    (hfirst : ∀ m, p ≤ m → m < c → charAt z m ≠ ch) :
    strchr (z.drop p) ch = some (c - p) := by
  rw [drop_eq_slice_cons z p c h1 h2, hc]
  have hnot : ch ∉ slice z p c := by
    intro hm
    obtain ⟨m, m1, m2, _, m4⟩ := mem_slice z p c ch hm
    exact hfirst m m1 m2 m4
  rw [strchr_append ch _ _ hnot]
  have hl : (slice z p c).length = c - p := by
    unfold slice
    rw [List.length_drop, List.length_take]
    omega
  rw [hl]

theorem strchr_of_absent (z : Text) (ch : Byte) (p : Nat)
    (h : ∀ m, p ≤ m → m < z.length → charAt z m ≠ ch) :
    strchr (z.drop p) ch = none := by
  have hnot : ch ∉ z.drop p := by
    intro hm
    obtain ⟨m, m1, m2, m3⟩ := mem_drop z p ch hm
    exact h m m1 m2 m3
  exact strchr_none ch _ hnot

theorem stringOfCStr_length_le (t : Text) : (stringOfCStr t).length ≤ t.length :=
  (stringOfCStr_initial t).length_le

/-- C14 (amended). `findLabeledNumberField text label`, for a label without null byte,
with `z = stringOfCStr text` the part of `text` before its first null byte (all of
`text` when it holds none): when `label` does not occur in `z` the result is not-found;
otherwise, with `p` the offset of the first occurrence of `label` in `z`, the result is
`findFirstNumberInConfig text (c + 1)` when `c` is the position of the first `:` of `z`
at or after `p`, and `findFirstNumberInConfig text (p + label.length)` when no `:`
occurs in `z` at or after `p`. -/
theorem findLabeledNumberField_spec (text label : Text) (hl : NoNull label) :
    ((∀ k, ¬ OccursAt label (stringOfCStr text) k) →
      findLabeledNumberField text label = none) ∧
    (∀ p, OccursAt label (stringOfCStr text) p →
      (∀ k, k < p → ¬ OccursAt label (stringOfCStr text) k) →
      (∀ c, p ≤ c → c < (stringOfCStr text).length → charAt (stringOfCStr text) c = 58 →
        (∀ m, p ≤ m → m < c → charAt (stringOfCStr text) m ≠ 58) →
        findLabeledNumberField text label = findFirstNumberInConfig text ((c : Int) + 1)) ∧
      ((∀ m, p ≤ m → m < (stringOfCStr text).length → charAt (stringOfCStr text) m ≠ 58) →
        findLabeledNumberField text label
          = findFirstNumberInConfig text ((p : Int) + (label.length : Int)))) ∧
    (NoNull text → stringOfCStr text = text) := by
  have hlab : stringOfCStr label = label := stringOfCStr_of_noNull label hl
  refine ⟨?_, ?_, stringOfCStr_of_noNull text⟩
  · intro h
    have hidx : indexOfStr text label 0 = none := by
      unfold indexOfStr
      split
      · rfl
      · rw [List.drop_zero, hlab, strstr_none label _ h]
        rfl
    unfold findLabeledNumberField
    simp only [hidx]
  · intro p hocc hfirst
    by_cases hne : text = []
    · subst hne
      have hnone : findLabeledNumberField [] label = none := by
        unfold findLabeledNumberField indexOfStr
        simp
      rw [hnone]
      exact ⟨fun c _ _ _ _ => (findFirstNumberInConfig_nil _).symm,
        fun _ => (findFirstNumberInConfig_nil _).symm⟩
    · have hlen : 0 < text.length := List.length_pos.mpr hne
      obtain ⟨hs, hp⟩ := strstr_of_first (stringOfCStr text) label p hocc hfirst
      have hzl := stringOfCStr_length_le text
      have hidx : indexOfStr text label 0 = some p := by
        unfold indexOfStr
        rw [if_neg (by omega), List.drop_zero, hlab, hs]
        simp
      constructor
      · intro c h1 h2 h3 h4
        have hcol : indexOfChar text 58 p = some c := by
          unfold indexOfChar
          rw [if_neg (by omega), stringOfCStr_drop text p hp,
            strchr_of_first (stringOfCStr text) 58 p c h1 h2 h3 h4]
          simp only [Option.map_some', Option.some.injEq]
          omega
        unfold findLabeledNumberField
        simp only [hidx, hcol]
      · intro h
        have hcol : indexOfChar text 58 p = none := by
          unfold indexOfChar
          split
          · rfl
          · rw [stringOfCStr_drop text p hp, strchr_of_absent (stringOfCStr text) 58 p h]
            rfl
        unfold findLabeledNumberField
        simp only [hidx, hcol, hlab]

/-- Witness for C14: the label `counter` in `my counter: 12`, with its colon at 10. -/
theorem findLabeledNumberField_spec_witness :
    OccursAt (lit "counter") (stringOfCStr (lit "my counter: 12")) 3 ∧
    findLabeledNumberField (lit "my counter: 12") (lit "counter")
      = findFirstNumberInConfig (lit "my counter: 12") ((10 : Nat) + 1) ∧
    findLabeledNumberField (lit "my counter: 12") (lit "counter") = some ⟨12, 14, 12⟩ :=
  ⟨by decide!,
   ((findLabeledNumberField_spec (lit "my counter: 12") (lit "counter") (by decide!)).2.1 3
      (by decide!) (by decide!)).1 10 (by decide) (by decide!) (by decide!) (by decide!),
   by decide!⟩

/-- Counterexample to C14 as stated: in `nullBeforeLabel` the label `balance` occurs,
first at offset 2, the first `:` at or after it is at offset 9, and
`findFirstNumberInConfig` from offset 10 finds the `7` at offset 11; yet
`findLabeledNumberField` returns not-found, because the label search ends at the null
byte at offset 1. -/
theorem findLabeledNumberField_stops_at_null :
    OccursAt (lit "balance") nullBeforeLabel 2 ∧
    (∀ k, k < 2 → ¬ OccursAt (lit "balance") nullBeforeLabel k) ∧
    charAt nullBeforeLabel 9 = 58 ∧
    (∀ m, 2 ≤ m → m < 9 → charAt nullBeforeLabel m ≠ 58) ∧
    findFirstNumberInConfig nullBeforeLabel ((9 : Int) + 1) = some ⟨11, 12, 7⟩ ∧
    findLabeledNumberField nullBeforeLabel (lit "balance") = none := by
  decide!

/-! ## The counter across a transaction -/

theorem strstr_cons (c : Byte) (rest needle : Text) :
    strstr (c :: rest) needle =
      if needle <+: c :: rest then some 0 else (strstr rest needle).map (fun k => k + 1) := by
  by_cases h : needle <+: c :: rest
  · simp [strstr, h]
  · simp [strstr, h]

theorem strchr_cons (c ch : Byte) (rest : Text) :
    strchr (c :: rest) ch =
      if c = ch then some 0 else (strchr rest ch).map (fun k => k + 1) := rfl

theorem prefix_append_numeric (label : Text) (hl : ∀ c ∈ label, isNumeric c = false)
    (x : Byte) (hx : isNumeric x = true) (rest : Text) :
    ∀ a : Text, label <+: a ++ x :: rest ↔ label <+: a := by
  induction label with
  | nil => intro a; simp
  | cons l ls ih =>
    intro a
    have hlx : l ≠ x := by
      intro e
      have := hl l (by simp)
      rw [e, hx] at this
      exact absurd this (by decide)
    cases a with
    | nil =>
      simp only [List.nil_append, List.cons_prefix_cons, List.prefix_nil]
      constructor
      · intro h; exact absurd h.1 hlx
      · intro h; exact absurd h (by simp)
    | cons c cs =>
      simp only [List.cons_append, List.cons_prefix_cons]
      rw [ih (fun y hy => hl y (by simp [hy])) cs]

theorem strstr_numeric (label : Text) (hne : label ≠ [])
    (hl : ∀ c ∈ label, isNumeric c = false) (b : Text) :
    ∀ x : Text, (∀ c ∈ x, isNumeric c = true) →
      strstr (x ++ b) label = (strstr b label).map (fun k => k + x.length) := by
  intro x
  induction x with
  | nil => intro _; simp
  | cons c cs ih =>
    intro hx
    have hnot : ¬ label <+: c :: (cs ++ b) := by
      intro h
      have := (prefix_append_numeric label hl c (hx c (by simp)) (cs ++ b) []).mp
        (by simpa using h)
      exact hne (List.prefix_nil.mp this)
    rw [List.cons_append, strstr, if_neg (by simpa using hnot),
      ih (fun y hy => hx y (by simp [hy]))]
    cases strstr b label with
    | none => rfl
    | some k => simp only [Option.map_some', List.length_cons, Option.some.injEq]; omega

theorem strstr_nil_of_ne (label : Text) (hne : label ≠ []) : strstr [] label = none := by
  cases label with
  | nil => exact absurd rfl hne
  | cons a l => rfl

theorem strstr_mid (label : Text) (hne : label ≠ [])
    (hl : ∀ c ∈ label, isNumeric c = false) (x b : Text) (hxne : x ≠ [])
    (hx : ∀ c ∈ x, isNumeric c = true) :
    ∀ a : Text, strstr (a ++ (x ++ b)) label =
      match strstr a label with
      | some k => some k
      | none => (strstr b label).map (fun k => k + (a.length + x.length)) := by
  intro a
  induction a with
  | nil =>
    rw [List.nil_append, strstr_numeric label hne hl b x hx, strstr_nil_of_ne label hne]
    simp
  | cons c cs ih =>
    obtain ⟨x0, xs, hxe⟩ := List.exists_cons_of_ne_nil hxne
    have hpre : label <+: c :: (cs ++ (x ++ b)) ↔ label <+: c :: cs := by
      rw [hxe]
      have := prefix_append_numeric label hl x0 (hx x0 (by rw [hxe]; simp)) (xs ++ b) (c :: cs)
      simpa using this
    rw [List.cons_append, strstr_cons, strstr_cons, ih]
    by_cases hp : label <+: c :: cs
    · rw [if_pos (hpre.mpr hp), if_pos hp]
    · rw [if_neg (fun h => hp (hpre.mp h)), if_neg hp]
      cases strstr cs label with
      | some k => rfl
      | none =>
        cases strstr b label with
        | none => rfl
        | some k =>
          simp only [Option.map_some', Option.map_none', List.length_cons, Option.some.injEq]
          omega

theorem strchr_mid (ch : Byte) (x b : Text) (hx : ch ∉ x) :
    ∀ a : Text, strchr (a ++ (x ++ b)) ch =
      match strchr a ch with
      | some k => some k
      | none => (strchr b ch).map (fun k => k + (a.length + x.length)) := by
  intro a
  induction a with
  | nil =>
    rw [List.nil_append]
    have : ∀ y : Text, ch ∉ y → strchr (y ++ b) ch = (strchr b ch).map (fun k => k + y.length) := by
      intro y
      induction y with
      | nil => intro _; simp
      | cons d ds ihd =>
        intro hy
        have hd : d ≠ ch := fun e => hy (by simp [e])
        rw [List.cons_append, strchr, if_neg hd, ihd (fun e => hy (by simp [e]))]
        cases strchr b ch with
        | none => rfl
        | some k => simp only [Option.map_some', List.length_cons, Option.some.injEq]; omega
    rw [this x hx]
    simp [strchr]
  | cons c cs ih =>
    rw [List.cons_append, strchr_cons, strchr_cons, ih]
    by_cases hc : c = ch
    · rw [if_pos hc, if_pos hc]
    · rw [if_neg hc, if_neg hc]
      cases strchr cs ch with
      | some k => rfl
      | none =>
        cases strchr b ch with
        | none => rfl
        | some k =>
          simp only [Option.map_some', Option.map_none', List.length_cons, Option.some.injEq]
          omega

theorem strstr_some_bound (label : Text) (hne : label ≠ []) :
    ∀ (a : Text) (p : Nat), strstr a label = some p → p + label.length ≤ a.length := by
  intro a
  induction a with
  | nil =>
    intro p h
    rw [strstr_nil_of_ne label hne] at h
    exact absurd h (by simp)
  | cons c cs ih =>
    intro p h
    simp only [strstr, List.isPrefixOf_iff_prefix] at h
    split at h
    · rename_i hp
      injection h with h
      have := hp.length_le
      omega
    · cases hs : strstr cs label with
      | none => rw [hs] at h; exact absurd h (by simp)
      | some k =>
        rw [hs] at h
        simp only [Option.map_some', Option.some.injEq] at h
        have := ih k hs
        simp only [List.length_cons]
        omega

theorem strchr_some_bound (ch : Byte) :
    ∀ (a : Text) (k : Nat), strchr a ch = some k → k < a.length := by
  intro a
  induction a with
  | nil => intro k h; exact absurd h (by simp [strchr])
  | cons c cs ih =>
    intro k h
    simp only [strchr] at h
    split at h
    · injection h with h
      simp only [List.length_cons]
      omega
    · cases hs : strchr cs ch with
      | none => rw [hs] at h; exact absurd h (by simp)
      | some j =>
        rw [hs] at h
        simp only [Option.map_some', Option.some.injEq] at h
        have := ih j hs
        simp only [List.length_cons]
        omega

theorem numeric_ne_colon (x : Text) (hx : ∀ c ∈ x, isNumeric c = true) : (58 : Byte) ∉ x := by
  intro h
  have := hx 58 h
  exact absurd this (by decide)

/-! ### The labelled search in a text split around a number -/

theorem indexOfStr_of_noNull (s s2 : Text) (hs : NoNull s) (h2 : NoNull s2) (k : Nat) :
    indexOfStr s s2 k
      = if k ≥ s.length then none else (strstr (s.drop k) s2).map (fun j => k + j) := by
  unfold indexOfStr
  rw [stringOfCStr_of_noNull _ (noNull_drop s k hs), stringOfCStr_of_noNull _ h2]

theorem indexOfChar_of_noNull (s : Text) (ch : Byte) (hs : NoNull s) (k : Nat) :
    indexOfChar s ch k
      = if k ≥ s.length then none else (strchr (s.drop k) ch).map (fun j => k + j) := by
  unfold indexOfChar
  rw [stringOfCStr_of_noNull _ (noNull_drop s k hs)]

theorem noNull_of_numeric (x : Text) (hx : ∀ c ∈ x, isNumeric c = true) : NoNull x := by
  intro c hc h0
  have := hx c hc
  rw [h0] at this
  exact absurd this (by decide)

theorem findLabeledNumberField_plan (label : Text) (hg : GoodLabel label) (a b : Text)
    (ha : NoNull a) (hb : NoNull b) (x : Text) (hx1 : x ≠ [])
    (hx2 : ∀ c ∈ x, isNumeric c = true) :
    findLabeledNumberField (a ++ (x ++ b)) label
      = searchAfterLabel (a ++ (x ++ b)) a.length x.length (labelPlan a b label) := by
  obtain ⟨hne, hl, hln⟩ := hg
  have hlpos : 0 < label.length := List.length_pos.mpr hne
  have hxpos : 0 < x.length := List.length_pos.mpr hx1
  have hT : NoNull (a ++ (x ++ b)) :=
    noNull_append _ _ ha (noNull_append _ _ (noNull_of_numeric x hx2) hb)
  have hlc : stringOfCStr label = label := stringOfCStr_of_noNull label hln
  have hidx : indexOfStr (a ++ (x ++ b)) label 0 = match strstr a label with
        | some k => some k
        | none => (strstr b label).map (fun k => k + (a.length + x.length)) := by
    rw [indexOfStr_of_noNull _ _ hT hln,
      if_neg (by simp only [List.length_append]; omega), List.drop_zero,
      strstr_mid label hne hl x b hx1 hx2 a]
    cases strstr a label with
    | some k => simp
    | none =>
      cases strstr b label with
      | none => rfl
      | some k => simp
  unfold labelPlan
  cases hA : strstr a label with
  | some p =>
    have hpb := strstr_some_bound label hne a p hA
    have hcolon : indexOfChar (a ++ (x ++ b)) 58 p = match strchr (a.drop p) 58 with
          | some k => some (p + k)
          | none => (strchr b 58).map (fun k => k + (a.length + x.length)) := by
      rw [indexOfChar_of_noNull _ _ hT,
        if_neg (by simp only [List.length_append]; omega),
        List.drop_append_of_le_length (by omega),
        strchr_mid 58 x b (numeric_ne_colon x hx2) (a.drop p)]
      cases strchr (a.drop p) 58 with
      | some k => rfl
      | none =>
        cases strchr b 58 with
        | none => rfl
        | some k =>
          simp only [Option.map_some', List.length_drop, Option.some.injEq]
          omega
    cases hC : strchr (a.drop p) 58 with
    | some k =>
      unfold findLabeledNumberField
      simp only [hidx, hA, hcolon, hC, searchAfterLabel]
      congr 1
    | none =>
      cases hB : strchr b 58 with
      | some q =>
        unfold findLabeledNumberField
        simp only [hidx, hA, hcolon, hC, hB, searchAfterLabel, Option.map_some']
        congr 1
        push_cast
        omega
      | none =>
        unfold findLabeledNumberField
        simp only [hidx, hA, hcolon, hC, hB, searchAfterLabel, Option.map_none', hlc]
        congr 1
  | none =>
    cases hB : strstr b label with
    | none =>
      unfold findLabeledNumberField
      simp only [hidx, hA, hB, searchAfterLabel, Option.map_none']
    | some q =>
      have hqb := strstr_some_bound label hne b q hB
      have hcolon : indexOfChar (a ++ (x ++ b)) 58 (q + (a.length + x.length))
            = (strchr (b.drop q) 58).map (fun k => q + (a.length + x.length) + k) := by
        have hd : (a ++ (x ++ b)).drop (q + (a.length + x.length)) = b.drop q := by
          rw [← List.append_assoc, Nat.add_comm q,
            show a.length + x.length = (a ++ x).length by simp, List.drop_append]
        rw [indexOfChar_of_noNull _ _ hT,
          if_neg (by simp only [List.length_append]; omega), hd]
      cases hC : strchr (b.drop q) 58 with
      | some k =>
        unfold findLabeledNumberField
        simp only [hidx, hA, hB, hcolon, hC, searchAfterLabel, Option.map_some']
        congr 1
        push_cast
        omega
      | none =>
        unfold findLabeledNumberField
        simp only [hidx, hA, hB, hcolon, hC, searchAfterLabel, Option.map_some',
          Option.map_none', hlc]
        congr 1
        push_cast
        omega

theorem labelPlan_inl_le (label : Text) (hne : label ≠ []) (a b : Text) (ss : Nat)
    (h : labelPlan a b label = some (Sum.inl ss)) : ss ≤ a.length := by
  unfold labelPlan at h
  cases hA : strstr a label with
  | some p =>
    have hpb := strstr_some_bound label hne a p hA
    rw [hA] at h
    simp only at h
    cases hC : strchr (a.drop p) 58 with
    | some k =>
      have hk := strchr_some_bound 58 _ k hC
      rw [List.length_drop] at hk
      rw [hC] at h
      simp only [Option.some.injEq, Sum.inl.injEq] at h
      omega
    | none =>
      rw [hC] at h
      simp only at h
      cases hB : strchr b 58 with
      | some q =>
        rw [hB] at h
        simp at h
      | none =>
        rw [hB] at h
        simp only [Option.some.injEq, Sum.inl.injEq] at h
        omega
  | none =>
    rw [hA] at h
    simp only at h
    cases hB : strstr b label with
    | none => rw [hB] at h; simp at h
    | some q =>
      rw [hB] at h
      simp only at h
      cases hC : strchr (b.drop q) 58 with
      | some k => rw [hC] at h; simp at h
      | none => rw [hC] at h; simp at h

/-! ### What `strstr` and `strchr` compute -/

theorem strchr_eq_none_iff (ch : Byte) (l : Text) : strchr l ch = none ↔ ch ∉ l := by
  constructor
  · induction l with
    | nil => intro _; simp
    | cons c cs ih =>
      intro h
      rw [strchr_cons] at h
      by_cases hc : c = ch
      · rw [if_pos hc] at h
        exact absurd h (by simp)
      · rw [if_neg hc] at h
        cases hs : strchr cs ch with
        | none =>
          intro hm
          rcases List.mem_cons.mp hm with e | e
          · exact hc e.symm
          · exact ih hs e
        | some k =>
          rw [hs] at h
          exact absurd h (by simp)
  · exact strchr_none ch l

theorem strchr_append_of_not_mem (ch : Byte) (v : Text) (hv : ch ∉ v) :
    ∀ u : Text, strchr (u ++ v) ch = strchr u ch := by
  intro u
  induction u with
  | nil =>
    rw [List.nil_append, strchr_none ch v hv]
    rfl
  | cons c cs ih =>
    rw [List.cons_append, strchr_cons, strchr_cons, ih]

theorem strstr_some_spec (needle : Text) :
    ∀ (l : Text) (q : Nat), strstr l needle = some q →
      needle <+: l.drop q ∧ ∀ k, k < q → ¬ needle <+: l.drop k := by
  intro l
  induction l with
  | nil =>
    intro q h
    cases needle with
    | nil =>
      simp only [strstr, List.isEmpty_nil, if_true, Option.some.injEq] at h
      subst h
      exact ⟨List.nil_prefix, fun k hk => absurd hk (by omega)⟩
    | cons c cs => exact absurd h (by simp [strstr])
  | cons c cs ih =>
    intro q h
    rw [strstr_cons] at h
    by_cases hp : needle <+: c :: cs
    · rw [if_pos hp] at h
      injection h with h
      subst h
      exact ⟨hp, fun k hk => absurd hk (by omega)⟩
    · rw [if_neg hp] at h
      cases hs : strstr cs needle with
      | none => rw [hs] at h; exact absurd h (by simp)
      | some j =>
        rw [hs] at h
        simp only [Option.map_some', Option.some.injEq] at h
        subst h
        obtain ⟨i1, i2⟩ := ih j hs
        refine ⟨by simpa using i1, ?_⟩
        intro k hk
        cases k with
        | zero => simpa using hp
        | succ k => simpa using i2 k (by omega)

theorem strstr_eq_none_iff (needle l : Text) :
    strstr l needle = none ↔ ∀ k, ¬ needle <+: l.drop k := by
  constructor
  · intro h k hk
    induction l generalizing k with
    | nil =>
      rw [List.drop_nil] at hk
      have : needle = [] := List.prefix_nil.mp hk
      subst this
      exact absurd h (by simp [strstr])
    | cons c cs ih =>
      rw [strstr_cons] at h
      by_cases hp : needle <+: c :: cs
      · rw [if_pos hp] at h
        exact absurd h (by simp)
      · rw [if_neg hp] at h
        cases hs : strstr cs needle with
        | some j => rw [hs] at h; exact absurd h (by simp)
        | none =>
          cases k with
          | zero => exact hp (by simpa using hk)
          | succ k => exact ih hs k (by simpa using hk)
  · exact strstr_none needle l

theorem prefix_take_of (needle l : Text) (n : Nat) (h : needle <+: l)
    (hn : needle.length ≤ n) : needle <+: l.take n := by
  rw [List.prefix_take_iff]
  exact ⟨h, hn⟩

theorem strstr_take_none (needle l : Text) (m : Nat) (h : strstr l needle = none) :
    strstr (l.take m) needle = none := by
  rw [strstr_eq_none_iff] at h ⊢
  intro k hk
  apply h k
  rw [List.drop_take] at hk
  exact hk.trans (List.take_prefix _ _)

theorem strstr_take_some (needle l : Text) (m q : Nat) (h : strstr l needle = some q)
    (hne : needle ≠ []) :
    strstr (l.take m) needle = if q + needle.length ≤ m then some q else none := by
  obtain ⟨h1, h2⟩ := strstr_some_spec needle l q h
  have hlpos : 0 < needle.length := List.length_pos.mpr hne
  split
  · rename_i hle
    have := strstr_of_first (l.take m) needle q
      (by
        unfold OccursAt
        rw [List.drop_take]
        exact prefix_take_of _ _ _ h1 (by omega))
      (by
        intro k hk hocc
        unfold OccursAt at hocc
        rw [List.drop_take] at hocc
        exact h2 k hk (hocc.trans (List.take_prefix _ _)))
    exact this.1
  · rename_i hle
    rw [strstr_eq_none_iff]
    intro k hk
    rw [List.drop_take] at hk
    have hk1 : needle <+: l.drop k := hk.trans (List.take_prefix _ _)
    have hk2 := hk.length_le
    rw [List.length_take] at hk2
    have hkq : q ≤ k := by
      by_contra hc
      exact h2 k (by omega) hk1
    omega

theorem strchr_take (ch : Byte) (l : Text) (m : Nat) (h : ch ∉ l.drop m) :
    strchr (l.take m) ch = strchr l ch := by
  conv_rhs => rw [← List.take_append_drop m l]
  exact (strchr_append_of_not_mem ch _ h _).symm

theorem strchr_take_none (ch : Byte) (l : Text) (m : Nat) (h : strchr l ch = none) :
    strchr (l.take m) ch = none := by
  rw [strchr_eq_none_iff] at h ⊢
  exact fun hm => h (List.mem_of_mem_take hm)

/-! ### The label plan when the bytes after the number change -/

theorem labelPlan_inl_take (a b label : Text) (m ss : Nat)
    (h : labelPlan a b label = some (Sum.inl ss)) :
    labelPlan a (b.take m) label = some (Sum.inl ss) := by
  unfold labelPlan at h ⊢
  cases hA : strstr a label with
  | some p =>
    rw [hA] at h
    simp only at h ⊢
    cases hC : strchr (a.drop p) 58 with
    | some k =>
      rw [hC] at h
      exact h
    | none =>
      rw [hC] at h
      simp only at h ⊢
      cases hB : strchr b 58 with
      | some q => rw [hB] at h; simp at h
      | none =>
        rw [hB] at h
        rw [strchr_take_none 58 b m hB]
        exact h
  | none =>
    rw [hA] at h
    simp only at h
    cases hB : strstr b label with
    | none => rw [hB] at h; simp at h
    | some q =>
      rw [hB] at h
      simp only at h
      cases hC : strchr (b.drop q) 58 with
      | some k => rw [hC] at h; simp at h
      | none => rw [hC] at h; simp at h

theorem labelPlan_take (a b label : Text) (hne : label ≠ []) (m : Nat)
    (hcut : (58 : Byte) ∉ b.drop m) :
    labelPlan a (b.take m) label = none ∨
      labelPlan a (b.take m) label = labelPlan a b label := by
  unfold labelPlan
  cases hA : strstr a label with
  | some p =>
    right
    simp only
    rw [strchr_take 58 b m hcut]
  | none =>
    simp only
    cases hB : strstr b label with
    | none =>
      left
      rw [strstr_take_none label b m hB]
    | some q =>
      rw [strstr_take_some label b m q hB hne]
      by_cases hq : q + label.length ≤ m
      · right
        rw [if_pos hq]
        simp only
        have e : (b.take m).drop q = (b.drop q).take (m - q) := List.drop_take _ _ _
        have hcut2 : (58 : Byte) ∉ (b.drop q).drop (m - q) := by
          rw [List.drop_drop, show q + (m - q) = m by omega]
          exact hcut
        rw [e, strchr_take 58 (b.drop q) (m - q) hcut2]
      · left
        rw [if_neg hq]

theorem labelPlan_none_of_absent (a b label : Text) (ha : strstr a label = none)
    (hb : strstr b label = none) : labelPlan a b label = none := by
  unfold labelPlan
  rw [ha, hb]

theorem labelPlan_inl_append (a b pad label : Text) (ss : Nat)
    (h : labelPlan a b label = some (Sum.inl ss))
    (hpad : ∀ p, strstr a label = some p → strchr (a.drop p) 58 = none →
      strchr b 58 = none → (58 : Byte) ∉ pad) :
    labelPlan a (b ++ pad) label = some (Sum.inl ss) := by
  unfold labelPlan at h ⊢
  cases hA : strstr a label with
  | some p =>
    rw [hA] at h
    simp only at h ⊢
    cases hC : strchr (a.drop p) 58 with
    | some k =>
      rw [hC] at h
      exact h
    | none =>
      rw [hC] at h
      simp only at h ⊢
      cases hB : strchr b 58 with
      | some q => rw [hB] at h; simp at h
      | none =>
        rw [hB] at h
        rw [strchr_append_of_not_mem 58 pad (hpad p hA hC hB) b, hB]
        exact h
  | none =>
    rw [hA] at h
    simp only at h
    cases hB : strstr b label with
    | none => rw [hB] at h; simp at h
    | some q =>
      rw [hB] at h
      simp only at h
      cases hC : strchr (b.drop q) 58 with
      | some k => rw [hC] at h; simp at h
      | none => rw [hC] at h; simp at h

theorem strstr_none_of_absent (label text : Text) (hne : label ≠ [])
    (h : Absent label text) : strstr text label = none := by
  rw [strstr_eq_none_iff]
  intro k hk
  by_cases hkl : k ≤ text.length
  · exact h k hkl hk
  · rw [List.drop_eq_nil_of_le (by omega)] at hk
    exact hne (List.prefix_nil.mp hk)

theorem absent_split (label : Text) (hne : label ≠ [])
    (hl : ∀ c ∈ label, isNumeric c = false) (a x b : Text) (hx1 : x ≠ [])
    (hx2 : ∀ c ∈ x, isNumeric c = true) (h : Absent label (a ++ (x ++ b))) :
    strstr a label = none ∧ strstr b label = none := by
  have hs := strstr_none_of_absent label _ hne h
  rw [strstr_mid label hne hl x b hx1 hx2 a] at hs
  cases hA : strstr a label with
  | some k => rw [hA] at hs; exact absurd hs (by simp)
  | none =>
    rw [hA] at hs
    simp only at hs
    cases hB : strstr b label with
    | some k => rw [hB] at hs; exact absurd hs (by simp)
    | none => exact ⟨rfl, rfl⟩

theorem colonAfter_split (label : Text) (hne : label ≠ [])
    (hl : ∀ c ∈ label, isNumeric c = false) (a x b : Text) (hx1 : x ≠ [])
    (hx2 : ∀ c ∈ x, isNumeric c = true) (h : ColonAfter label (a ++ (x ++ b)))
    (p : Nat) (hA : strstr a label = some p) (hC : strchr (a.drop p) 58 = none)
    (hB : strchr b 58 = none) : False := by
  obtain ⟨q, _, hq2, hq3⟩ := h
  have hs : strstr (a ++ (x ++ b)) label = some p := by
    rw [strstr_mid label hne hl x b hx1 hx2 a, hA]
  obtain ⟨_, s2⟩ := strstr_some_spec label _ p hs
  have hpq : p ≤ q := by
    by_contra hc
    exact s2 q (by omega) hq2
  have hpa := strstr_some_bound label hne a p hA
  have hmem : (58 : Byte) ∈ (a ++ (x ++ b)).drop p := by
    have e : (a ++ (x ++ b)).drop q = ((a ++ (x ++ b)).drop p).drop (q - p) := by
      rw [List.drop_drop, show p + (q - p) = q by omega]
    rw [e] at hq3
    exact List.mem_of_mem_drop hq3
  rw [List.drop_append_of_le_length (by omega)] at hmem
  rw [strchr_eq_none_iff] at hC hB
  rcases List.mem_append.mp hmem with h1 | h1
  · exact hC h1
  · rcases List.mem_append.mp h1 with h2 | h2
    · exact numeric_ne_colon x hx2 h2
    · exact hB h2

theorem prefix_append_of_last_not_mem (label0 : Text) (z : Byte) (pad : Text) (hz : z ∉ pad)
    (b : Text) (h : label0 ++ [z] <+: b ++ pad) : label0 ++ [z] <+: b := by
  by_cases hlen : (label0 ++ [z]).length ≤ b.length
  · exact List.prefix_of_prefix_length_le h (List.prefix_append b pad) hlen
  · exfalso
    have hb : b <+: label0 ++ [z] :=
      List.prefix_of_prefix_length_le (List.prefix_append b pad) h (by omega)
    obtain ⟨r, hr⟩ := hb
    rw [← hr, List.prefix_append_right_inj] at h
    have hrne : r ≠ [] := by
      intro e
      rw [e, List.append_nil] at hr
      rw [hr] at hlen
      exact hlen (le_refl _)
    have hzr : z ∈ r := by
      have hlast : (b ++ r).getLast? = some z := by
        rw [hr]
        simp
      rw [List.getLast?_append_of_ne_nil _ hrne] at hlast
      exact List.mem_of_getLast?_eq_some hlast
    exact hz (h.subset hzr)

theorem strstr_append_of_last_not_mem (label0 : Text) (z : Byte) (pad : Text) (hz : z ∉ pad)
    (b : Text) (h : strstr b (label0 ++ [z]) = none) :
    strstr (b ++ pad) (label0 ++ [z]) = none := by
  rw [strstr_eq_none_iff] at h ⊢
  intro k hk
  by_cases hkb : k ≤ b.length
  · rw [List.drop_append_of_le_length hkb] at hk
    exact h k (prefix_append_of_last_not_mem label0 z pad hz _ hk)
  · have hz2 : z ∈ (b ++ pad).drop k := hk.subset (by simp)
    have hz3 : z ∈ b ++ pad := List.mem_of_mem_drop hz2
    have e : (b ++ pad).drop k = pad.drop (k - b.length) := by
      rw [List.drop_append_eq_append_drop, List.drop_eq_nil_of_le (by omega), List.nil_append]
    rw [e] at hz2
    exact hz (List.mem_of_mem_drop hz2)

theorem mem_repeatFiller (c : Byte) (k : Nat) (h : c ∈ repeatFiller k) :
    c ∈ FILLER_PATTERN_TEXT := by
  induction k with
  | zero => exact absurd h (by simp [repeatFiller])
  | succ n ih =>
    unfold repeatFiller at h
    rcases List.mem_append.mp h with h1 | h1
    · exact h1
    · exact ih h1

theorem charAt_append_left (a r : Text) (p : Nat) (hp : p < a.length) :
    charAt (a ++ r) p = charAt a p := by
  unfold charAt
  rw [List.getD_eq_getElem?_getD, List.getD_eq_getElem?_getD, List.getElem?_append_left hp]

theorem charAt_mem (y : Text) (i : Nat) (hi : i < y.length) : charAt y i ∈ y := by
  unfold charAt
  rw [List.getD_eq_getElem y 0 hi]
  exact List.getElem_mem _

theorem toNat_max_cast (n : Nat) : (max ((n : Nat) : Int) 0).toNat = n := by omega

theorem numericField_eq (g : NumericField) (s e : Nat) (v : Int) (h1 : g.fieldStart = s)
    (h2 : g.fieldEnd = e) (h3 : g.numericValue = v) : g = ⟨s, e, v⟩ := by
  cases g
  simp only at h1 h2 h3
  rw [h1, h2, h3]

theorem slice_mid (a y b : Text) : slice (a ++ (y ++ b)) a.length (a.length + y.length) = y := by
  unfold slice
  rw [← List.append_assoc, show a.length + y.length = (a ++ y).length by simp,
    List.take_left, List.drop_left]

theorem charAt_mid (a y b : Text) (i : Nat) (hi : i < y.length) :
    charAt (a ++ (y ++ b)) (a.length + i) = charAt y i := by
  rw [charAt_append_right, charAt_append_left _ _ _ hi]

theorem charAt_after (a y b : Text) (i : Nat) :
    charAt (a ++ (y ++ b)) (a.length + y.length + i) = charAt b i := by
  rw [Nat.add_assoc, charAt_append_right, charAt_append_right]

theorem digit_after_field (a x b : Text) (ss : Int) (f : NumericField)
    (hf : findFirstNumberInConfig (a ++ (x ++ b)) ss = some f)
    (hs : f.fieldStart = a.length) (he : f.fieldEnd = a.length + x.length) :
    isDigit (charAt b 0) = false := by
  obtain ⟨_, _, h3, _, h5⟩ := findFirstNumberInConfig_of_some _ _ f hf
  rw [hs] at h3 h5
  obtain ⟨_, _, _, _, n5, _⟩ := numberAt_spec _ _ h3
  rw [← h5, he] at n5
  have := charAt_after a x b 0
  rw [Nat.add_zero] at this
  rw [this] at n5
  exact n5

theorem findFirstNumberInConfig_replace (a x y b b2 : Text) (ss : Nat) (f : NumericField)
    (hf : findFirstNumberInConfig (a ++ (x ++ b)) (ss : Int) = some f)
    (hs : f.fieldStart = a.length)
    (hb : a.length = 0 ∨ isSign (charAt (a ++ (x ++ b)) (a.length - 1)) = false)
    (hy1 : y ≠ []) (hy2 : ∀ c ∈ y, isDigit c = true)
    (hb0 : isDigit (charAt b2 0) = false) :
    findFirstNumberInConfig (a ++ (y ++ b2)) (ss : Int)
      = some ⟨a.length, a.length + y.length, wrapLong (decimalValue y)⟩ := by
  have hypos : 0 < y.length := List.length_pos.mpr hy1
  obtain ⟨h1, h2, h3, h4, h5⟩ := findFirstNumberInConfig_of_some _ _ f hf
  rw [toNat_max_cast] at h1 h4
  rw [hs] at h1 h3 h4 h5
  have hyd : ∀ i, i < y.length → isDigit (charAt (a ++ (y ++ b2)) (a.length + i)) = true := by
    intro i hi
    rw [charAt_mid a y b2 i hi]
    exact hy2 _ (charAt_mem y i hi)
  have hy0 : isDigit (charAt (a ++ (y ++ b2)) a.length) = true := by
    have := hyd 0 hypos
    rw [Nat.add_zero] at this
    exact this
  have hstart : startsNumber (a ++ (y ++ b2)) a.length = true := startsNumber_of_digit _ _ hy0
  have hbefore : ∀ p, ss ≤ p → p < a.length → startsNumber (a ++ (y ++ b2)) p = false := by
    intro p hp1 hp2
    have hold := h4 p hp1 hp2
    unfold startsNumber at hold ⊢
    rw [charAt_append_left _ _ p hp2] at hold ⊢
    by_cases hp3 : p + 1 < a.length
    · rw [charAt_append_left _ _ (p + 1) hp3] at hold ⊢
      exact hold
    · have hpa : a.length - 1 = p := by omega
      rcases hb with hb | hb
      · omega
      · rw [hpa, charAt_append_left _ _ p hp2] at hb
        rw [Bool.or_eq_false_iff] at hold
        rw [hold.1, hb]
        rfl
  rcases findFirstNumberInConfig_cases (a ++ (y ++ b2)) (ss : Int) with
    ⟨_, c2⟩ | ⟨s, c1, c2, c3, c4, c5⟩
  · rw [toNat_max_cast] at c2
    have := c2 a.length h1 (by simp only [List.length_append]; omega)
    rw [hstart] at this
    exact absurd this (by decide)
  · rw [toNat_max_cast] at c1 c4
    have hsa : s = a.length := by
      by_contra hne
      by_cases hlt : s < a.length
      · have := hbefore s c1 hlt
        rw [c3] at this
        exact absurd this (by decide)
      · have := c4 a.length h1 (by omega)
        rw [hstart] at this
        exact absurd this (by decide)
    rw [c5, hsa]
    obtain ⟨m1, m2, m3, m4, m5, m6⟩ := numberAt_spec _ _ hstart
    have hds : digitStart (a ++ (y ++ b2)) a.length = a.length := by
      unfold digitStart
      rw [isDigit_not_sign _ hy0]
      rfl
    rw [hds] at m2 m4 m6
    have hend : (numberAt (a ++ (y ++ b2)) a.length).fieldEnd = a.length + y.length := by
      by_contra hne
      by_cases hlt : (numberAt (a ++ (y ++ b2)) a.length).fieldEnd < a.length + y.length
      · have := hyd ((numberAt (a ++ (y ++ b2)) a.length).fieldEnd - a.length) (by omega)
        rw [show a.length + ((numberAt (a ++ (y ++ b2)) a.length).fieldEnd - a.length)
          = (numberAt (a ++ (y ++ b2)) a.length).fieldEnd by omega, m5] at this
        exact absurd this (by decide)
      · have := m4 (a.length + y.length) (by omega) (by omega)
        have hc := charAt_after a y b2 0
        rw [Nat.add_zero] at hc
        rw [hc, hb0] at this
        exact absurd this (by decide)
    have h45 : charAt (a ++ (y ++ b2)) a.length ≠ 45 := by
      intro e
      rw [e] at hy0
      exact absurd hy0 (by decide)
    congr 1
    apply numericField_eq _ _ _ _ m1 hend
    rw [m6, hend, slice_mid, if_neg h45, Int.one_mul]

theorem findFirstNumberInConfig_some_of_digit (t : Text) (ss p : Nat) (h1 : ss ≤ p)
    (h2 : isDigit (charAt t p) = true) : findFirstNumberInConfig t (ss : Int) ≠ none := by
  intro hn
  rw [findFirstNumberInConfig_eq_none_iff, toNat_max_cast] at hn
  have := hn p h1 (lt_length_of_digit t p h2)
  rw [h2] at this
  exact absurd this (by decide)

theorem findFirstNumberInConfig_after (a x b : Text) (σ : Nat) :
    findFirstNumberInConfig (a ++ (x ++ b)) ((σ + a.length + x.length : Nat) : Int) = none ↔
      ∀ i, σ ≤ i → i < b.length → isDigit (charAt b i) = false := by
  rw [findFirstNumberInConfig_eq_none_iff, toNat_max_cast]
  constructor
  · intro h i h1 h2
    have := h (a.length + x.length + i) (by omega) (by simp only [List.length_append]; omega)
    rw [charAt_after] at this
    exact this
  · intro h p h1 h2
    have := h (p - (a.length + x.length)) (by omega) (by
      simp only [List.length_append] at h2; omega)
    rw [← charAt_after a x b, show a.length + x.length + (p - (a.length + x.length)) = p by
      omega] at this
    exact this

theorem locateNumericField_source (text : Text) (f : NumericField)
    (h : locateNumericField text = some f) :
    ∃ from_ : Int, findFirstNumberInConfig text from_ = some f := by
  unfold locateNumericField at h
  split at h
  · rename_i g hg
    injection h with h
    subst h
    rcases findLabeledNumberField_cases text (lit "balance") with h1 | ⟨from_, h1⟩
    · rw [h1] at hg; exact absurd hg (by simp)
    · exact ⟨from_, by rw [← h1]; exact hg⟩
  · split at h
    · rename_i g hg
      injection h with h
      subst h
      rcases findLabeledNumberField_cases text (lit "counter") with h1 | ⟨from_, h1⟩
      · rw [h1] at hg; exact absurd hg (by simp)
      · exact ⟨from_, by rw [← h1]; exact hg⟩
    · exact ⟨0, h⟩

theorem take_slice_drop (t : Text) (s e : Nat) (h1 : s ≤ e) :
    t.take s ++ (slice t s e ++ t.drop e) = t := by
  unfold slice
  have : t.take s = (t.take e).take s := by
    rw [List.take_take, Nat.min_eq_left h1]
  rw [← List.append_assoc, this, List.take_append_drop, List.take_append_drop]

theorem goodLabel_balance : GoodLabel (lit "balance") := by
  unfold GoodLabel
  exact ⟨by decide!, by decide!, by decide!⟩

theorem goodLabel_counter : GoodLabel (lit "counter") := by
  unfold GoodLabel
  exact ⟨by decide!, by decide!, by decide!⟩

theorem charAt_of_initial (b2 b : Text) (h : b2 <+: b) (i : Nat) (hi : i < b2.length) :
    charAt b2 i = charAt b i := by
  obtain ⟨r, hr⟩ := h
  rw [← hr, charAt_append_left _ _ _ hi]

theorem findLabeledNumberField_transfer (label : Text) (hg : GoodLabel label)
    (a x y b b2 : Text) (f : NumericField)
    (ha : NoNull a) (hbn : NoNull b) (hb2n : NoNull b2)
    (hx1 : x ≠ []) (hx2 : ∀ c ∈ x, isNumeric c = true)
    (hxd : ∃ p, a.length ≤ p ∧ isDigit (charAt (a ++ (x ++ b)) p) = true)
    (hs : f.fieldStart = a.length)
    (hb : a.length = 0 ∨ isSign (charAt (a ++ (x ++ b)) (a.length - 1)) = false)
    (hy1 : y ≠ []) (hy2 : ∀ c ∈ y, isDigit c = true)
    (hb0 : isDigit (charAt b2 0) = false) :
    (findLabeledNumberField (a ++ (x ++ b)) label = some f →
      (∀ ss, labelPlan a b label = some (Sum.inl ss) →
        labelPlan a b2 label = some (Sum.inl ss)) →
      findLabeledNumberField (a ++ (y ++ b2)) label
        = some ⟨a.length, a.length + y.length, wrapLong (decimalValue y)⟩) ∧
    (findLabeledNumberField (a ++ (x ++ b)) label = none →
      (labelPlan a b2 label = none ∨
        (labelPlan a b2 label = labelPlan a b label ∧ b2 <+: b)) →
      findLabeledNumberField (a ++ (y ++ b2)) label = none) := by
  have hy3 : ∀ c ∈ y, isNumeric c = true := by
    intro c hc
    unfold isNumeric
    rw [hy2 c hc]
    rfl
  have hxpos : 0 < x.length := List.length_pos.mpr hx1
  rw [findLabeledNumberField_plan label hg a b ha hbn x hx1 hx2,
    findLabeledNumberField_plan label hg a b2 ha hb2n y hy1 hy3]
  constructor
  · intro h hS
    cases hp : labelPlan a b label with
    | none =>
      rw [hp] at h
      exact absurd h (by simp [searchAfterLabel])
    | some v =>
      cases v with
      | inl ss =>
        rw [hp] at h
        rw [hS ss hp]
        simp only [searchAfterLabel] at h ⊢
        exact findFirstNumberInConfig_replace a x y b b2 ss f h hs hb hy1 hy2 hb0
      | inr σ =>
        rw [hp] at h
        simp only [searchAfterLabel] at h
        obtain ⟨h1, _⟩ := findFirstNumberInConfig_of_some _ _ f h
        rw [toNat_max_cast, hs] at h1
        omega
  · intro h hF
    rcases hF with hF | ⟨hF, hpre⟩
    · rw [hF]
      rfl
    · rw [hF]
      cases hp : labelPlan a b label with
      | none => rfl
      | some v =>
        cases v with
        | inl ss =>
          rw [hp] at h
          simp only [searchAfterLabel] at h
          have hss := labelPlan_inl_le label hg.1 a b ss hp
          obtain ⟨p, hp1, hp2⟩ := hxd
          exact absurd h (findFirstNumberInConfig_some_of_digit _ ss p (by omega) hp2)
        | inr σ =>
          rw [hp] at h
          simp only [searchAfterLabel] at h ⊢
          rw [findFirstNumberInConfig_after] at h ⊢
          intro i hi1 hi2
          rw [charAt_of_initial b2 b hpre i hi2]
          exact h i hi1 (by have := hpre.length_le; omega)

theorem locateNumericField_transfer (a x y b b2 : Text) (f : NumericField)
    (ha : NoNull a) (hbn : NoNull b) (hb2n : NoNull b2)
    (hx1 : x ≠ []) (hx2 : ∀ c ∈ x, isNumeric c = true)
    (hxd : ∃ p, a.length ≤ p ∧ isDigit (charAt (a ++ (x ++ b)) p) = true)
    (hs : f.fieldStart = a.length)
    (hb : a.length = 0 ∨ isSign (charAt (a ++ (x ++ b)) (a.length - 1)) = false)
    (hy1 : y ≠ []) (hy2 : ∀ c ∈ y, isDigit c = true)
    (hb0 : isDigit (charAt b2 0) = false)
    (hSb : findLabeledNumberField (a ++ (x ++ b)) (lit "balance") = some f →
      ∀ ss, labelPlan a b (lit "balance") = some (Sum.inl ss) →
        labelPlan a b2 (lit "balance") = some (Sum.inl ss))
    (hFb : findLabeledNumberField (a ++ (x ++ b)) (lit "balance") = none →
      (labelPlan a b2 (lit "balance") = none ∨
        (labelPlan a b2 (lit "balance") = labelPlan a b (lit "balance") ∧ b2 <+: b)))
    (hSc : findLabeledNumberField (a ++ (x ++ b)) (lit "balance") = none →
      findLabeledNumberField (a ++ (x ++ b)) (lit "counter") = some f →
      ∀ ss, labelPlan a b (lit "counter") = some (Sum.inl ss) →
        labelPlan a b2 (lit "counter") = some (Sum.inl ss))
    (hFc : findLabeledNumberField (a ++ (x ++ b)) (lit "balance") = none →
      findLabeledNumberField (a ++ (x ++ b)) (lit "counter") = none →
      (labelPlan a b2 (lit "counter") = none ∨
        (labelPlan a b2 (lit "counter") = labelPlan a b (lit "counter") ∧ b2 <+: b)))
    (hloc : locateNumericField (a ++ (x ++ b)) = some f) :
    locateNumericField (a ++ (y ++ b2))
      = some ⟨a.length, a.length + y.length, wrapLong (decimalValue y)⟩ := by
  obtain ⟨b1, b2'⟩ := findLabeledNumberField_transfer (lit "balance") goodLabel_balance
    a x y b b2 f ha hbn hb2n hx1 hx2 hxd hs hb hy1 hy2 hb0
  obtain ⟨c1, c2⟩ := findLabeledNumberField_transfer (lit "counter") goodLabel_counter
    a x y b b2 f ha hbn hb2n hx1 hx2 hxd hs hb hy1 hy2 hb0
  unfold locateNumericField at hloc ⊢
  cases hbal : findLabeledNumberField (a ++ (x ++ b)) (lit "balance") with
  | some g =>
    rw [hbal] at hloc
    simp only [Option.some.injEq] at hloc
    rw [hloc] at hbal
    rw [b1 hbal (hSb hbal)]
  | none =>
    rw [hbal] at hloc
    rw [b2' hbal (hFb hbal)]
    cases hctr : findLabeledNumberField (a ++ (x ++ b)) (lit "counter") with
    | some g =>
      rw [hctr] at hloc
      simp only [Option.some.injEq] at hloc
      rw [hloc] at hctr
      rw [c1 hctr (hSc hbal hctr)]
    | none =>
      rw [hctr] at hloc
      rw [c2 hctr (hFc hbal hctr)]
      simp only at hloc ⊢
      exact findFirstNumberInConfig_replace a x y b b2 0 f hloc hs hb hy1 hy2 hb0

theorem isNumeric_of_startsNumber (t : Text) (s : Nat) (h : startsNumber t s = true) :
    isNumeric (charAt t s) = true := by
  unfold startsNumber at h
  unfold isNumeric
  cases hd : isDigit (charAt t s) with
  | true => rfl
  | false =>
    rw [hd] at h
    simp only [Bool.false_or, Bool.and_eq_true] at h
    rw [h.1]
    rfl

theorem stringOfLong_ne_nil (v : Int) (hv : 0 ≤ v) : stringOfLong v ≠ [] := by
  obtain ⟨_, _, h3, h4⟩ := stringOfLong_nonneg v hv
  by_cases h0 : v = 0
  · rw [h4 h0]; simp
  · obtain ⟨c, rest, hc, _⟩ := h3 h0
    rw [hc]; simp

theorem spliceCounter_newValue_inRange (w : Text) (f : NumericField) :
    InLongRange (spliceCounter w f).newValue := by
  have h := wrapLong_inRange (f.numericValue - 1)
  unfold InLongRange at h ⊢
  simp only [spliceCounter]
  split <;> omega

/-! ### Padding and truncation of the spliced record -/

theorem enforceConfigLength_pad_eq (t : Text) (h : t.length < MIN_CONFIG_BYTES) :
    ∃ k, enforceConfigLength t = t ++ (lit " [auto-fill v2] " ++ repeatFiller k) ∧
      (MIN_CONFIG_BYTES ≤ (t ++ lit " [auto-fill v2] ").length → k = 0) := by
  have hmin : MIN_CONFIG_BYTES = 97 := rfl
  obtain ⟨k, e1, e2, e3⟩ := appendFillerLoop_shape
    (MIN_CONFIG_BYTES - (t ++ lit " [auto-fill v2] ").length)
    (t ++ lit " [auto-fill v2] ") (le_refl _)
  have hlen : (t ++ lit " [auto-fill v2] " ++ repeatFiller k).length
      = (t ++ lit " [auto-fill v2] ").length + 45 * k := by
    rw [List.length_append, repeatFiller_length]
  have hm : (t ++ lit " [auto-fill v2] ").length = t.length + 16 := by
    rw [List.length_append, marker_length]
  have hk : (t ++ lit " [auto-fill v2] ").length + 45 * k ≤ 141 := by
    cases k with
    | zero => omega
    | succ m =>
      have := e3 m (by omega)
      omega
  refine ⟨k, ?_, ?_⟩
  · unfold enforceConfigLength
    simp only [if_pos h, e1]
    rw [if_neg (by rw [hlen, MAX_CONFIG_BYTES_eq]; omega), List.append_assoc]
  · intro hge
    cases k with
    | zero => rfl
    | succ m =>
      have := e3 0 (by omega)
      omega

theorem enforceConfigLength_cut (t : Text) (h : MAX_CONFIG_BYTES < t.length) :
    enforceConfigLength t = t.take MAX_CONFIG_BYTES := by
  have hmax := MAX_CONFIG_BYTES_eq
  have hmin : MIN_CONFIG_BYTES = 97 := rfl
  unfold enforceConfigLength
  simp only [if_neg (show ¬ t.length < MIN_CONFIG_BYTES by omega)]
  rw [if_pos h, remove_eq_take]

theorem not_mem_padding (c : Byte) (k : Nat) (h1 : c ∉ lit " [auto-fill v2] ")
    (h2 : c ∉ FILLER_PATTERN_TEXT) : c ∉ lit " [auto-fill v2] " ++ repeatFiller k := by
  intro h
  rcases List.mem_append.mp h with h | h
  · exact h1 h
  · exact h2 (mem_repeatFiller c k h)

theorem noNull_padding (k : Nat) : NoNull (lit " [auto-fill v2] " ++ repeatFiller k) := by
  intro c hc h0
  rw [h0] at hc
  exact not_mem_padding 0 k (by decide!) (by decide!) hc

theorem charAt_zero_append_padding (b : Text) (k : Nat)
    (h : isDigit (charAt b 0) = false) :
    isDigit (charAt (b ++ (lit " [auto-fill v2] " ++ repeatFiller k)) 0) = false := by
  cases b with
  | nil => rfl
  | cons c cs => exact h

theorem charAt_zero_take (b : Text) (m : Nat) (h : isDigit (charAt b 0) = false) :
    isDigit (charAt (b.take m) 0) = false := by
  cases m with
  | zero => rfl
  | succ n =>
    rw [charAt_take b (n + 1) 0 (by omega)]
    exact h

theorem strstr_balance_padding (b : Text) (k : Nat) (h : strstr b (lit "balance") = none) :
    strstr (b ++ (lit " [auto-fill v2] " ++ repeatFiller k)) (lit "balance") = none :=
  strstr_append_of_last_not_mem (lit "balanc") 101 _
    (not_mem_padding 101 k (by decide!) (by decide!)) b h

theorem strstr_counter_padding (b : Text) (k : Nat) (h : strstr b (lit "counter") = none) :
    strstr (b ++ (lit " [auto-fill v2] " ++ repeatFiller k)) (lit "counter") = none :=
  strstr_append_of_last_not_mem (lit "counte") 114 _
    (not_mem_padding 114 k (by decide!) (by decide!)) b h

theorem labelPlan_inl_padding (label : Text) (hg : GoodLabel label) (a x b : Text) (k : Nat)
    (hx1 : x ≠ []) (hx2 : ∀ c ∈ x, isNumeric c = true)
    (hk : k = 0 ∨ ColonAfter label (a ++ (x ++ b))) (ss : Nat)
    (h : labelPlan a b label = some (Sum.inl ss)) :
    labelPlan a (b ++ (lit " [auto-fill v2] " ++ repeatFiller k)) label
      = some (Sum.inl ss) := by
  apply labelPlan_inl_append a b _ label ss h
  intro p hA hC hB
  rcases hk with hk | hk
  · subst hk
    decide!
  · exact (colonAfter_split label hg.1 hg.2.1 a x b hx1 hx2 hk p hA hC hB).elim

theorem labelPlan_none_padding (label : Text) (hg : GoodLabel label) (a x b pad : Text)
    (hx1 : x ≠ []) (hx2 : ∀ c ∈ x, isNumeric c = true)
    (hpad : strstr b label = none → strstr (b ++ pad) label = none)
    (h : Absent label (a ++ (x ++ b))) :
    labelPlan a (b ++ pad) label = none := by
  obtain ⟨h1, h2⟩ := absent_split label hg.1 hg.2.1 a x b hx1 hx2 h
  exact labelPlan_none_of_absent a _ label h1 (hpad h2)

theorem labelPlan_cut (label : Text) (hg : GoodLabel label) (a x b : Text) (m : Nat)
    (hx1 : x ≠ []) (hx2 : ∀ c ∈ x, isNumeric c = true)
    (h : (58 : Byte) ∈ b.drop m → Absent label (a ++ (x ++ b))) :
    labelPlan a (b.take m) label = none ∨
      (labelPlan a (b.take m) label = labelPlan a b label ∧ b.take m <+: b) := by
  by_cases hc : (58 : Byte) ∈ b.drop m
  · left
    obtain ⟨h1, h2⟩ := absent_split label hg.1 hg.2.1 a x b hx1 hx2 (h hc)
    exact labelPlan_none_of_absent a _ label h1 (strstr_take_none label b m h2)
  · rcases labelPlan_take a b label hg.1 m hc with h1 | h1
    · exact Or.inl h1
    · exact Or.inr ⟨h1, List.take_prefix _ _⟩

/-- C15 (amended). The counter survives a transaction: in a text without null byte in
which `locateNumericField` finds the field `f`, let `s` be the record that
`updateCounterInConfig` hands to `enforceConfigLength` (`splicedRecord`: the prefix, the
decimal text of `newValue`, the suffix).  Suppose that the byte just before the field is
not a sign; that the new digits end within the first `MAX_CONFIG_BYTES` bytes; that,
when `s` is padded (shorter than `MIN_CONFIG_BYTES`) or a `:` is among the bytes cut off
`s`, every label tried without success before the field was found is absent from the
text; and that, when at least one filler copy is appended (`s` with the marker is still
shorter than `MIN_CONFIG_BYTES`) and the field was found through a label, a `:` stands
at or after that label.  Then `locateNumericField` on the record returned by
`updateCounterInConfig`, which is `enforceConfigLength s`, finds a field with the same
start offset, spanning the new digits, whose value is the reported `newValue`. -/
theorem counter_survives (text : Text) (f : NumericField)
    (hnull : NoNull text)
    (hloc : locateNumericField text = some f)
    (hb : f.fieldStart = 0 ∨ isSign (charAt text (f.fieldStart - 1)) = false)
    (hfit : f.fieldStart + (stringOfLong (updateCounterInConfig text).newValue).length
      ≤ MAX_CONFIG_BYTES)
    (hlab : (splicedRecord text f (updateCounterInConfig text).newValue).length
          < MIN_CONFIG_BYTES ∨
        ColonCut (splicedRecord text f (updateCounterInConfig text).newValue) →
      (findLabeledNumberField text (lit "balance") = none →
        Absent (lit "balance") text) ∧
      (findLabeledNumberField text (lit "balance") = none →
        findLabeledNumberField text (lit "counter") = none →
        Absent (lit "counter") text))
    (hcol : (splicedRecord text f (updateCounterInConfig text).newValue
          ++ lit " [auto-fill v2] ").length < MIN_CONFIG_BYTES →
      (findLabeledNumberField text (lit "balance") = some f →
        ColonAfter (lit "balance") text) ∧
      (findLabeledNumberField text (lit "balance") = none →
        findLabeledNumberField text (lit "counter") = some f →
        ColonAfter (lit "counter") text)) :
    (updateCounterInConfig text).config
      = enforceConfigLength (splicedRecord text f (updateCounterInConfig text).newValue) ∧
    locateNumericField (updateCounterInConfig text).config
      = some ⟨f.fieldStart,
          f.fieldStart + (stringOfLong (updateCounterInConfig text).newValue).length,
          (updateCounterInConfig text).newValue⟩ := by
  have hupd := updateCounterInConfig_of_located text f hloc
  rw [hupd] at hfit hlab hcol ⊢
  have hcfg : (spliceCounter text f).config
      = enforceConfigLength (splicedRecord text f (spliceCounter text f).newValue) := by
    rw [spliceCounter_config]
    rfl
  refine ⟨hcfg, ?_⟩
  rw [hcfg]
  obtain ⟨from_, hff⟩ := locateNumericField_source text f hloc
  obtain ⟨_, h2, h3, _, h5⟩ := findFirstNumberInConfig_of_some text from_ f hff
  obtain ⟨_, n2, n3, n4, _, _⟩ := numberAt_spec text f.fieldStart h3
  rw [← h5] at n2 n3 n4
  obtain ⟨d1, d2, d3⟩ := digitStart_digit text f.fieldStart h3
  have hnn := spliceCounter_newValue_nonneg text f
  obtain ⟨y1, y2, _, _⟩ := stringOfLong_nonneg _ hnn
  have hy0 := stringOfLong_ne_nil _ hnn
  have hr := spliceCounter_newValue_inRange text f
  have hsplit := take_slice_drop text f.fieldStart f.fieldEnd (by omega)
  have hla : (text.take f.fieldStart).length = f.fieldStart := by
    rw [List.length_take]; omega
  have hlx : (slice text f.fieldStart f.fieldEnd).length = f.fieldEnd - f.fieldStart := by
    unfold slice
    rw [List.length_drop, List.length_take]; omega
  have hx1 : slice text f.fieldStart f.fieldEnd ≠ [] := by
    intro e
    rw [e] at hlx
    simp only [List.length_nil] at hlx
    omega
  have hx2 : ∀ c ∈ slice text f.fieldStart f.fieldEnd, isNumeric c = true := by
    intro c hc
    obtain ⟨m, m1, m2, _, m4⟩ := mem_slice text _ _ c hc
    rw [← m4]
    by_cases hm : m = f.fieldStart
    · rw [hm]; exact isNumeric_of_startsNumber text _ h3
    · unfold isNumeric
      rw [n4 m (by omega) m2]
      rfl
  have hna : NoNull (text.take f.fieldStart) := noNull_take _ _ hnull
  have hnb : NoNull (text.drop f.fieldEnd) := noNull_drop _ _ hnull
  have hb0 : isDigit (charAt (text.drop f.fieldEnd) 0) = false :=
    digit_after_field (text.take f.fieldStart) (slice text f.fieldStart f.fieldEnd)
      (text.drop f.fieldEnd) from_ f (by rw [hsplit]; exact hff) (by rw [hla])
      (by rw [hla, hlx]; omega)
  have hS : splicedRecord text f (spliceCounter text f).newValue
      = text.take f.fieldStart ++
        (stringOfLong (spliceCounter text f).newValue ++ text.drop f.fieldEnd) := by
    unfold splicedRecord
    rw [List.append_assoc]
  have key : ∀ b2 : Text, NoNull b2 → isDigit (charAt b2 0) = false →
      (findLabeledNumberField text (lit "balance") = some f →
        ∀ ss, labelPlan (text.take f.fieldStart) (text.drop f.fieldEnd) (lit "balance")
            = some (Sum.inl ss) →
          labelPlan (text.take f.fieldStart) b2 (lit "balance") = some (Sum.inl ss)) →
      (findLabeledNumberField text (lit "balance") = none →
        (labelPlan (text.take f.fieldStart) b2 (lit "balance") = none ∨
          (labelPlan (text.take f.fieldStart) b2 (lit "balance")
            = labelPlan (text.take f.fieldStart) (text.drop f.fieldEnd) (lit "balance") ∧
            b2 <+: text.drop f.fieldEnd))) →
      (findLabeledNumberField text (lit "balance") = none →
        findLabeledNumberField text (lit "counter") = some f →
        ∀ ss, labelPlan (text.take f.fieldStart) (text.drop f.fieldEnd) (lit "counter")
            = some (Sum.inl ss) →
          labelPlan (text.take f.fieldStart) b2 (lit "counter") = some (Sum.inl ss)) →
      (findLabeledNumberField text (lit "balance") = none →
        findLabeledNumberField text (lit "counter") = none →
        (labelPlan (text.take f.fieldStart) b2 (lit "counter") = none ∨
          (labelPlan (text.take f.fieldStart) b2 (lit "counter")
            = labelPlan (text.take f.fieldStart) (text.drop f.fieldEnd) (lit "counter") ∧
            b2 <+: text.drop f.fieldEnd))) →
      locateNumericField (text.take f.fieldStart ++
          (stringOfLong (spliceCounter text f).newValue ++ b2))
        = some ⟨f.fieldStart,
            f.fieldStart + (stringOfLong (spliceCounter text f).newValue).length,
            (spliceCounter text f).newValue⟩ := by
    intro b2 hb2n hb20 kSb kFb kSc kFc
    have hres := locateNumericField_transfer (text.take f.fieldStart)
      (slice text f.fieldStart f.fieldEnd) (stringOfLong (spliceCounter text f).newValue)
      (text.drop f.fieldEnd) b2 f hna hnb hb2n hx1 hx2
      ⟨digitStart text f.fieldStart, by rw [hla]; exact d2, by rw [hsplit]; exact d1⟩
      (by rw [hla]) (by rw [hla, hsplit]; exact hb) hy0 y1 hb20
      (by rw [hsplit]; exact kSb) (by rw [hsplit]; exact kFb)
      (by rw [hsplit]; exact kSc) (by rw [hsplit]; exact kFc)
      (by rw [hsplit]; exact hloc)
    rw [hres, hla, y2, wrapLong_of_inRange _ hr]
  have hmax := MAX_CONFIG_BYTES_eq
  have hmin : MIN_CONFIG_BYTES = 97 := rfl
  by_cases hshort : (splicedRecord text f (spliceCounter text f).newValue).length
      < MIN_CONFIG_BYTES
  · obtain ⟨k, henf, hk0⟩ := enforceConfigLength_pad_eq _ hshort
    obtain ⟨hl1, hl2⟩ := hlab (Or.inl hshort)
    have hkc : ∀ label : Text, ((splicedRecord text f (spliceCounter text f).newValue
          ++ lit " [auto-fill v2] ").length < MIN_CONFIG_BYTES →
          ColonAfter label text) →
        (k = 0 ∨ ColonAfter label (text.take f.fieldStart ++
          (slice text f.fieldStart f.fieldEnd ++ text.drop f.fieldEnd))) := by
      intro label hc
      rw [hsplit]
      by_cases hlt : (splicedRecord text f (spliceCounter text f).newValue
          ++ lit " [auto-fill v2] ").length < MIN_CONFIG_BYTES
      · exact Or.inr (hc hlt)
      · exact Or.inl (hk0 (by omega))
    rw [henf, hS, List.append_assoc, List.append_assoc]
    apply key _ (noNull_append _ _ hnb (noNull_padding k))
      (charAt_zero_append_padding _ k hb0)
    · intro hbal ss hp
      exact labelPlan_inl_padding (lit "balance") goodLabel_balance _
        (slice text f.fieldStart f.fieldEnd) _ k hx1 hx2
        (hkc _ (fun hlt => (hcol hlt).1 hbal)) ss hp
    · intro hbal
      left
      exact labelPlan_none_padding (lit "balance") goodLabel_balance _
        (slice text f.fieldStart f.fieldEnd) _ _ hx1 hx2
        (strstr_balance_padding _ k) (by rw [hsplit]; exact hl1 hbal)
    · intro hbal hctr ss hp
      exact labelPlan_inl_padding (lit "counter") goodLabel_counter _
        (slice text f.fieldStart f.fieldEnd) _ k hx1 hx2
        (hkc _ (fun hlt => (hcol hlt).2 hbal hctr)) ss hp
    · intro hbal hctr
      left
      exact labelPlan_none_padding (lit "counter") goodLabel_counter _
        (slice text f.fieldStart f.fieldEnd) _ _ hx1 hx2
        (strstr_counter_padding _ k) (by rw [hsplit]; exact hl2 hbal hctr)
  · by_cases hlong : MAX_CONFIG_BYTES
        < (splicedRecord text f (spliceCounter text f).newValue).length
    · have hcut : (58 : Byte) ∈ (text.drop f.fieldEnd).drop
            (MAX_CONFIG_BYTES - (f.fieldStart
              + (stringOfLong (spliceCounter text f).newValue).length)) →
          ColonCut (splicedRecord text f (spliceCounter text f).newValue) := by
        intro hm
        unfold ColonCut
        rw [hS, ← List.append_assoc, List.drop_append_eq_append_drop,
          List.length_append, hla]
        exact List.mem_append_right _ hm
      have htake : (splicedRecord text f (spliceCounter text f).newValue).take
          MAX_CONFIG_BYTES = text.take f.fieldStart ++
            (stringOfLong (spliceCounter text f).newValue ++
              (text.drop f.fieldEnd).take (MAX_CONFIG_BYTES - (f.fieldStart
                + (stringOfLong (spliceCounter text f).newValue).length))) := by
        rw [hS, ← List.append_assoc, List.take_append_eq_append_take,
          List.take_of_length_le (by rw [List.length_append, hla]; exact hfit),
          List.length_append, hla, List.append_assoc]
      rw [enforceConfigLength_cut _ hlong, htake]
      apply key _ (noNull_take _ _ hnb) (charAt_zero_take _ _ hb0)
      · intro _ ss hp
        exact labelPlan_inl_take _ _ _ _ ss hp
      · intro hbal
        exact labelPlan_cut (lit "balance") goodLabel_balance _
          (slice text f.fieldStart f.fieldEnd) _ _ hx1 hx2
          (fun hm => by rw [hsplit]; exact (hlab (Or.inr (hcut hm))).1 hbal)
      · intro _ _ ss hp
        exact labelPlan_inl_take _ _ _ _ ss hp
      · intro hbal hctr
        exact labelPlan_cut (lit "counter") goodLabel_counter _
          (slice text f.fieldStart f.fieldEnd) _ _ hx1 hx2
          (fun hm => by rw [hsplit]; exact (hlab (Or.inr (hcut hm))).2 hbal hctr)
    · rw [enforceConfigLength_of_bounds _ (by omega) (by omega), hS]
      exact key _ hnb hb0 (fun _ ss hp => hp) (fun _ => Or.inr ⟨rfl, List.prefix_refl _⟩)
        (fun _ _ ss hp => hp) (fun _ _ => Or.inr ⟨rfl, List.prefix_refl _⟩)

/-- Witness for C15: the 27 byte record of the worked example, `counter: 10 rest of
data...`.  Its splice has 26 bytes and is padded to 132 bytes; the counter 10 becomes 9
at the same offset 9 of the padded record. -/
theorem counter_survives_witness :
    locateNumericField (lit "counter: 10 rest of data...") = some ⟨9, 11, 10⟩ ∧
    (updateCounterInConfig (lit "counter: 10 rest of data...")).config.length = 132 ∧
    locateNumericField (updateCounterInConfig (lit "counter: 10 rest of data...")).config
      = some ⟨9, 10, 9⟩ :=
  ⟨by decide!, by decide!,
   (counter_survives (lit "counter: 10 rest of data...") ⟨9, 11, 10⟩ (by decide!)
      (by decide!) (by decide!) (by decide!) (by decide!) (by decide!)).2.trans
      (by decide!)⟩

/-- Counterexample to C15 as stated, on five null-free records of at most 256 bytes.
In `balance 5` the field is the `5` at offset 8, but the returned record is padded and
the field located in it is the `2` of the first filler copy at offset 47, after the
filler's `:`.  In `counter: 5 balance` the field is the `5` at offset 9, but in the
padded record the label `balance` leads to the `2` of the filler at offset 56.  In
`signedRecord` the field `-5` starts at offset 4 and `newValue` is 99, but in the
returned record the field starts at offset 3 and has the value -99.  In `fullRecord` the
field `0` at offset 255 becomes 99, the returned record is cut at 256 bytes, and the
value found in it is 9.  In `colonCutRecord` the field is the `0` at offset 9 and
`newValue` is 99, but the cut removes the only `:` after `balance`, and the field
located in the returned record is the `5` at offset 20. -/
theorem counter_lost :
    (lit "balance 5").length ≤ MAX_CONFIG_BYTES ∧ NoNull (lit "balance 5") ∧
    locateNumericField (lit "balance 5") = some ⟨8, 9, 5⟩ ∧
    (updateCounterInConfig (lit "balance 5")).newValue = 4 ∧
    locateNumericField (updateCounterInConfig (lit "balance 5")).config = some ⟨47, 48, 2⟩ ∧
    (lit "counter: 5 balance").length ≤ MAX_CONFIG_BYTES ∧
    NoNull (lit "counter: 5 balance") ∧
    locateNumericField (lit "counter: 5 balance") = some ⟨9, 10, 5⟩ ∧
    (updateCounterInConfig (lit "counter: 5 balance")).newValue = 4 ∧
    locateNumericField (updateCounterInConfig (lit "counter: 5 balance")).config
      = some ⟨56, 57, 2⟩ ∧
    signedRecord.length ≤ MAX_CONFIG_BYTES ∧ NoNull signedRecord ∧
    locateNumericField signedRecord = some ⟨4, 6, -5⟩ ∧
    (updateCounterInConfig signedRecord).newValue = 99 ∧
    locateNumericField (updateCounterInConfig signedRecord).config = some ⟨3, 6, -99⟩ ∧
    fullRecord.length ≤ MAX_CONFIG_BYTES ∧ NoNull fullRecord ∧
    locateNumericField fullRecord = some ⟨255, 256, 0⟩ ∧
    (updateCounterInConfig fullRecord).newValue = 99 ∧
    locateNumericField (updateCounterInConfig fullRecord).config = some ⟨255, 256, 9⟩ ∧
    colonCutRecord.length ≤ MAX_CONFIG_BYTES ∧ NoNull colonCutRecord ∧
    locateNumericField colonCutRecord = some ⟨9, 10, 0⟩ ∧
    (updateCounterInConfig colonCutRecord).newValue = 99 ∧
    locateNumericField (updateCounterInConfig colonCutRecord).config
      = some ⟨20, 21, 5⟩ := by
  decide!

end RfidProfile
